import Mathlib

/-!
Verification development for the in-building DEX engine of the Taurion GSP.

The repository sources at hand are the Python integration tests
(gametest/dex.py, gametest/buildings_config.py, gametest/pxtest.py); the
engine itself is part of the daemon whose implementation is not among the
given sources.  Following the specification document (spec.md), the engine
is therefore modelled here from the spec, with every concrete number
anchored to the assertions of the tests.  Definitions marked
"Modelled from the spec:" embed behavior whose implementation is missing
from the sources.
-/

namespace TaurionDex

/-- Pointwise update of a function map. -/
def upd {α β : Type} [DecidableEq α] (f : α → β) (a : α) (v : β) : α → β :=
  fun x => if x = a then v else f x

/-- Key identifying a per-building item inventory slot: (building id,
account name, item type), as used by `getFungibleInventory` in pxtest.py. -/
structure ItemKey where
  building : Nat
  account : String
  item : String
deriving DecidableEq, Repr

/-- An open order resting in an order book.  Fields follow spec.md section 3
(Order = {id, buildingId, item, account, side, price, quantityRemaining});
`quantity` is the remaining quantity, as reported by `getOrderbook` in
gametest/dex.py. -/
structure OrderRec where
  id : Nat
  building : Nat
  item : String
  account : String
  isBid : Bool
  price : Nat
  quantity : Nat
deriving DecidableEq, Repr

/-- An executed fill, as returned by the `gettradehistory` RPC
(gametest/dex.py lines 272-308). -/
structure Trade where
  height : Nat
  timestamp : Nat
  buildingId : Nat
  item : String
  price : Nat
  quantity : Nat
  cost : Nat
  seller : String
  buyer : String
deriving DecidableEq, Repr

/-- Modelled from the spec: the whole DEX-relevant game state (spec.md
sections 2-3): the Ledger (coin and item balances split available/reserved,
kept as integers so that non-negativity is a provable invariant rather than
a typing artifact), the open orders, the order-id counter, the append-only
trade history, and the per-building dex fee configuration (in basis points)
and owner.  Orders are kept as one list sorted by ascending id (creation
order); the per-(building, item) books of spec.md section 4.1 are sorted
views of it. -/
structure State where
  coinAvail : String → Int
  coinResv : String → Int
  itemAvail : ItemKey → Int
  itemResv : ItemKey → Int
  orders : List OrderRec
  nextId : Nat
  trades : List Trade
  dexfee : Nat → Nat
  owner : Nat → Option String

/-- Modelled from the spec: the primitive reversible mutations of spec.md
section 4.5 ("each Ledger/OrderBook mutation during the block is recorded
as a minimal inverse operation").  Balance changes are deltas; order
removal carries the full removed order so that it can be reinserted with
its remaining quantity; a quantity change carries old and new value. -/
inductive Op where
  | coinDelta (acct : String) (dAvail dResv : Int)
  | itemDelta (key : ItemKey) (dAvail dResv : Int)
  | insertOrd (o : OrderRec)
  | removeOrd (o : OrderRec)
  | setQty (oid : Nat) (oldQ newQ : Nat)
  | pushTrade (t : Trade)
  | popTrade (t : Trade)
  | setNextId (oldN newN : Nat)
deriving DecidableEq, Repr

/-- Insert an order into a list kept sorted by ascending id. -/
def insertById (o : OrderRec) : List OrderRec → List OrderRec
  | [] => [o]
  | x :: rest => if o.id < x.id then o :: x :: rest else x :: insertById o rest

/-- Remove the first order with the given id. -/
def eraseById (oid : Nat) : List OrderRec → List OrderRec
  | [] => []
  | x :: rest => if x.id = oid then rest else x :: eraseById oid rest

/-- Set the remaining quantity of the order with the given id. -/
def setQtyL (oid q : Nat) (l : List OrderRec) : List OrderRec :=
  l.map fun x => if x.id = oid then { x with quantity := q } else x

/-- Apply one primitive mutation to the state. -/
def applyOp (st : State) : Op → State
  | .coinDelta a da dr =>
      { st with
        coinAvail := upd st.coinAvail a (st.coinAvail a + da)
        coinResv := upd st.coinResv a (st.coinResv a + dr) }
  | .itemDelta k da dr =>
      { st with
        itemAvail := upd st.itemAvail k (st.itemAvail k + da)
        itemResv := upd st.itemResv k (st.itemResv k + dr) }
  | .insertOrd o => { st with orders := insertById o st.orders }
  | .removeOrd o => { st with orders := eraseById o.id st.orders }
  | .setQty oid _ newQ => { st with orders := setQtyL oid newQ st.orders }
  | .pushTrade t => { st with trades := st.trades ++ [t] }
  | .popTrade _ => { st with trades := st.trades.dropLast }
  | .setNextId _ newN => { st with nextId := newN }

/-- Apply a sequence of mutations in order. -/
def applyOps (st : State) (ops : List Op) : State :=
  ops.foldl applyOp st

/-- The inverse mutation, per spec.md section 4.5 ("credit X back" for a
debit, "reinsert order Y with remaining quantity Z" for a removal). -/
def invOp : Op → Op
  | .coinDelta a da dr => .coinDelta a (-da) (-dr)
  | .itemDelta k da dr => .itemDelta k (-da) (-dr)
  | .insertOrd o => .removeOrd o
  | .removeOrd o => .insertOrd o
  | .setQty oid oldQ newQ => .setQty oid newQ oldQ
  | .pushTrade t => .popTrade t
  | .popTrade t => .pushTrade t
  | .setNextId oldN newN => .setNextId newN oldN

/-- Undo a sequence of mutations: inverses, in reverse order. -/
def undoOps (st : State) (ops : List Op) : State :=
  applyOps st ((ops.map invOp).reverse)

/-- Strict sortedness of the global order list by id (ids unique and in
creation order). -/
def sortedById (l : List OrderRec) : Prop :=
  l.Pairwise fun a b => a.id < b.id

instance : DecidablePred sortedById := fun l =>
  List.instDecidablePairwise l

/-- The side condition under which a mutation is exactly invertible in a
given state (balance deltas always are; structural mutations need the
state to actually contain what they manipulate). -/
def preOk (st : State) : Op → Bool
  | .coinDelta _ _ _ => true
  | .itemDelta _ _ _ => true
  | .insertOrd o => st.orders.all fun x => x.id != o.id
  | .removeOrd o => decide (sortedById st.orders) && decide (o ∈ st.orders)
  | .setQty oid oldQ _ => st.orders.all fun x => x.id != oid || x.quantity == oldQ
  | .pushTrade _ => true
  | .popTrade t => st.trades.getLast? == some t
  | .setNextId oldN _ => st.nextId == oldN

/-- A run of mutations is ok when each is invertible in the state where it
is applied. -/
def okRun (st : State) : List Op → Bool
  | [] => true
  | op :: ops => preOk st op && okRun (applyOp st op) ops

/-- Ask ordering of spec.md section 4.1: ascending by price, ties broken by
ascending order id (oldest first). -/
def askRel (a b : OrderRec) : Prop :=
  a.price < b.price ∨ (a.price = b.price ∧ a.id ≤ b.id)

/-- Bid ordering of spec.md section 4.1: descending by price, ties broken
by ascending order id. -/
def bidRel (a b : OrderRec) : Prop :=
  b.price < a.price ∨ (a.price = b.price ∧ a.id ≤ b.id)

instance : DecidableRel askRel := fun a b => by
  unfold askRel; infer_instance

instance : DecidableRel bidRel := fun a b => by
  unfold bidRel; infer_instance

instance : IsTotal OrderRec askRel where
  total a b := by
    unfold askRel
    rcases Nat.lt_trichotomy a.price b.price with h | h | h
    · exact Or.inl (Or.inl h)
    · rcases Nat.le_total a.id b.id with h2 | h2
      · exact Or.inl (Or.inr ⟨h, h2⟩)
      · exact Or.inr (Or.inr ⟨h.symm, h2⟩)
    · exact Or.inr (Or.inl h)

instance : IsTrans OrderRec askRel where
  trans a b c hab hbc := by
    unfold askRel at *
    rcases hab with h1 | ⟨h1, h1'⟩ <;> rcases hbc with h2 | ⟨h2, h2'⟩
    · exact Or.inl (h1.trans h2)
    · exact Or.inl (h2 ▸ h1)
    · exact Or.inl (h1 ▸ h2)
    · exact Or.inr ⟨h1.trans h2, h1'.trans h2'⟩

instance : IsTotal OrderRec bidRel where
  total a b := by
    unfold bidRel
    rcases Nat.lt_trichotomy a.price b.price with h | h | h
    · exact Or.inr (Or.inl h)
    · rcases Nat.le_total a.id b.id with h2 | h2
      · exact Or.inl (Or.inr ⟨h, h2⟩)
      · exact Or.inr (Or.inr ⟨h.symm, h2⟩)
    · exact Or.inl (Or.inl h)

instance : IsTrans OrderRec bidRel where
  trans a b c hab hbc := by
    unfold bidRel at *
    rcases hab with h1 | ⟨h1, h1'⟩ <;> rcases hbc with h2 | ⟨h2, h2'⟩
    · exact Or.inl (h2.trans h1)
    · exact Or.inl (h2 ▸ h1)
    · exact Or.inl (h1.symm ▸ h2)
    · exact Or.inr ⟨h1.trans h2, h1'.trans h2'⟩

/-- All open orders of one side of one (building, item) book, in creation
order. -/
def ordersFor (st : State) (b : Nat) (i : String) (bid : Bool) : List OrderRec :=
  st.orders.filter fun o => o.building == b && o.item == i && o.isBid == bid

/-- The asks of a (building, item) book, sorted per spec.md section 4.1. -/
def bookAsks (st : State) (b : Nat) (i : String) : List OrderRec :=
  List.insertionSort askRel (ordersFor st b i false)

/-- The bids of a (building, item) book, sorted per spec.md section 4.1. -/
def bookBids (st : State) (b : Nat) (i : String) : List OrderRec :=
  List.insertionSort bidRel (ordersFor st b i true)

/-- Modelled from the spec: the matching loop of spec.md section 4.2.
Walking the opposing book in priority order, it consumes makers while the
incoming quantity is positive and the maker's price crosses the incoming
limit, filling `min` of the two quantities each step.  Returns the list of
(maker, fill quantity) pairs and the unmatched remainder. -/
def computeFills (cross : Nat → Bool) : Nat → List OrderRec → List (OrderRec × Nat) × Nat
  | q, [] => ([], q)
  | q, m :: rest =>
      if q = 0 then ([], q)
      else if cross m.price then
        let f := min q m.quantity
        let res := computeFills cross (q - f) rest
        ((m, f) :: res.1, res.2)
      else ([], q)

/-- The dex fee on a fill's proceeds: integer floor of proceeds times the
building's fee fraction, the fee being configured in basis points
(gametest/dex.py sets the fee with move xf 1000 and the observed fee on
proceeds 10, 0, 200 is 1, 0, 20). -/
def feeOf (st : State) (b : Nat) (proceeds : Nat) : Nat :=
  proceeds * st.dexfee b / 10000

/-- Credit the fee to the building owner's available coin; for an unowned
building the fee is simply not credited (burned), spec.md section 4.3. -/
def ownerFeeOps (st : State) (b : Nat) (fee : Nat) : List Op :=
  match st.owner b with
  | some w => [Op.coinDelta w (fee : Int) 0]
  | none => []

/-- Shrink or remove the maker order after a fill (spec.md section 4.2
step e). -/
def orderFillOp (m : OrderRec) (f : Nat) : Op :=
  if f = m.quantity then Op.removeOrd m else Op.setQty m.id m.quantity (m.quantity - f)

/-- Modelled from the spec: the mutations for one fill of an incoming bid
(limit `p`) against resting ask `m`: execution at the maker's price, the
buyer's reserved coin debited by the execution proceeds with the
over-reservation (p - exec) * f released back to available, items moved
from the seller's reserved inventory to the buyer's available one, the
seller credited the proceeds minus twice the fee (the owner's fee plus an
equal burned amount: gametest/dex.py line 248 asserts the seller ends with
210 - 2 * 21 while the owner receives 21), the owner's fee credited, the
maker shrunk or removed, and the trade appended. -/
def bidFillOps (st : State) (h tm : Nat) (a : String) (b : Nat) (i : String)
    (p : Nat) (mf : OrderRec × Nat) : List Op :=
  let m := mf.1
  let f := mf.2
  let proceeds := m.price * f
  let fee := feeOf st b proceeds
  [ Op.coinDelta a 0 (-(proceeds : Int))
  , Op.coinDelta a (((p - m.price) * f : Nat) : Int) (-(((p - m.price) * f : Nat) : Int))
  , Op.itemDelta ⟨b, a, i⟩ (f : Int) 0
  , Op.itemDelta ⟨b, m.account, i⟩ 0 (-(f : Int))
  , Op.coinDelta m.account ((proceeds : Int) - 2 * (fee : Int)) 0 ]
  ++ ownerFeeOps st b fee
  ++ [orderFillOp m f, Op.pushTrade ⟨h, tm, b, i, m.price, f, proceeds, m.account, a⟩]

/-- Modelled from the spec: the mutations for one fill of an incoming ask
against resting bid `m`: execution at the maker's price (even when above
the incoming limit), the resting buyer's reserved coin debited by exactly
the proceeds (its reservation was made at the same price), items moved to
the buyer, the seller credited proceeds minus twice the fee, the owner's
fee credited, the maker shrunk or removed, and the trade appended. -/
def askFillOps (st : State) (h tm : Nat) (a : String) (b : Nat) (i : String)
    (mf : OrderRec × Nat) : List Op :=
  let m := mf.1
  let f := mf.2
  let proceeds := m.price * f
  let fee := feeOf st b proceeds
  [ Op.coinDelta m.account 0 (-(proceeds : Int))
  , Op.itemDelta ⟨b, m.account, i⟩ (f : Int) 0
  , Op.itemDelta ⟨b, a, i⟩ 0 (-(f : Int))
  , Op.coinDelta a ((proceeds : Int) - 2 * (fee : Int)) 0 ]
  ++ ownerFeeOps st b fee
  ++ [orderFillOp m f, Op.pushTrade ⟨h, tm, b, i, m.price, f, proceeds, a, m.account⟩]

/-- The fills of an incoming bid with limit `p`: crossing asks are those
with price at most `p` (spec.md section 4.2 step 1). -/
def bidFills (st : State) (b : Nat) (i : String) (n p : Nat) :
    List (OrderRec × Nat) × Nat :=
  computeFills (fun mp => decide (mp ≤ p)) n (bookAsks st b i)

/-- The fills of an incoming ask with limit `p`: crossing bids are those
with price at least `p` (spec.md section 4.2 step 1). -/
def askFills (st : State) (b : Nat) (i : String) (n p : Nat) :
    List (OrderRec × Nat) × Nat :=
  computeFills (fun mp => decide (p ≤ mp)) n (bookBids st b i)

/-- Modelled from the spec: the mutations of an accepted bid placement:
reserve price times quantity of coin, settle all fills, insert a positive
remainder as a resting order with the next order id. -/
def placeBidOps (st : State) (h tm : Nat) (a : String) (b : Nat) (i : String)
    (n p : Nat) : List Op :=
  [Op.coinDelta a (-((p * n : Nat) : Int)) ((p * n : Nat) : Int)]
  ++ ((bidFills st b i n p).1.map (bidFillOps st h tm a b i p)).flatten
  ++ (if (bidFills st b i n p).2 = 0 then []
      else [Op.insertOrd ⟨st.nextId, b, i, a, true, p, (bidFills st b i n p).2⟩])
  ++ [Op.setNextId st.nextId (st.nextId + 1)]

/-- Modelled from the spec: the mutations of an accepted ask placement:
reserve the item quantity, settle all fills, insert a positive remainder
as a resting order with the next order id. -/
def placeAskOps (st : State) (h tm : Nat) (a : String) (b : Nat) (i : String)
    (n p : Nat) : List Op :=
  [Op.itemDelta ⟨b, a, i⟩ (-(n : Int)) (n : Int)]
  ++ ((askFills st b i n p).1.map (askFillOps st h tm a b i)).flatten
  ++ (if (askFills st b i n p).2 = 0 then []
      else [Op.insertOrd ⟨st.nextId, b, i, a, false, p, (askFills st b i n p).2⟩])
  ++ [Op.setNextId st.nextId (st.nextId + 1)]

/-- Modelled from the spec: placing an order (spec.md section 4.2).  A zero
quantity or an insufficient available balance makes the command an ignored
no-op (spec.md section 7).  Otherwise the full obligation (price times
quantity of coin for a bid, the quantity of items for an ask) is reserved,
the incoming order is matched against the opposing book, and a positive
remainder is inserted as a resting order with the next order id. -/
def placeOps (st : State) (h tm : Nat) (a : String) (b : Nat) (i : String)
    (n : Nat) (isBid : Bool) (p : Nat) : List Op :=
  if n = 0 then []
  else if isBid then
    if (p * n : Int) ≤ st.coinAvail a then placeBidOps st h tm a b i n p
    else []
  else
    if (n : Int) ≤ st.itemAvail ⟨b, a, i⟩ then placeAskOps st h tm a b i n p
    else []

/-- The released reservation of a cancelled order: price times remaining
quantity of coin for a bid, the remaining quantity of items for an ask
(spec.md section 4.4). -/
def cancelRelease (a : String) (o : OrderRec) : List Op :=
  if o.isBid then
    [Op.coinDelta a ((o.price * o.quantity : Nat) : Int)
      (-((o.price * o.quantity : Nat) : Int))]
  else
    [Op.itemDelta ⟨o.building, a, o.item⟩ ((o.quantity : Nat) : Int)
      (-((o.quantity : Nat) : Int))]

/-- Modelled from the spec: cancellation (spec.md section 4.4).  A cancel
of a non-existent order or by a non-owner is an ignored no-op; otherwise
the order is removed and its remaining reservation is released back to
available. -/
def cancelOps (st : State) (a : String) (oid : Nat) : List Op :=
  match st.orders.find? (fun o => o.id == oid) with
  | none => []
  | some o =>
      if o.account = a then Op.removeOrd o :: cancelRelease a o
      else []

/-- Modelled from the spec: a direct asset transfer inside a building
(spec.md section 6), a fee-less available-to-available move, ignored when
the quantity is zero or exceeds the sender's available items. -/
def transferOps (st : State) (a : String) (b : Nat) (i : String) (n : Nat)
    (dest : String) : List Op :=
  if n = 0 then []
  else if (n : Int) ≤ st.itemAvail ⟨b, a, i⟩ then
    [Op.itemDelta ⟨b, a, i⟩ (-(n : Int)) 0, Op.itemDelta ⟨b, dest, i⟩ (n : Int) 0]
  else []

/-- A decoded DEX command (spec.md section 6): place order ("ap"/"bp"
moves of gametest/dex.py), cancel ("c" moves), asset transfer ("t"
moves). -/
inductive Cmd where
  | place (account : String) (building : Nat) (item : String) (n : Nat)
      (isBid : Bool) (price : Nat)
  | cancel (account : String) (oid : Nat)
  | transfer (account : String) (building : Nat) (item : String) (n : Nat)
      (dest : String)
deriving DecidableEq, Repr

/-- The mutations of one command, given the block height and timestamp. -/
def cmdOps (st : State) (h tm : Nat) : Cmd → List Op
  | .place a b i n isBid p => placeOps st h tm a b i n isBid p
  | .cancel a oid => cancelOps st a oid
  | .transfer a b i n dest => transferOps st a b i n dest

/-- Apply one command. -/
def applyCmd (st : State) (h tm : Nat) (c : Cmd) : State :=
  applyOps st (cmdOps st h tm c)

/-- One block: height, timestamp and its ordered command sequence. -/
structure Block where
  height : Nat
  time : Nat
  cmds : List Cmd
deriving Repr

/-- The undo-frame of a command sequence: all mutations, in application
order, each computed in the state reached so far. -/
def cmdsOps (h tm : Nat) : State → List Cmd → List Op
  | _, [] => []
  | st, c :: cs =>
      let ops := cmdOps st h tm c
      ops ++ cmdsOps h tm (applyOps st ops) cs

/-- The undo-frame of a whole block. -/
def blockOps (st : State) (b : Block) : List Op :=
  cmdsOps b.height b.time st b.cmds

/-- Apply a block: apply its recorded mutations in order (spec.md
section 4.5). -/
def applyBlock (st : State) (b : Block) : State :=
  applyOps st (blockOps st b)

/-- Apply a list of blocks in chain order. -/
def applyBlocks (st : State) (bs : List Block) : State :=
  bs.foldl applyBlock st

/-- The retained undo-frames of a list of blocks, in chain order. -/
def blockFrames (st : State) : List Block → List (List Op)
  | [] => []
  | b :: bs => blockOps st b :: blockFrames (applyBlock st b) bs

/-- Roll back a list of frames: undo the later frames first, then the
first one (spec.md section 4.5: inverse operations in reverse order). -/
def rollbackFrames (st : State) : List (List Op) → State
  | [] => st
  | f :: fs => undoOps (rollbackFrames st fs) f

/-- Whether every mutation of every frame of a block sequence is
invertible where it is applied. -/
def okBlocks (st : State) : List Block → Bool
  | [] => true
  | b :: bs => okRun st (blockOps st b) && okBlocks (applyBlock st b) bs

/-- One side's snapshot of the order book of one (building, item) pair, as
reported by the getorderbook query (spec.md section 6, checked in
gametest/dex.py lines 152-187). -/
structure BookView where
  bids : List OrderRec
  asks : List OrderRec
deriving DecidableEq, Repr

/-- The getorderbook query for one (building, item) pair: the resting bids
and asks, sorted per spec.md section 4.1. -/
def getorderbook (st : State) (b : Nat) (i : String) : BookView :=
  ⟨bookBids st b i, bookAsks st b i⟩

/-- The gettradehistory query: all executed fills of one (item, building)
pair, oldest first (spec.md section 6). -/
def gettradehistory (st : State) (i : String) (b : Nat) : List Trade :=
  st.trades.filter fun t => t.item == i && t.buildingId == b

/-- A balance as exposed by queries: available, reserved, and their sum as
total (spec.md section 6, Account.getBalance in gametest/pxtest.py). -/
structure BalanceView where
  available : Int
  reserved : Int
  total : Int
deriving DecidableEq, Repr

/-- The coin balance query for an account. -/
def getbalance (st : State) (a : String) : BalanceView :=
  ⟨st.coinAvail a, st.coinResv a, st.coinAvail a + st.coinResv a⟩

/-- The item inventory query for one (building, account, item) slot. -/
def getinventory (st : State) (k : ItemKey) : BalanceView :=
  ⟨st.itemAvail k, st.itemResv k, st.itemAvail k + st.itemResv k⟩

/-! ### The concrete scenario of gametest/dex.py

The building (id 1 here) is owned by account "building" and has its dex
fee set by the move xf 1000; "buyer" holds 1000 coins; "seller" holds 10
foo and 20 bar inside the building.  This is the state at the block kept
as the reorg point (dex.py lines 80-91), from which the test applies the
transfer, order placement, cancellation and matching blocks. -/

/-- Initial state of the dex.py scenario at the reorg point. -/
def dexScenarioStart : State where
  coinAvail := fun a => if a = "buyer" then 1000 else 0
  coinResv := fun _ => 0
  itemAvail := fun k =>
    if k = ⟨1, "seller", "foo"⟩ then 10
    else if k = ⟨1, "seller", "bar"⟩ then 20
    else 0
  itemResv := fun _ => 0
  orders := []
  nextId := 2
  trades := []
  dexfee := fun b => if b = 1 then 1000 else 0
  owner := fun b => if b = 1 then some "building" else none

/-- The blocks applied after the reorg point in dex.py: the bar transfer
(lines 93-100), the two asks (lines 113-129), the two bids (lines
130-144), the two cancels (lines 189-192), the crossing ask at price 0
(lines 226-235) and the crossing bid at price 200 (lines 236-245). -/
def dexScenarioBlocks : List Block :=
  [ ⟨101, 1001, [Cmd.transfer "seller" 1 "bar" 5 "gifted"]⟩
  , ⟨102, 1002, [Cmd.place "seller" 1 "foo" 2 false 100,
                 Cmd.place "seller" 1 "foo" 2 false 50]⟩
  , ⟨103, 1003, [Cmd.place "buyer" 1 "foo" 1 true 10,
                 Cmd.place "buyer" 1 "foo" 1 true 20]⟩
  , ⟨104, 1004, [Cmd.cancel "buyer" 5, Cmd.cancel "seller" 3]⟩
  , ⟨105, 1005, [Cmd.place "seller" 1 "foo" 2 false 0]⟩
  , ⟨106, 1006, [Cmd.place "buyer" 1 "foo" 4 true 200]⟩ ]

/-- The scenario state after all six blocks. -/
def dexScenarioEnd : State :=
  applyBlocks dexScenarioStart dexScenarioBlocks

/-! ### The building configuration scheduler of gametest/buildings_config.py

Modelled from the spec: a building's dexfee/servicefee configuration is
effective only from the block height at which a previously scheduled
configuration change completes (spec.md section 3); the change itself is
requested by an owner move and becomes a pending ongoing operation ending
a fixed number of blocks later (10 for the tested building type). -/

/-- A building's explicit configuration: dex fee and service fee, each
unset until a scheduled change first sets it (buildings_config.py
expectConfig). -/
structure BuildingConfig where
  dexfee : Option Nat
  servicefee : Option Nat
deriving DecidableEq, Repr

/-- A scheduled configuration update: the new values for the fields the
requesting move mentioned. -/
structure CfgUpd where
  xf : Option Nat
  sf : Option Nat
deriving DecidableEq, Repr

/-- A building-config move: the sender and the requested raw values (kept
as integers so that invalid negative requests are representable, as in
buildings_config.py line 87). -/
structure CfgMove where
  sender : String
  xf : Option Int
  sf : Option Int
deriving DecidableEq, Repr

/-- Apply a completed update to the configuration: fields the update does
not mention keep their value. -/
def applyUpd (c : BuildingConfig) (u : CfgUpd) : BuildingConfig :=
  ⟨match u.xf with | some v => some v | none => c.dexfee,
   match u.sf with | some v => some v | none => c.servicefee⟩

/-- Scheduler state for one building: the effective configuration and the
pending updates, each with its completion height, in schedule order. -/
structure CfgState where
  config : BuildingConfig
  pending : List (Nat × CfgUpd)
deriving DecidableEq, Repr

/-- A config move is valid when it requests at least one field, its dex
fee is a fraction in [0, 1) (basis points 0 to 9999, spec.md section 7
InvalidConfiguration) and its service fee is non-negative. -/
def validCfgMove (m : CfgMove) : Bool :=
  (m.xf.isSome || m.sf.isSome)
  && (match m.xf with | some v => decide (0 ≤ v ∧ v < 10000) | none => true)
  && (match m.sf with | some v => decide (0 ≤ v) | none => true)

/-- The update requested by a valid move. -/
def toUpd (m : CfgMove) : CfgUpd :=
  ⟨m.xf.map Int.toNat, m.sf.map Int.toNat⟩

/-- Process one config move at height `h`: a move from a non-owner or
with invalid values changes nothing; a valid owner move only appends a
pending update completing `dur` blocks later, never touching the
configuration itself. -/
def processCfgMove (owner : Option String) (dur h : Nat) (st : CfgState)
    (m : CfgMove) : CfgState :=
  if owner = some m.sender && validCfgMove m then
    { st with pending := st.pending ++ [(h + dur, toUpd m)] }
  else st

/-- Apply the pending updates completing at height `h`, in schedule
order. -/
def applyDue (st : CfgState) (h : Nat) : CfgState :=
  ⟨(st.pending.filter (fun e => e.1 == h)).foldl (fun c e => applyUpd c e.2) st.config,
   st.pending.filter fun e => e.1 != h⟩

/-- Process one block at height `h`: first complete the updates scheduled
for this height, then process the block's config moves in order. -/
def cfgStep (owner : Option String) (dur : Nat) (st : CfgState) (h : Nat)
    (moves : List CfgMove) : CfgState :=
  moves.foldl (processCfgMove owner dur h) (applyDue st h)

/-- Run consecutive blocks starting at height `h`. -/
def cfgRun (owner : Option String) (dur : Nat) : CfgState → Nat → List (List CfgMove) → CfgState
  | st, _, [] => st
  | st, h, ms :: rest => cfgRun owner dur (cfgStep owner dur st h ms) (h + 1) rest

/-! ### Observation helpers used by the proofs -/

/-- The available-coin delta a single mutation applies to one account. -/
def opCoinAvailD (op : Op) (x : String) : Int :=
  match op with
  | .coinDelta a da _ => if x = a then da else 0
  | _ => 0

/-- The reserved-coin delta a single mutation applies to one account. -/
def opCoinResvD (op : Op) (x : String) : Int :=
  match op with
  | .coinDelta a _ dr => if x = a then dr else 0
  | _ => 0

/-- The available-item delta a single mutation applies to one slot. -/
def opItemAvailD (op : Op) (k : ItemKey) : Int :=
  match op with
  | .itemDelta k2 da _ => if k = k2 then da else 0
  | _ => 0

/-- The reserved-item delta a single mutation applies to one slot. -/
def opItemResvD (op : Op) (k : ItemKey) : Int :=
  match op with
  | .itemDelta k2 _ dr => if k = k2 then dr else 0
  | _ => 0

/-- The effect of a single mutation on the order list. -/
def opOrders (op : Op) (l : List OrderRec) : List OrderRec :=
  match op with
  | .insertOrd o => insertById o l
  | .removeOrd o => eraseById o.id l
  | .setQty oid _ newQ => setQtyL oid newQ l
  | _ => l

/-- The trades appended by a single mutation. -/
def opTradeList : Op → List Trade
  | .pushTrade t => [t]
  | _ => []

/-- The trades appended by a mutation sequence. -/
def opsTrades (ops : List Op) : List Trade :=
  (ops.map opTradeList).flatten

/-- Whether an order is an open bid of the given account. -/
def bidOf (a : String) (o : OrderRec) : Bool :=
  o.account == a && o.isBid

/-- The remaining coin obligation of a bid: price times remaining
quantity. -/
def coinObl (o : OrderRec) : Nat :=
  o.price * o.quantity

/-- The total coin obligation of an account's open bids (spec.md
section 3: the amount that must be held in its reserved coin balance). -/
def bidSum (l : List OrderRec) (a : String) : Nat :=
  ((l.filter (bidOf a)).map coinObl).sum

/-- Whether an order is an open ask selling from the given inventory
slot. -/
def askOf (k : ItemKey) (o : OrderRec) : Bool :=
  o.building == k.building && o.account == k.account && o.item == k.item && !o.isBid

/-- The total item obligation of a slot's open asks. -/
def askSum (l : List OrderRec) (k : ItemKey) : Nat :=
  ((l.filter (askOf k)).map (·.quantity)).sum

/-- The balance and book invariant of spec.md sections 3 and 8: order ids
are unique (strictly increasing in creation order) and below the id
counter, every reserved balance equals exactly the total remaining
obligation of the open orders it backs, and available balances are never
negative. -/
def Inv (st : State) : Prop :=
  sortedById st.orders
  ∧ (∀ o ∈ st.orders, o.id < st.nextId)
  ∧ (∀ a, st.coinResv a = (bidSum st.orders a : Int))
  ∧ (∀ k, st.itemResv k = (askSum st.orders k : Int))
  ∧ (∀ a, 0 ≤ st.coinAvail a)
  ∧ (∀ k, 0 ≤ st.itemAvail k)

/-- Fee sanity: the total amount withheld from the seller (twice the
configured fee, see `bidFillOps`) never exceeds the proceeds ("fee never
exceeds proceeds", spec.md section 4.3). -/
def FeeOk (st : State) : Prop :=
  ∀ b, 2 * st.dexfee b ≤ 10000

/-- Total available-coin delta of a mutation sequence on one account. -/
def opsCoinAvailD (ops : List Op) (x : String) : Int :=
  (ops.map fun op => opCoinAvailD op x).sum

/-- Total reserved-coin delta of a mutation sequence on one account. -/
def opsCoinResvD (ops : List Op) (x : String) : Int :=
  (ops.map fun op => opCoinResvD op x).sum

/-- Total available-item delta of a mutation sequence on one slot. -/
def opsItemAvailD (ops : List Op) (k : ItemKey) : Int :=
  (ops.map fun op => opItemAvailD op k).sum

/-- Total reserved-item delta of a mutation sequence on one slot. -/
def opsItemResvD (ops : List Op) (k : ItemKey) : Int :=
  (ops.map fun op => opItemResvD op k).sum

/-- The combined effect of a mutation sequence on the order list. -/
def foldOrders (ops : List Op) (l : List OrderRec) : List OrderRec :=
  ops.foldl (fun l op => opOrders op l) l

/-- The total filled quantity of a fill list. -/
def fillsQty (fills : List (OrderRec × Nat)) : Nat :=
  (fills.map fun mf => mf.2).sum

/-- The trades a command appends, in execution order. -/
def cmdTrades (st : State) (h tm : Nat) (c : Cmd) : List Trade :=
  opsTrades (cmdOps st h tm c)

/-- The trade record of one fill of an incoming bid by `a`: executed at
the maker's price. -/
def bidFillTrade (h tm : Nat) (a : String) (b : Nat) (i : String)
    (mf : OrderRec × Nat) : Trade :=
  ⟨h, tm, b, i, mf.1.price, mf.2, mf.1.price * mf.2, mf.1.account, a⟩

/-- The trade record of one fill of an incoming ask by `a`: executed at
the maker's price. -/
def askFillTrade (h tm : Nat) (a : String) (b : Nat) (i : String)
    (mf : OrderRec × Nat) : Trade :=
  ⟨h, tm, b, i, mf.1.price, mf.2, mf.1.price * mf.2, a, mf.1.account⟩

/-- The trades appended by one block. -/
def blockNewTrades (st : State) (b : Block) : List Trade :=
  opsTrades (blockOps st b)

/-- The effect of one fill on the resting order list: the maker is removed
when fully filled, otherwise its remaining quantity shrinks. -/
def fillStep (l : List OrderRec) (mf : OrderRec × Nat) : List OrderRec :=
  opOrders (orderFillOp mf.1 mf.2) l

/-- The combined effect of a fill list on the resting order list. -/
def fillsFold (fills : List (OrderRec × Nat)) (l : List OrderRec) : List OrderRec :=
  fills.foldl fillStep l

/-- The item quantity a fill list consumes from one inventory slot of the
makers' side of building `b`, item `i`. -/
def consumedItemAt (b : Nat) (i : String) (fills : List (OrderRec × Nat))
    (k : ItemKey) : Nat :=
  (fills.map fun mf => if k = ⟨b, mf.1.account, i⟩ then mf.2 else 0).sum

/-- The reserved coin a fill list consumes from one resting buyer. -/
def consumedCoinAt (fills : List (OrderRec × Nat)) (x : String) : Nat :=
  (fills.map fun mf => if mf.1.account = x then mf.1.price * mf.2 else 0).sum

/-- The net coin-supply change of a single mutation, summed over all
accounts and over available plus reserved. -/
def opCoinTotalD : Op → Int
  | .coinDelta _ da dr => da + dr
  | _ => 0

/-- The net coin-supply change of a mutation sequence. -/
def opsCoinTotalD (ops : List Op) : Int :=
  (ops.map opCoinTotalD).sum

/-- A minimal one-order book used to exercise single fills: account "b1"
has a resting bid for one foo at price 10 inside building 1 (owned by
"own", dex fee 1000 basis points), and "s1" holds five foo. -/
def microBook : State where
  coinAvail := fun x => if x = "b1" then 100 else 0
  coinResv := fun x => if x = "b1" then 10 else 0
  itemAvail := fun k => if k = ⟨1, "s1", "foo"⟩ then 5 else 0
  itemResv := fun _ => 0
  orders := [⟨2, 1, "foo", "b1", true, 10, 1⟩]
  nextId := 3
  trades := []
  dexfee := fun b => if b = 1 then 1000 else 0
  owner := fun b => if b = 1 then some "own" else none

/-! ## Function-map update lemmas -/

theorem upd_self {α β : Type} [DecidableEq α] (f : α → β) (a : α) (v : β) :
    upd f a v a = v := by
  simp [upd]

theorem upd_other {α β : Type} [DecidableEq α] (f : α → β) (a x : α) (v : β)
    (h : x ≠ a) : upd f a v x = f x := by
  simp [upd, h]

theorem upd_cancel {α β : Type} [DecidableEq α] (f : α → β) (a : α) (v : β) :
    upd (upd f a v) a (f a) = f := by
  funext x
  by_cases h : x = a <;> simp [upd, h]

theorem upd_add_cancel {α : Type} [DecidableEq α] (f : α → Int) (a : α) (d : Int) :
    upd (upd f a (f a + d)) a (upd f a (f a + d) a + -d) = f := by
  rw [upd_self]
  have : f a + d + -d = f a := by ring
  rw [this]
  exact upd_cancel f a (f a + d)

/-! ## Order-list lemmas -/

theorem insertById_all_lt (o : OrderRec) (l : List OrderRec)
    (h : ∀ y ∈ l, o.id < y.id) : insertById o l = o :: l := by
  cases l with
  | nil => rfl
  | cons y rest => simp [insertById, h y (by simp)]

theorem insertById_all_gt (o : OrderRec) (l : List OrderRec)
    (h : ∀ y ∈ l, y.id < o.id) : insertById o l = l ++ [o] := by
  induction l with
  | nil => rfl
  | cons y rest ih =>
      have hy : y.id < o.id := h y (by simp)
      simp [insertById, Nat.lt_asymm hy, ih fun z hz => h z (by simp [hz])]

theorem eraseById_insertById (o : OrderRec) (l : List OrderRec)
    (h : ∀ x ∈ l, x.id ≠ o.id) : eraseById o.id (insertById o l) = l := by
  induction l with
  | nil => simp [insertById, eraseById]
  | cons x rest ih =>
      by_cases hlt : o.id < x.id
      · simp [insertById, hlt, eraseById]
      · have hx : x.id ≠ o.id := h x (by simp)
        simp [insertById, hlt, eraseById, hx,
          ih fun y hy => h y (by simp [hy])]

theorem insertById_eraseById (o : OrderRec) (l : List OrderRec)
    (hs : sortedById l) (hm : o ∈ l) : insertById o (eraseById o.id l) = l := by
  induction l with
  | nil => cases hm
  | cons x rest ih =>
      rw [sortedById, List.pairwise_cons] at hs
      by_cases hx : x.id = o.id
      · have hox : o = x := by
          rcases List.mem_cons.mp hm with h | h
          · exact h
          · exact absurd hx (Nat.ne_of_lt (hs.1 o h))
        subst hox
        rw [eraseById, if_pos hx]
        exact insertById_all_lt o rest fun y hy => hx ▸ hs.1 y hy
      · have hor : o ∈ rest := by
          rcases List.mem_cons.mp hm with h | h
          · exact absurd (congrArg OrderRec.id h.symm) hx
          · exact h
        rw [eraseById, if_neg hx, insertById]
        rw [if_neg (Nat.not_lt.mpr (Nat.le_of_lt (hs.1 o hor)))]
        rw [ih hs.2 hor]

theorem setQtyL_cancel (oid oldQ newQ : Nat) (l : List OrderRec)
    (h : ∀ x ∈ l, x.id = oid → x.quantity = oldQ) :
    setQtyL oid oldQ (setQtyL oid newQ l) = l := by
  induction l with
  | nil => rfl
  | cons x rest ih =>
      have ihr := ih fun y hy => h y (by simp [hy])
      by_cases hx : x.id = oid
      · have hq : x.quantity = oldQ := h x (by simp) hx
        cases x
        simp_all [setQtyL]
      · simp only [setQtyL, List.map_cons] at ihr ⊢
        rw [if_neg hx, if_neg hx, ihr]

theorem dropLast_concat_self {α : Type} (l : List α) (t : α) :
    (l ++ [t]).dropLast = l :=
  List.dropLast_concat

theorem dropLast_append_getLast_self {α : Type} (l : List α) (t : α)
    (h : l.getLast? = some t) : l.dropLast ++ [t] = l := by
  induction l with
  | nil => cases h
  | cons x rest ih =>
      cases rest with
      | nil =>
          simp only [List.getLast?_singleton, Option.some.injEq] at h
          simp [h]
      | cons y r =>
          rw [List.getLast?_cons_cons] at h
          simpa using ih h

/-! ## Exact invertibility of the undo log -/

theorem applyOp_invOp (st : State) (op : Op) (h : preOk st op = true) :
    applyOp (applyOp st op) (invOp op) = st := by
  cases op with
  | coinDelta a da dr =>
      simp only [applyOp, invOp]
      rw [upd_add_cancel, upd_add_cancel]
  | itemDelta k da dr =>
      simp only [applyOp, invOp]
      rw [upd_add_cancel, upd_add_cancel]
  | insertOrd o =>
      simp only [preOk, List.all_eq_true, bne_iff_ne, ne_eq] at h
      simp only [applyOp, invOp]
      rw [eraseById_insertById o st.orders h]
  | removeOrd o =>
      simp only [preOk, Bool.and_eq_true, decide_eq_true_eq] at h
      simp only [applyOp, invOp]
      rw [insertById_eraseById o st.orders h.1 h.2]
  | setQty oid oldQ newQ =>
      simp only [preOk, List.all_eq_true] at h
      simp only [applyOp, invOp]
      rw [setQtyL_cancel oid oldQ newQ st.orders]
      intro x hx hid
      have := h x hx
      rcases Bool.or_eq_true (x.id != oid) (x.quantity == oldQ) |>.mp this with h2 | h2
      · exact absurd hid (bne_iff_ne.mp h2)
      · exact eq_of_beq h2
  | pushTrade t =>
      simp only [applyOp, invOp]
      rw [dropLast_concat_self]
  | popTrade t =>
      simp only [preOk, beq_iff_eq] at h
      simp only [applyOp, invOp]
      rw [dropLast_append_getLast_self st.trades t h]
  | setNextId oldN newN =>
      simp only [preOk, beq_iff_eq] at h
      simp only [applyOp, invOp]
      rw [← h]

theorem undoOps_applyOps (ops : List Op) (st : State) (h : okRun st ops = true) :
    undoOps (applyOps st ops) ops = st := by
  induction ops generalizing st with
  | nil => rfl
  | cons op ops ih =>
      rw [okRun, Bool.and_eq_true] at h
      have step : applyOps st (op :: ops) = applyOps (applyOp st op) ops := rfl
      rw [undoOps, step, List.map_cons, List.reverse_cons]
      rw [applyOps, List.foldl_append]
      have inner := ih (applyOp st op) h.2
      rw [undoOps, applyOps] at inner
      rw [inner]
      simpa using applyOp_invOp st op h.1

theorem rollback_restores (bs : List Block) (st : State)
    (h : okBlocks st bs = true) :
    rollbackFrames (applyBlocks st bs) (blockFrames st bs) = st := by
  induction bs generalizing st with
  | nil => rfl
  | cons b bs ih =>
      rw [okBlocks, Bool.and_eq_true] at h
      have step : applyBlocks st (b :: bs) = applyBlocks (applyBlock st b) bs := rfl
      rw [blockFrames, rollbackFrames, step, ih (applyBlock st b) h.2]
      exact undoOps_applyOps _ _ h.1

/-! ## Componentwise effect of mutation sequences -/

theorem applyOp_coinAvail (st : State) (op : Op) (x : String) :
    (applyOp st op).coinAvail x = st.coinAvail x + opCoinAvailD op x := by
  cases op with
  | coinDelta a da dr =>
      by_cases h : x = a
      · subst h; simp [applyOp, opCoinAvailD, upd_self]
      · simp [applyOp, opCoinAvailD, upd_other _ _ _ _ h, h]
  | itemDelta k da dr => simp [applyOp, opCoinAvailD]
  | insertOrd o => simp [applyOp, opCoinAvailD]
  | removeOrd o => simp [applyOp, opCoinAvailD]
  | setQty oid oldQ newQ => simp [applyOp, opCoinAvailD]
  | pushTrade t => simp [applyOp, opCoinAvailD]
  | popTrade t => simp [applyOp, opCoinAvailD]
  | setNextId oldN newN => simp [applyOp, opCoinAvailD]

theorem applyOp_coinResv (st : State) (op : Op) (x : String) :
    (applyOp st op).coinResv x = st.coinResv x + opCoinResvD op x := by
  cases op with
  | coinDelta a da dr =>
      by_cases h : x = a
      · subst h; simp [applyOp, opCoinResvD, upd_self]
      · simp [applyOp, opCoinResvD, upd_other _ _ _ _ h, h]
  | itemDelta k da dr => simp [applyOp, opCoinResvD]
  | insertOrd o => simp [applyOp, opCoinResvD]
  | removeOrd o => simp [applyOp, opCoinResvD]
  | setQty oid oldQ newQ => simp [applyOp, opCoinResvD]
  | pushTrade t => simp [applyOp, opCoinResvD]
  | popTrade t => simp [applyOp, opCoinResvD]
  | setNextId oldN newN => simp [applyOp, opCoinResvD]

theorem applyOp_itemAvail (st : State) (op : Op) (k : ItemKey) :
    (applyOp st op).itemAvail k = st.itemAvail k + opItemAvailD op k := by
  cases op with
  | coinDelta a da dr => simp [applyOp, opItemAvailD]
  | itemDelta k2 da dr =>
      by_cases h : k = k2
      · subst h; simp [applyOp, opItemAvailD, upd_self]
      · simp [applyOp, opItemAvailD, upd_other _ _ _ _ h, h]
  | insertOrd o => simp [applyOp, opItemAvailD]
  | removeOrd o => simp [applyOp, opItemAvailD]
  | setQty oid oldQ newQ => simp [applyOp, opItemAvailD]
  | pushTrade t => simp [applyOp, opItemAvailD]
  | popTrade t => simp [applyOp, opItemAvailD]
  | setNextId oldN newN => simp [applyOp, opItemAvailD]

theorem applyOp_itemResv (st : State) (op : Op) (k : ItemKey) :
    (applyOp st op).itemResv k = st.itemResv k + opItemResvD op k := by
  cases op with
  | coinDelta a da dr => simp [applyOp, opItemResvD]
  | itemDelta k2 da dr =>
      by_cases h : k = k2
      · subst h; simp [applyOp, opItemResvD, upd_self]
      · simp [applyOp, opItemResvD, upd_other _ _ _ _ h, h]
  | insertOrd o => simp [applyOp, opItemResvD]
  | removeOrd o => simp [applyOp, opItemResvD]
  | setQty oid oldQ newQ => simp [applyOp, opItemResvD]
  | pushTrade t => simp [applyOp, opItemResvD]
  | popTrade t => simp [applyOp, opItemResvD]
  | setNextId oldN newN => simp [applyOp, opItemResvD]

theorem applyOp_orders (st : State) (op : Op) :
    (applyOp st op).orders = opOrders op st.orders := by
  cases op <;> simp [applyOp, opOrders]

theorem applyOp_dexfee (st : State) (op : Op) :
    (applyOp st op).dexfee = st.dexfee := by
  cases op <;> simp [applyOp]

theorem applyOp_owner (st : State) (op : Op) :
    (applyOp st op).owner = st.owner := by
  cases op <;> simp [applyOp]

theorem applyOp_trades (st : State) (op : Op) (h : ∀ t, op ≠ Op.popTrade t) :
    (applyOp st op).trades = st.trades ++ opTradeList op := by
  cases op with
  | pushTrade t => simp [applyOp, opTradeList]
  | popTrade t => exact absurd rfl (h t)
  | coinDelta a da dr => simp [applyOp, opTradeList]
  | itemDelta k da dr => simp [applyOp, opTradeList]
  | insertOrd o => simp [applyOp, opTradeList]
  | removeOrd o => simp [applyOp, opTradeList]
  | setQty oid oldQ newQ => simp [applyOp, opTradeList]
  | setNextId oldN newN => simp [applyOp, opTradeList]

theorem applyOps_coinAvail (ops : List Op) (st : State) (x : String) :
    (applyOps st ops).coinAvail x = st.coinAvail x + opsCoinAvailD ops x := by
  induction ops generalizing st with
  | nil => simp [applyOps, opsCoinAvailD]
  | cons op ops ih =>
      have : applyOps st (op :: ops) = applyOps (applyOp st op) ops := rfl
      rw [this, ih, applyOp_coinAvail]
      simp only [opsCoinAvailD, List.map_cons, List.sum_cons]
      ring

theorem applyOps_coinResv (ops : List Op) (st : State) (x : String) :
    (applyOps st ops).coinResv x = st.coinResv x + opsCoinResvD ops x := by
  induction ops generalizing st with
  | nil => simp [applyOps, opsCoinResvD]
  | cons op ops ih =>
      have : applyOps st (op :: ops) = applyOps (applyOp st op) ops := rfl
      rw [this, ih, applyOp_coinResv]
      simp only [opsCoinResvD, List.map_cons, List.sum_cons]
      ring

theorem applyOps_itemAvail (ops : List Op) (st : State) (k : ItemKey) :
    (applyOps st ops).itemAvail k = st.itemAvail k + opsItemAvailD ops k := by
  induction ops generalizing st with
  | nil => simp [applyOps, opsItemAvailD]
  | cons op ops ih =>
      have : applyOps st (op :: ops) = applyOps (applyOp st op) ops := rfl
      rw [this, ih, applyOp_itemAvail]
      simp only [opsItemAvailD, List.map_cons, List.sum_cons]
      ring

theorem applyOps_itemResv (ops : List Op) (st : State) (k : ItemKey) :
    (applyOps st ops).itemResv k = st.itemResv k + opsItemResvD ops k := by
  induction ops generalizing st with
  | nil => simp [applyOps, opsItemResvD]
  | cons op ops ih =>
      have : applyOps st (op :: ops) = applyOps (applyOp st op) ops := rfl
      rw [this, ih, applyOp_itemResv]
      simp only [opsItemResvD, List.map_cons, List.sum_cons]
      ring

theorem applyOps_orders (ops : List Op) (st : State) :
    (applyOps st ops).orders = foldOrders ops st.orders := by
  induction ops generalizing st with
  | nil => rfl
  | cons op ops ih =>
      have : applyOps st (op :: ops) = applyOps (applyOp st op) ops := rfl
      rw [this, ih, applyOp_orders]
      rfl

theorem applyOps_dexfee (ops : List Op) (st : State) :
    (applyOps st ops).dexfee = st.dexfee := by
  induction ops generalizing st with
  | nil => rfl
  | cons op ops ih =>
      have : applyOps st (op :: ops) = applyOps (applyOp st op) ops := rfl
      rw [this, ih, applyOp_dexfee]

theorem applyOps_owner (ops : List Op) (st : State) :
    (applyOps st ops).owner = st.owner := by
  induction ops generalizing st with
  | nil => rfl
  | cons op ops ih =>
      have : applyOps st (op :: ops) = applyOps (applyOp st op) ops := rfl
      rw [this, ih, applyOp_owner]

theorem applyOps_trades (ops : List Op) (st : State)
    (h : ∀ t, Op.popTrade t ∉ ops) :
    (applyOps st ops).trades = st.trades ++ opsTrades ops := by
  induction ops generalizing st with
  | nil => simp [applyOps, opsTrades]
  | cons op ops ih =>
      have step : applyOps st (op :: ops) = applyOps (applyOp st op) ops := rfl
      rw [step, ih _ fun t ht => h t (List.mem_cons_of_mem _ ht)]
      rw [applyOp_trades st op fun t ht => h t (ht ▸ List.mem_cons_self _ _)]
      simp [opsTrades]

theorem applyOps_append (st : State) (xs ys : List Op) :
    applyOps st (xs ++ ys) = applyOps (applyOps st xs) ys := by
  simp [applyOps, List.foldl_append]

/-! ## Properties of the matching loop -/

theorem computeFills_qty (cross : Nat → Bool) (makers : List OrderRec) :
    ∀ q, fillsQty (computeFills cross q makers).1 + (computeFills cross q makers).2 = q := by
  induction makers with
  | nil => intro q; simp [computeFills, fillsQty]
  | cons m rest ih =>
      intro q
      by_cases h0 : q = 0
      · simp [computeFills, h0, fillsQty]
      · by_cases hc : cross m.price
        · have := ih (q - min q m.quantity)
          simp only [computeFills, if_neg h0, if_pos hc, fillsQty, List.map_cons,
            List.sum_cons] at this ⊢
          omega
        · simp [computeFills, h0, hc, fillsQty]

theorem computeFills_sublist (cross : Nat → Bool) (makers : List OrderRec) :
    ∀ q, List.Sublist ((computeFills cross q makers).1.map fun mf => mf.1) makers := by
  induction makers with
  | nil => intro q; simp [computeFills]
  | cons m rest ih =>
      intro q
      by_cases h0 : q = 0
      · simp [computeFills, h0]
      · by_cases hc : cross m.price
        · simpa only [computeFills, if_neg h0, if_pos hc, List.map_cons] using
            List.Sublist.cons₂ m (ih (q - min q m.quantity))
        · simp [computeFills, h0, hc]

theorem computeFills_mem (cross : Nat → Bool) (makers : List OrderRec) :
    ∀ q, ∀ mf ∈ (computeFills cross q makers).1,
      mf.2 ≤ mf.1.quantity ∧ cross mf.1.price = true := by
  induction makers with
  | nil => intro q mf hmf; simp [computeFills] at hmf
  | cons m rest ih =>
      intro q mf hmf
      by_cases h0 : q = 0
      · simp [computeFills, h0] at hmf
      · by_cases hc : cross m.price
        · simp only [computeFills, if_neg h0, if_pos hc, List.mem_cons] at hmf
          rcases hmf with h | h
          · subst h; exact ⟨Nat.min_le_right _ _, hc⟩
          · exact ih _ mf h
        · simp [computeFills, h0, hc] at hmf

/-! ## Trades appended by commands -/

theorem opsTrades_append (l1 l2 : List Op) :
    opsTrades (l1 ++ l2) = opsTrades l1 ++ opsTrades l2 := by
  simp [opsTrades]

theorem opTradeList_orderFillOp (m : OrderRec) (f : Nat) :
    opTradeList (orderFillOp m f) = [] := by
  unfold orderFillOp
  split <;> rfl

theorem opsTrades_ownerFeeOps (st : State) (b : Nat) (fee : Nat) :
    opsTrades (ownerFeeOps st b fee) = [] := by
  unfold ownerFeeOps
  cases st.owner b <;> rfl

theorem opsTrades_bidFillOps (st : State) (h tm : Nat) (a : String) (b : Nat)
    (i : String) (p : Nat) (mf : OrderRec × Nat) :
    opsTrades (bidFillOps st h tm a b i p mf) = [bidFillTrade h tm a b i mf] := by
  unfold bidFillOps bidFillTrade orderFillOp
  rw [opsTrades_append, opsTrades_append, opsTrades_ownerFeeOps]
  split <;> simp [opsTrades, opTradeList]

theorem opsTrades_askFillOps (st : State) (h tm : Nat) (a : String) (b : Nat)
    (i : String) (mf : OrderRec × Nat) :
    opsTrades (askFillOps st h tm a b i mf) = [askFillTrade h tm a b i mf] := by
  unfold askFillOps askFillTrade orderFillOp
  rw [opsTrades_append, opsTrades_append, opsTrades_ownerFeeOps]
  split <;> simp [opsTrades, opTradeList]

theorem opsTrades_flatten_bid (st : State) (h tm : Nat) (a : String) (b : Nat)
    (i : String) (p : Nat) (fills : List (OrderRec × Nat)) :
    opsTrades ((fills.map (bidFillOps st h tm a b i p)).flatten)
      = fills.map (bidFillTrade h tm a b i) := by
  induction fills with
  | nil => rfl
  | cons mf rest ih =>
      simp only [List.map_cons, List.flatten_cons, opsTrades_append,
        opsTrades_bidFillOps, ih]
      rfl

theorem opsTrades_flatten_ask (st : State) (h tm : Nat) (a : String) (b : Nat)
    (i : String) (fills : List (OrderRec × Nat)) :
    opsTrades ((fills.map (askFillOps st h tm a b i)).flatten)
      = fills.map (askFillTrade h tm a b i) := by
  induction fills with
  | nil => rfl
  | cons mf rest ih =>
      simp only [List.map_cons, List.flatten_cons, opsTrades_append,
        opsTrades_askFillOps, ih]
      rfl

theorem opsTrades_placeBidOps (st : State) (h tm : Nat) (a : String) (b : Nat)
    (i : String) (n p : Nat) :
    opsTrades (placeBidOps st h tm a b i n p)
      = (bidFills st b i n p).1.map (bidFillTrade h tm a b i) := by
  unfold placeBidOps
  rw [opsTrades_append, opsTrades_append, opsTrades_append, opsTrades_flatten_bid]
  have h3 : opsTrades
      (if (bidFills st b i n p).2 = 0 then []
       else [Op.insertOrd ⟨st.nextId, b, i, a, true, p, (bidFills st b i n p).2⟩])
      = [] := by
    split <;> rfl
  rw [h3]
  simp [opsTrades, opTradeList]

theorem opsTrades_placeAskOps (st : State) (h tm : Nat) (a : String) (b : Nat)
    (i : String) (n p : Nat) :
    opsTrades (placeAskOps st h tm a b i n p)
      = (askFills st b i n p).1.map (askFillTrade h tm a b i) := by
  unfold placeAskOps
  rw [opsTrades_append, opsTrades_append, opsTrades_append, opsTrades_flatten_ask]
  have h3 : opsTrades
      (if (askFills st b i n p).2 = 0 then []
       else [Op.insertOrd ⟨st.nextId, b, i, a, false, p, (askFills st b i n p).2⟩])
      = [] := by
    split <;> rfl
  rw [h3]
  simp [opsTrades, opTradeList]

theorem cmdTrades_place_bid (st : State) (h tm : Nat) (a : String) (b : Nat)
    (i : String) (n p : Nat) (hn : n ≠ 0)
    (hg : (p * n : Int) ≤ st.coinAvail a) :
    cmdTrades st h tm (Cmd.place a b i n true p)
      = (bidFills st b i n p).1.map (bidFillTrade h tm a b i) := by
  have hc : cmdOps st h tm (Cmd.place a b i n true p)
      = placeBidOps st h tm a b i n p := by
    show placeOps st h tm a b i n true p = _
    unfold placeOps
    rw [if_neg hn, if_pos rfl, if_pos hg]
  rw [cmdTrades, hc, opsTrades_placeBidOps]

theorem cmdTrades_place_ask (st : State) (h tm : Nat) (a : String) (b : Nat)
    (i : String) (n p : Nat) (hn : n ≠ 0)
    (hg : (n : Int) ≤ st.itemAvail ⟨b, a, i⟩) :
    cmdTrades st h tm (Cmd.place a b i n false p)
      = (askFills st b i n p).1.map (askFillTrade h tm a b i) := by
  have hc : cmdOps st h tm (Cmd.place a b i n false p)
      = placeAskOps st h tm a b i n p := by
    show placeOps st h tm a b i n false p = _
    unfold placeOps
    rw [if_neg hn, if_neg Bool.false_ne_true, if_pos hg]
  rw [cmdTrades, hc, opsTrades_placeAskOps]

theorem cancelOps_none (st : State) (a : String) (oid : Nat)
    (hfind : st.orders.find? (fun o => o.id == oid) = none) :
    cancelOps st a oid = [] := by
  unfold cancelOps
  rw [hfind]

theorem cancelOps_some (st : State) (a : String) (oid : Nat) (o : OrderRec)
    (hfind : st.orders.find? (fun o => o.id == oid) = some o) :
    cancelOps st a oid
      = if o.account = a then Op.removeOrd o :: cancelRelease a o else [] := by
  unfold cancelOps
  rw [hfind]

theorem cmdTrades_cancel (st : State) (h tm : Nat) (a : String) (oid : Nat) :
    cmdTrades st h tm (Cmd.cancel a oid) = [] := by
  show opsTrades (cancelOps st a oid) = []
  cases hfind : st.orders.find? (fun o => o.id == oid) with
  | none => rw [cancelOps_none st a oid hfind]; rfl
  | some o =>
      rw [cancelOps_some st a oid o hfind]
      by_cases ha : o.account = a
      · rw [if_pos ha]
        by_cases hb : o.isBid = true <;>
          simp [cancelRelease, hb, opsTrades, opTradeList]
      · rw [if_neg ha]; rfl

theorem cmdTrades_transfer (st : State) (h tm : Nat) (a : String) (b : Nat)
    (i : String) (n : Nat) (dest : String) :
    cmdTrades st h tm (Cmd.transfer a b i n dest) = [] := by
  show opsTrades (transferOps st a b i n dest) = []
  unfold transferOps
  split
  · rfl
  · split <;> rfl

/-! ## Commands never delete trades: the history is append-only -/

theorem popTrade_notin_ownerFeeOps (st : State) (b fee : Nat) (t : Trade) :
    Op.popTrade t ∉ ownerFeeOps st b fee := by
  unfold ownerFeeOps
  cases st.owner b <;> simp

theorem popTrade_ne_orderFillOp (m : OrderRec) (f : Nat) (t : Trade) :
    Op.popTrade t ≠ orderFillOp m f := by
  unfold orderFillOp
  split <;> simp

theorem popTrade_notin_bidFillOps (st : State) (h tm : Nat) (a : String)
    (b : Nat) (i : String) (p : Nat) (mf : OrderRec × Nat) (t : Trade) :
    Op.popTrade t ∉ bidFillOps st h tm a b i p mf := by
  intro hmem
  unfold bidFillOps at hmem
  rcases List.mem_append.mp hmem with h1 | h1
  · rcases List.mem_append.mp h1 with h2 | h2
    · simp at h2
    · exact popTrade_notin_ownerFeeOps st b _ t h2
  · rcases List.mem_cons.mp h1 with h2 | h2
    · exact popTrade_ne_orderFillOp _ _ t h2
    · simp at h2

theorem popTrade_notin_askFillOps (st : State) (h tm : Nat) (a : String)
    (b : Nat) (i : String) (mf : OrderRec × Nat) (t : Trade) :
    Op.popTrade t ∉ askFillOps st h tm a b i mf := by
  intro hmem
  unfold askFillOps at hmem
  rcases List.mem_append.mp hmem with h1 | h1
  · rcases List.mem_append.mp h1 with h2 | h2
    · simp at h2
    · exact popTrade_notin_ownerFeeOps st b _ t h2
  · rcases List.mem_cons.mp h1 with h2 | h2
    · exact popTrade_ne_orderFillOp _ _ t h2
    · simp at h2

theorem popTrade_notin_placeBidOps (st : State) (h tm : Nat) (a : String)
    (b : Nat) (i : String) (n p : Nat) (t : Trade) :
    Op.popTrade t ∉ placeBidOps st h tm a b i n p := by
  intro hmem
  unfold placeBidOps at hmem
  rcases List.mem_append.mp hmem with h1 | h1
  · rcases List.mem_append.mp h1 with h2 | h2
    · rcases List.mem_append.mp h2 with h3 | h3
      · simp at h3
      · rcases List.mem_flatten.mp h3 with ⟨l, hl, hml⟩
        rcases List.mem_map.mp hl with ⟨mf, _, rfl⟩
        exact popTrade_notin_bidFillOps st h tm a b i p mf t hml
    · revert h2; split <;> simp
  · simp at h1

theorem popTrade_notin_placeAskOps (st : State) (h tm : Nat) (a : String)
    (b : Nat) (i : String) (n p : Nat) (t : Trade) :
    Op.popTrade t ∉ placeAskOps st h tm a b i n p := by
  intro hmem
  unfold placeAskOps at hmem
  rcases List.mem_append.mp hmem with h1 | h1
  · rcases List.mem_append.mp h1 with h2 | h2
    · rcases List.mem_append.mp h2 with h3 | h3
      · simp at h3
      · rcases List.mem_flatten.mp h3 with ⟨l, hl, hml⟩
        rcases List.mem_map.mp hl with ⟨mf, _, rfl⟩
        exact popTrade_notin_askFillOps st h tm a b i mf t hml
    · revert h2; split <;> simp
  · simp at h1

theorem cmdOps_no_popTrade (st : State) (h tm : Nat) (c : Cmd) (t : Trade) :
    Op.popTrade t ∉ cmdOps st h tm c := by
  cases c with
  | place a b i n isBid p =>
      show Op.popTrade t ∉ placeOps st h tm a b i n isBid p
      unfold placeOps
      by_cases hn : n = 0
      · simp [hn]
      · rw [if_neg hn]
        cases isBid
        · rw [if_neg Bool.false_ne_true]
          split
          · exact popTrade_notin_placeAskOps st h tm a b i n p t
          · simp
        · rw [if_pos rfl]
          split
          · exact popTrade_notin_placeBidOps st h tm a b i n p t
          · simp
  | cancel a oid =>
      show Op.popTrade t ∉ cancelOps st a oid
      cases hfind : st.orders.find? (fun o => o.id == oid) with
      | none => rw [cancelOps_none st a oid hfind]; simp
      | some o =>
          rw [cancelOps_some st a oid o hfind]
          by_cases ha : o.account = a
          · rw [if_pos ha]
            intro hmem
            rcases List.mem_cons.mp hmem with h1 | h1
            · simp at h1
            · revert h1; unfold cancelRelease; split <;> simp
          · rw [if_neg ha]; simp
  | transfer a b i n dest =>
      show Op.popTrade t ∉ transferOps st a b i n dest
      unfold transferOps
      split
      · simp
      · split <;> simp

theorem cmdsOps_no_popTrade (h tm : Nat) (cs : List Cmd) :
    ∀ (st : State) (t : Trade), Op.popTrade t ∉ cmdsOps h tm st cs := by
  induction cs with
  | nil => intro st t; simp [cmdsOps]
  | cons c rest ih =>
      intro st t hmem
      rw [cmdsOps] at hmem
      rcases List.mem_append.mp hmem with h1 | h1
      · exact cmdOps_no_popTrade st h tm c t h1
      · exact ih _ t h1

theorem applyBlock_trades (st : State) (b : Block) :
    (applyBlock st b).trades = st.trades ++ blockNewTrades st b := by
  unfold applyBlock blockNewTrades
  exact applyOps_trades _ _ fun t => cmdsOps_no_popTrade b.height b.time b.cmds st t

/-! ## Sum decompositions over order lists -/

theorem bidSum_cons (o : OrderRec) (l : List OrderRec) (a : String) :
    bidSum (o :: l) a = (if bidOf a o = true then coinObl o else 0) + bidSum l a := by
  by_cases h : bidOf a o = true <;> simp [bidSum, List.filter_cons, h]

theorem askSum_cons (o : OrderRec) (l : List OrderRec) (k : ItemKey) :
    askSum (o :: l) k = (if askOf k o = true then o.quantity else 0) + askSum l k := by
  by_cases h : askOf k o = true <;> simp [askSum, List.filter_cons, h]

theorem bidSum_perm (l l' : List OrderRec) (a : String) (h : l.Perm l') :
    bidSum l a = bidSum l' a :=
  List.Perm.sum_eq ((h.filter (bidOf a)).map coinObl)

theorem askSum_perm (l l' : List OrderRec) (k : ItemKey) (h : l.Perm l') :
    askSum l k = askSum l' k :=
  List.Perm.sum_eq ((h.filter (askOf k)).map fun o => o.quantity)

theorem pairwise_ne_of_sorted (l : List OrderRec) (h : sortedById l) :
    l.Pairwise fun x y => x.id ≠ y.id :=
  h.imp fun hlt => Nat.ne_of_lt hlt

theorem eraseById_sublist (oid : Nat) (l : List OrderRec) :
    List.Sublist (eraseById oid l) l := by
  induction l with
  | nil => simp [eraseById]
  | cons x rest ih =>
      unfold eraseById
      split
      · exact List.sublist_cons_self x rest
      · exact ih.cons₂ x

theorem mem_eraseById_of_mem (x : OrderRec) (oid : Nat) (l : List OrderRec)
    (hx : x ∈ l) (hne : x.id ≠ oid) : x ∈ eraseById oid l := by
  induction l with
  | nil => cases hx
  | cons y rest ih =>
      unfold eraseById
      rcases List.mem_cons.mp hx with h | h
      · subst h
        rw [if_neg hne]
        exact List.mem_cons_self _ _
      · split
        · exact h
        · exact List.mem_cons_of_mem y (ih h)

theorem mem_setQtyL_of_ne (x : OrderRec) (oid q : Nat) (l : List OrderRec)
    (hx : x ∈ l) (hne : x.id ≠ oid) : x ∈ setQtyL oid q l := by
  refine List.mem_map.mpr ⟨x, hx, ?_⟩
  rw [if_neg hne]

theorem setQtyL_eq_of_notin (oid q : Nat) (l : List OrderRec)
    (h : ∀ x ∈ l, x.id ≠ oid) : setQtyL oid q l = l := by
  unfold setQtyL
  rw [List.map_congr_left fun x hx => if_neg (h x hx)]
  exact List.map_id _

theorem perm_cons_eraseById (m : OrderRec) (l : List OrderRec)
    (hpn : l.Pairwise fun x y => x.id ≠ y.id) (hm : m ∈ l) :
    l.Perm (m :: eraseById m.id l) := by
  induction l with
  | nil => cases hm
  | cons x rest ih =>
      rw [List.pairwise_cons] at hpn
      by_cases hx : x.id = m.id
      · have hxm : x = m := by
          rcases List.mem_cons.mp hm with h | h
          · exact h.symm
          · exact absurd hx (hpn.1 m h)
        subst hxm
        rw [eraseById, if_pos hx]
      · have hmr : m ∈ rest := by
          rcases List.mem_cons.mp hm with h | h
          · exact absurd (congrArg OrderRec.id h.symm) hx
          · exact h
        rw [eraseById, if_neg hx]
        exact ((ih hpn.2 hmr).cons x).trans (List.Perm.swap m x _)

theorem setQtyL_perm (m : OrderRec) (q : Nat) (l : List OrderRec)
    (hpn : l.Pairwise fun x y => x.id ≠ y.id) (hm : m ∈ l) :
    (setQtyL m.id q l).Perm ({ m with quantity := q } :: eraseById m.id l) := by
  induction l with
  | nil => cases hm
  | cons x rest ih =>
      rw [List.pairwise_cons] at hpn
      by_cases hx : x.id = m.id
      · have hxm : x = m := by
          rcases List.mem_cons.mp hm with h | h
          · exact h.symm
          · exact absurd hx (hpn.1 m h)
        subst hxm
        rw [eraseById, if_pos hx]
        unfold setQtyL
        rw [List.map_cons, if_pos hx]
        have : setQtyL x.id q rest = rest :=
          setQtyL_eq_of_notin x.id q rest fun y hy => fun hc => hpn.1 y hy hc.symm
        rw [show rest.map (fun z => if z.id = x.id then { z with quantity := q } else z)
              = setQtyL x.id q rest from rfl, this]
      · have hmr : m ∈ rest := by
          rcases List.mem_cons.mp hm with h | h
          · exact absurd (congrArg OrderRec.id h.symm) hx
          · exact h
        rw [eraseById, if_neg hx]
        unfold setQtyL
        rw [List.map_cons, if_neg hx]
        exact ((ih hpn.2 hmr).cons x).trans (List.Perm.swap _ x _)

/-! ## Balance deltas of command segments -/

theorem opsCoinAvailD_append (l1 l2 : List Op) (x : String) :
    opsCoinAvailD (l1 ++ l2) x = opsCoinAvailD l1 x + opsCoinAvailD l2 x := by
  simp [opsCoinAvailD]

theorem opsCoinResvD_append (l1 l2 : List Op) (x : String) :
    opsCoinResvD (l1 ++ l2) x = opsCoinResvD l1 x + opsCoinResvD l2 x := by
  simp [opsCoinResvD]

theorem opsItemAvailD_append (l1 l2 : List Op) (k : ItemKey) :
    opsItemAvailD (l1 ++ l2) k = opsItemAvailD l1 k + opsItemAvailD l2 k := by
  simp [opsItemAvailD]

theorem opsItemResvD_append (l1 l2 : List Op) (k : ItemKey) :
    opsItemResvD (l1 ++ l2) k = opsItemResvD l1 k + opsItemResvD l2 k := by
  simp [opsItemResvD]

theorem twice_fee_le_proceeds (proceeds xf : Nat) (h : 2 * xf ≤ 10000) :
    2 * (proceeds * xf / 10000) ≤ proceeds := by
  have h1 : proceeds * xf / 10000 * 10000 ≤ proceeds * xf :=
    Nat.div_mul_le_self _ _
  have h2 : 2 * (proceeds * xf / 10000) * 10000 ≤ 2 * (proceeds * xf) := by
    have := Nat.mul_le_mul_left 2 h1
    calc 2 * (proceeds * xf / 10000) * 10000
        = 2 * (proceeds * xf / 10000 * 10000) := by ring
      _ ≤ 2 * (proceeds * xf) := this
  have h3 : 2 * (proceeds * xf) ≤ proceeds * 10000 := by
    calc 2 * (proceeds * xf) = proceeds * (2 * xf) := by ring
      _ ≤ proceeds * 10000 := Nat.mul_le_mul_left proceeds h
  exact Nat.le_of_mul_le_mul_right (h2.trans h3) (by norm_num)

theorem maker_split_mul (mp p f : Nat) (h : mp ≤ p) :
    mp * f + (p - mp) * f = p * f := by
  have h1 : (p - mp) * f = p * f - mp * f := Nat.sub_mul p mp f
  have h2 : mp * f ≤ p * f := Nat.mul_le_mul_right f h
  omega

theorem opCoinAvailD_orderFillOp (m : OrderRec) (f : Nat) (x : String) :
    opCoinAvailD (orderFillOp m f) x = 0 := by
  unfold orderFillOp; split <;> rfl

theorem opCoinResvD_orderFillOp (m : OrderRec) (f : Nat) (x : String) :
    opCoinResvD (orderFillOp m f) x = 0 := by
  unfold orderFillOp; split <;> rfl

theorem opItemAvailD_orderFillOp (m : OrderRec) (f : Nat) (k : ItemKey) :
    opItemAvailD (orderFillOp m f) k = 0 := by
  unfold orderFillOp; split <;> rfl

theorem opItemResvD_orderFillOp (m : OrderRec) (f : Nat) (k : ItemKey) :
    opItemResvD (orderFillOp m f) k = 0 := by
  unfold orderFillOp; split <;> rfl

theorem opsCoinAvailD_ownerFeeOps (st : State) (b fee : Nat) (x : String) :
    opsCoinAvailD (ownerFeeOps st b fee) x
      = match st.owner b with
        | some w => if x = w then (fee : Int) else 0
        | none => 0 := by
  unfold ownerFeeOps
  cases st.owner b <;> simp [opsCoinAvailD, opCoinAvailD]

theorem opsCoinAvailD_ownerFeeOps_some (st : State) (b fee : Nat) (x w : String)
    (hw : st.owner b = some w) :
    opsCoinAvailD (ownerFeeOps st b fee) x = if x = w then (fee : Int) else 0 := by
  unfold ownerFeeOps
  rw [hw]
  simp [opsCoinAvailD, opCoinAvailD]

theorem opsCoinAvailD_ownerFeeOps_nonneg (st : State) (b fee : Nat) (x : String) :
    0 ≤ opsCoinAvailD (ownerFeeOps st b fee) x := by
  rw [opsCoinAvailD_ownerFeeOps]
  cases st.owner b with
  | none => exact le_refl 0
  | some w =>
      by_cases hx : x = w
      · simp [hx]
      · simp [hx]

theorem opsCoinResvD_ownerFeeOps (st : State) (b fee : Nat) (x : String) :
    opsCoinResvD (ownerFeeOps st b fee) x = 0 := by
  unfold ownerFeeOps
  cases st.owner b <;> simp [opsCoinResvD, opCoinResvD]

theorem opsItemAvailD_ownerFeeOps (st : State) (b fee : Nat) (k : ItemKey) :
    opsItemAvailD (ownerFeeOps st b fee) k = 0 := by
  unfold ownerFeeOps
  cases st.owner b <;> simp [opsItemAvailD, opItemAvailD]

theorem opsItemResvD_ownerFeeOps (st : State) (b fee : Nat) (k : ItemKey) :
    opsItemResvD (ownerFeeOps st b fee) k = 0 := by
  unfold ownerFeeOps
  cases st.owner b <;> simp [opsItemResvD, opItemResvD]

theorem opsCoinResvD_bidFillOps (st : State) (h tm : Nat) (a : String) (b : Nat)
    (i : String) (p : Nat) (m : OrderRec) (f : Nat) (hc : m.price ≤ p) (x : String) :
    opsCoinResvD (bidFillOps st h tm a b i p (m, f)) x
      = if x = a then -((p * f : Nat) : Int) else 0 := by
  unfold bidFillOps
  rw [opsCoinResvD_append, opsCoinResvD_append, opsCoinResvD_ownerFeeOps]
  have hsplit : ((m.price * f : Nat) : Int) + (((p - m.price) * f : Nat) : Int)
      = ((p * f : Nat) : Int) := by
    have := maker_split_mul m.price p f hc
    exact_mod_cast congrArg (fun n : Nat => (n : Int)) this
  push_cast at hsplit
  rcases eq_or_ne f m.quantity with hq | hq
  · subst hq
    by_cases hx : x = a <;>
      simp [opsCoinResvD, opCoinResvD, orderFillOp, hx] <;> push_cast <;> omega
  · by_cases hx : x = a <;>
      simp [opsCoinResvD, opCoinResvD, orderFillOp, hq, hx] <;> push_cast <;> omega

theorem opsItemResvD_bidFillOps (st : State) (h tm : Nat) (a : String) (b : Nat)
    (i : String) (p : Nat) (m : OrderRec) (f : Nat) (k : ItemKey) :
    opsItemResvD (bidFillOps st h tm a b i p (m, f)) k
      = if k = ⟨b, m.account, i⟩ then -(f : Int) else 0 := by
  unfold bidFillOps
  rw [opsItemResvD_append, opsItemResvD_append, opsItemResvD_ownerFeeOps]
  by_cases hq : f = m.quantity <;>
    by_cases hk : k = (⟨b, m.account, i⟩ : ItemKey) <;>
      simp [opsItemResvD, opItemResvD, orderFillOp, hq, hk]

theorem opsItemAvailD_bidFillOps (st : State) (h tm : Nat) (a : String) (b : Nat)
    (i : String) (p : Nat) (m : OrderRec) (f : Nat) (k : ItemKey) :
    opsItemAvailD (bidFillOps st h tm a b i p (m, f)) k
      = if k = ⟨b, a, i⟩ then (f : Int) else 0 := by
  unfold bidFillOps
  rw [opsItemAvailD_append, opsItemAvailD_append, opsItemAvailD_ownerFeeOps]
  by_cases hq : f = m.quantity <;>
    by_cases hk : k = (⟨b, a, i⟩ : ItemKey) <;>
      simp [opsItemAvailD, opItemAvailD, orderFillOp, hq, hk]

theorem opsCoinAvailD_bidFillOps (st : State) (h tm : Nat) (a : String) (b : Nat)
    (i : String) (p : Nat) (m : OrderRec) (f : Nat) (x : String) :
    opsCoinAvailD (bidFillOps st h tm a b i p (m, f)) x
      = (if x = a then (((p - m.price) * f : Nat) : Int) else 0)
        + (if x = m.account then
            ((m.price * f : Nat) : Int) - 2 * ((feeOf st b (m.price * f) : Nat) : Int)
           else 0)
        + opsCoinAvailD (ownerFeeOps st b (feeOf st b (m.price * f))) x := by
  unfold bidFillOps
  rw [opsCoinAvailD_append, opsCoinAvailD_append]
  have hofo : opsCoinAvailD [orderFillOp m f,
      Op.pushTrade ⟨h, tm, b, i, m.price, f, m.price * f, m.account, a⟩] x = 0 := by
    by_cases hq : f = m.quantity <;>
      simp [opsCoinAvailD, opCoinAvailD, orderFillOp, hq]
  rw [hofo]
  by_cases hx : x = a <;> by_cases hm : x = m.account <;>
    simp [opsCoinAvailD, opCoinAvailD, hx, hm] <;> ring

theorem opsCoinResvD_askFillOps (st : State) (h tm : Nat) (a : String) (b : Nat)
    (i : String) (m : OrderRec) (f : Nat) (x : String) :
    opsCoinResvD (askFillOps st h tm a b i (m, f)) x
      = if x = m.account then -((m.price * f : Nat) : Int) else 0 := by
  unfold askFillOps
  rw [opsCoinResvD_append, opsCoinResvD_append, opsCoinResvD_ownerFeeOps]
  by_cases hq : f = m.quantity <;> by_cases hx : x = m.account <;>
    simp [opsCoinResvD, opCoinResvD, orderFillOp, hq, hx]

theorem opsItemResvD_askFillOps (st : State) (h tm : Nat) (a : String) (b : Nat)
    (i : String) (m : OrderRec) (f : Nat) (k : ItemKey) :
    opsItemResvD (askFillOps st h tm a b i (m, f)) k
      = if k = ⟨b, a, i⟩ then -(f : Int) else 0 := by
  unfold askFillOps
  rw [opsItemResvD_append, opsItemResvD_append, opsItemResvD_ownerFeeOps]
  by_cases hq : f = m.quantity <;>
    by_cases hk : k = (⟨b, a, i⟩ : ItemKey) <;>
      simp [opsItemResvD, opItemResvD, orderFillOp, hq, hk]

theorem opsItemAvailD_askFillOps (st : State) (h tm : Nat) (a : String) (b : Nat)
    (i : String) (m : OrderRec) (f : Nat) (k : ItemKey) :
    opsItemAvailD (askFillOps st h tm a b i (m, f)) k
      = if k = ⟨b, m.account, i⟩ then (f : Int) else 0 := by
  unfold askFillOps
  rw [opsItemAvailD_append, opsItemAvailD_append, opsItemAvailD_ownerFeeOps]
  by_cases hq : f = m.quantity <;>
    by_cases hk : k = (⟨b, m.account, i⟩ : ItemKey) <;>
      simp [opsItemAvailD, opItemAvailD, orderFillOp, hq, hk]

theorem opsCoinAvailD_askFillOps (st : State) (h tm : Nat) (a : String) (b : Nat)
    (i : String) (m : OrderRec) (f : Nat) (x : String) :
    opsCoinAvailD (askFillOps st h tm a b i (m, f)) x
      = (if x = a then
          ((m.price * f : Nat) : Int) - 2 * ((feeOf st b (m.price * f) : Nat) : Int)
         else 0)
        + opsCoinAvailD (ownerFeeOps st b (feeOf st b (m.price * f))) x := by
  unfold askFillOps
  rw [opsCoinAvailD_append, opsCoinAvailD_append]
  have hofo : opsCoinAvailD [orderFillOp m f,
      Op.pushTrade ⟨h, tm, b, i, m.price, f, m.price * f, a, m.account⟩] x = 0 := by
    by_cases hq : f = m.quantity <;>
      simp [opsCoinAvailD, opCoinAvailD, orderFillOp, hq]
  rw [hofo]
  by_cases hx : x = a <;>
    simp [opsCoinAvailD, opCoinAvailD, hx] <;> ring

/-! ## Balance deltas of whole fill lists -/

theorem consumedItemAt_cons (b : Nat) (i : String) (mf : OrderRec × Nat)
    (rest : List (OrderRec × Nat)) (k : ItemKey) :
    consumedItemAt b i (mf :: rest) k
      = (if k = ⟨b, mf.1.account, i⟩ then mf.2 else 0) + consumedItemAt b i rest k := by
  simp [consumedItemAt]

theorem consumedCoinAt_cons (mf : OrderRec × Nat) (rest : List (OrderRec × Nat))
    (x : String) :
    consumedCoinAt (mf :: rest) x
      = (if mf.1.account = x then mf.1.price * mf.2 else 0) + consumedCoinAt rest x := by
  simp [consumedCoinAt]

theorem opsCoinResvD_flatten_bid (st : State) (h tm : Nat) (a : String) (b : Nat)
    (i : String) (p : Nat) (fills : List (OrderRec × Nat))
    (hc : ∀ mf ∈ fills, mf.1.price ≤ p) (x : String) :
    opsCoinResvD ((fills.map (bidFillOps st h tm a b i p)).flatten) x
      = if x = a then -((p * fillsQty fills : Nat) : Int) else 0 := by
  induction fills with
  | nil => by_cases hx : x = a <;> simp [opsCoinResvD, fillsQty, hx]
  | cons mf rest ih =>
      obtain ⟨m, f⟩ := mf
      rw [List.map_cons, List.flatten_cons, opsCoinResvD_append]
      rw [opsCoinResvD_bidFillOps st h tm a b i p m f (hc (m, f) (by simp)) x]
      rw [ih fun mf hmf => hc mf (by simp [hmf])]
      have hdist : p * fillsQty ((m, f) :: rest) = p * f + p * fillsQty rest := by
        have : fillsQty ((m, f) :: rest) = f + fillsQty rest := by simp [fillsQty]
        rw [this, Nat.mul_add]
      by_cases hx : x = a <;> simp [hx, hdist] <;> push_cast <;> omega

theorem opsItemResvD_flatten_bid (st : State) (h tm : Nat) (a : String) (b : Nat)
    (i : String) (p : Nat) (fills : List (OrderRec × Nat)) (k : ItemKey) :
    opsItemResvD ((fills.map (bidFillOps st h tm a b i p)).flatten) k
      = -((consumedItemAt b i fills k : Nat) : Int) := by
  induction fills with
  | nil => simp [opsItemResvD, consumedItemAt]
  | cons mf rest ih =>
      obtain ⟨m, f⟩ := mf
      rw [List.map_cons, List.flatten_cons, opsItemResvD_append]
      rw [opsItemResvD_bidFillOps, ih, consumedItemAt_cons]
      by_cases hk : k = (⟨b, m.account, i⟩ : ItemKey) <;>
        simp [hk] <;> push_cast <;> omega

theorem opsItemAvailD_flatten_bid (st : State) (h tm : Nat) (a : String) (b : Nat)
    (i : String) (p : Nat) (fills : List (OrderRec × Nat)) (k : ItemKey) :
    opsItemAvailD ((fills.map (bidFillOps st h tm a b i p)).flatten) k
      = if k = ⟨b, a, i⟩ then ((fillsQty fills : Nat) : Int) else 0 := by
  induction fills with
  | nil => by_cases hk : k = (⟨b, a, i⟩ : ItemKey) <;> simp [opsItemAvailD, fillsQty, hk]
  | cons mf rest ih =>
      obtain ⟨m, f⟩ := mf
      rw [List.map_cons, List.flatten_cons, opsItemAvailD_append]
      rw [opsItemAvailD_bidFillOps, ih]
      have : fillsQty ((m, f) :: rest) = f + fillsQty rest := by simp [fillsQty]
      rw [this]
      by_cases hk : k = (⟨b, a, i⟩ : ItemKey) <;> simp [hk] <;> push_cast <;> omega

theorem opsCoinAvailD_flatten_bid_nonneg (st : State) (h tm : Nat) (a : String)
    (b : Nat) (i : String) (p : Nat) (fills : List (OrderRec × Nat))
    (hf : 2 * st.dexfee b ≤ 10000) (x : String) :
    0 ≤ opsCoinAvailD ((fills.map (bidFillOps st h tm a b i p)).flatten) x := by
  induction fills with
  | nil => simp [opsCoinAvailD]
  | cons mf rest ih =>
      obtain ⟨m, f⟩ := mf
      rw [List.map_cons, List.flatten_cons, opsCoinAvailD_append]
      refine add_nonneg ?_ ih
      rw [opsCoinAvailD_bidFillOps]
      refine add_nonneg (add_nonneg ?_ ?_) (opsCoinAvailD_ownerFeeOps_nonneg st b _ x)
      · by_cases hx : x = a <;> simp [hx]
        positivity
      · by_cases hm : x = m.account
        · rw [if_pos hm]
          have hfee : 2 * feeOf st b (m.price * f) ≤ m.price * f :=
            twice_fee_le_proceeds (m.price * f) (st.dexfee b) hf
          push_cast
          omega
        · rw [if_neg hm]

theorem opsCoinResvD_flatten_ask (st : State) (h tm : Nat) (a : String) (b : Nat)
    (i : String) (fills : List (OrderRec × Nat)) (x : String) :
    opsCoinResvD ((fills.map (askFillOps st h tm a b i)).flatten) x
      = -((consumedCoinAt fills x : Nat) : Int) := by
  induction fills with
  | nil => simp [opsCoinResvD, consumedCoinAt]
  | cons mf rest ih =>
      obtain ⟨m, f⟩ := mf
      rw [List.map_cons, List.flatten_cons, opsCoinResvD_append]
      rw [opsCoinResvD_askFillOps, ih, consumedCoinAt_cons]
      by_cases hx : x = m.account
      · rw [if_pos hx, if_pos (by simp [hx])]
        push_cast
        omega
      · rw [if_neg hx, if_neg (by simp; exact fun hc => absurd hc.symm hx)]
        push_cast
        omega

theorem opsItemResvD_flatten_ask (st : State) (h tm : Nat) (a : String) (b : Nat)
    (i : String) (fills : List (OrderRec × Nat)) (k : ItemKey) :
    opsItemResvD ((fills.map (askFillOps st h tm a b i)).flatten) k
      = if k = ⟨b, a, i⟩ then -((fillsQty fills : Nat) : Int) else 0 := by
  induction fills with
  | nil => by_cases hk : k = (⟨b, a, i⟩ : ItemKey) <;> simp [opsItemResvD, fillsQty, hk]
  | cons mf rest ih =>
      obtain ⟨m, f⟩ := mf
      rw [List.map_cons, List.flatten_cons, opsItemResvD_append]
      rw [opsItemResvD_askFillOps, ih]
      have : fillsQty ((m, f) :: rest) = f + fillsQty rest := by simp [fillsQty]
      rw [this]
      by_cases hk : k = (⟨b, a, i⟩ : ItemKey) <;> simp [hk] <;> push_cast <;> omega

theorem opsItemAvailD_flatten_ask (st : State) (h tm : Nat) (a : String) (b : Nat)
    (i : String) (fills : List (OrderRec × Nat)) (k : ItemKey) :
    opsItemAvailD ((fills.map (askFillOps st h tm a b i)).flatten) k
      = ((consumedItemAt b i fills k : Nat) : Int) := by
  induction fills with
  | nil => simp [opsItemAvailD, consumedItemAt]
  | cons mf rest ih =>
      obtain ⟨m, f⟩ := mf
      rw [List.map_cons, List.flatten_cons, opsItemAvailD_append]
      rw [opsItemAvailD_askFillOps, ih, consumedItemAt_cons]
      by_cases hk : k = (⟨b, m.account, i⟩ : ItemKey) <;>
        simp [hk] <;> push_cast <;> omega

theorem opsCoinAvailD_flatten_ask_nonneg (st : State) (h tm : Nat) (a : String)
    (b : Nat) (i : String) (fills : List (OrderRec × Nat))
    (hf : 2 * st.dexfee b ≤ 10000) (x : String) :
    0 ≤ opsCoinAvailD ((fills.map (askFillOps st h tm a b i)).flatten) x := by
  induction fills with
  | nil => simp [opsCoinAvailD]
  | cons mf rest ih =>
      obtain ⟨m, f⟩ := mf
      rw [List.map_cons, List.flatten_cons, opsCoinAvailD_append]
      refine add_nonneg ?_ ih
      rw [opsCoinAvailD_askFillOps]
      refine add_nonneg ?_ (opsCoinAvailD_ownerFeeOps_nonneg st b _ x)
      by_cases hx : x = a
      · rw [if_pos hx]
        have hfee : 2 * feeOf st b (m.price * f) ≤ m.price * f :=
          twice_fee_le_proceeds (m.price * f) (st.dexfee b) hf
        push_cast
        omega
      · rw [if_neg hx]

/-! ## Effect of fills on the resting orders -/

theorem sortedById_setQtyL (oid q : Nat) (l : List OrderRec)
    (h : sortedById l) : sortedById (setQtyL oid q l) := by
  unfold sortedById setQtyL at *
  rw [List.pairwise_map]
  refine h.imp ?_
  intro x y hxy
  by_cases hx : x.id = oid <;> by_cases hy : y.id = oid <;>
    simp [hx, hy, hxy] <;> omega

theorem pairwise_ne_setQtyL (oid q : Nat) (l : List OrderRec)
    (h : l.Pairwise fun x y => x.id ≠ y.id) :
    (setQtyL oid q l).Pairwise fun x y => x.id ≠ y.id := by
  unfold setQtyL
  rw [List.pairwise_map]
  refine h.imp ?_
  intro x y hxy
  by_cases hx : x.id = oid <;> by_cases hy : y.id = oid <;>
    simp [hx, hy, hxy] <;> omega

theorem fillStep_full (l : List OrderRec) (m : OrderRec) (f : Nat)
    (hq : f = m.quantity) : fillStep l (m, f) = eraseById m.id l := by
  unfold fillStep orderFillOp
  rw [if_pos hq]
  rfl

theorem fillStepPartial (l : List OrderRec) (m : OrderRec) (f : Nat)
    (hq : ¬f = m.quantity) :
    fillStep l (m, f) = setQtyL m.id (m.quantity - f) l := by
  unfold fillStep orderFillOp
  rw [if_neg hq]
  rfl

theorem sortedById_fillStep (l : List OrderRec) (mf : OrderRec × Nat)
    (h : sortedById l) : sortedById (fillStep l mf) := by
  obtain ⟨m, f⟩ := mf
  by_cases hq : f = m.quantity
  · rw [fillStep_full l m f hq]
    exact List.Pairwise.sublist (eraseById_sublist _ _) h
  · rw [fillStepPartial l m f hq]
    exact sortedById_setQtyL _ _ l h

theorem pairwise_ne_fillStep (l : List OrderRec) (mf : OrderRec × Nat)
    (h : l.Pairwise fun x y => x.id ≠ y.id) :
    (fillStep l mf).Pairwise fun x y => x.id ≠ y.id := by
  obtain ⟨m, f⟩ := mf
  by_cases hq : f = m.quantity
  · rw [fillStep_full l m f hq]
    exact List.Pairwise.sublist (eraseById_sublist _ _) h
  · rw [fillStepPartial l m f hq]
    exact pairwise_ne_setQtyL _ _ l h

theorem id_mem_fillStep (l : List OrderRec) (mf : OrderRec × Nat)
    (o : OrderRec) (ho : o ∈ fillStep l mf) : o.id ∈ l.map fun z => z.id := by
  obtain ⟨m, f⟩ := mf
  by_cases hq : f = m.quantity
  · rw [fillStep_full l m f hq] at ho
    exact List.mem_map.mpr ⟨o, (eraseById_sublist _ _).mem ho, rfl⟩
  · rw [fillStepPartial l m f hq] at ho
    rcases List.mem_map.mp ho with ⟨z, hz, rfl⟩
    refine List.mem_map.mpr ⟨z, hz, ?_⟩
    by_cases hid : z.id = m.id <;> simp [hid]

theorem sortedById_fillsFold (fills : List (OrderRec × Nat)) :
    ∀ l, sortedById l → sortedById (fillsFold fills l) := by
  induction fills with
  | nil => intro l h; exact h
  | cons mf rest ih =>
      intro l h
      exact ih (fillStep l mf) (sortedById_fillStep l mf h)

theorem id_mem_fillsFold (fills : List (OrderRec × Nat)) :
    ∀ l, ∀ o ∈ fillsFold fills l, o.id ∈ l.map fun z => z.id := by
  induction fills with
  | nil => intro l o ho; exact List.mem_map.mpr ⟨o, ho, rfl⟩
  | cons mf rest ih =>
      intro l o ho
      have h1 := ih (fillStep l mf) o ho
      rcases List.mem_map.mp h1 with ⟨z, hz, hid⟩
      have : z ∈ fillStep l mf := hz
      have h2 := id_mem_fillStep l mf z this
      rw [← hid]
      exact h2

theorem askOf_iff_key (k : ItemKey) (m : OrderRec) (b : Nat) (i : String)
    (hb : m.building = b) (hi : m.item = i) (hbid : m.isBid = false) :
    askOf k m = true ↔ k = ⟨b, m.account, i⟩ := by
  subst hb hi
  unfold askOf
  cases k
  simp [hbid, Bool.and_eq_true, beq_iff_eq, ItemKey.mk.injEq]
  tauto

theorem bidOf_iff_acct (x : String) (m : OrderRec) (hbid : m.isBid = true) :
    bidOf x m = true ↔ m.account = x := by
  unfold bidOf
  simp [hbid]

theorem mem_fillStep_of_ne (l : List OrderRec) (m : OrderRec) (f : Nat)
    (x : OrderRec) (hx : x ∈ l) (hne : x.id ≠ m.id) : x ∈ fillStep l (m, f) := by
  by_cases hq : f = m.quantity
  · rw [fillStep_full l m f hq]
    exact mem_eraseById_of_mem x _ l hx hne
  · rw [fillStepPartial l m f hq]
    exact mem_setQtyL_of_ne x _ _ l hx hne

theorem fillStep_bidSum_askmaker (l : List OrderRec) (m : OrderRec) (f : Nat)
    (hpn : l.Pairwise fun x y => x.id ≠ y.id) (hm : m ∈ l)
    (hbid : m.isBid = false) (a : String) :
    bidSum (fillStep l (m, f)) a = bidSum l a := by
  have hb0 : bidOf a m = false := by simp [bidOf, hbid]
  by_cases hq : f = m.quantity
  · rw [fillStep_full l m f hq]
    have hperm := perm_cons_eraseById m l hpn hm
    rw [bidSum_perm l _ a hperm, bidSum_cons]
    simp [hb0]
  · rw [fillStepPartial l m f hq]
    have hperm2 := setQtyL_perm m (m.quantity - f) l hpn hm
    rw [bidSum_perm _ _ a hperm2, bidSum_cons]
    have hperm := perm_cons_eraseById m l hpn hm
    rw [bidSum_perm l _ a hperm, bidSum_cons]
    have hb0' : bidOf a { m with quantity := m.quantity - f } = false := by
      simp [bidOf, hbid]
    simp [hb0, hb0']

theorem fillStep_askSum_askmaker (l : List OrderRec) (m : OrderRec) (f : Nat)
    (b : Nat) (i : String)
    (hpn : l.Pairwise fun x y => x.id ≠ y.id) (hm : m ∈ l)
    (hbid : m.isBid = false) (hb : m.building = b) (hi : m.item = i)
    (hf : f ≤ m.quantity) (k : ItemKey) :
    askSum l k = askSum (fillStep l (m, f)) k
      + (if k = ⟨b, m.account, i⟩ then f else 0) := by
  have hiff := askOf_iff_key k m b i hb hi hbid
  by_cases hq : f = m.quantity
  · rw [fillStep_full l m f hq]
    have hperm := perm_cons_eraseById m l hpn hm
    rw [askSum_perm l _ k hperm, askSum_cons]
    by_cases hk : k = (⟨b, m.account, i⟩ : ItemKey)
    · rw [if_pos (hiff.mpr hk), if_pos hk, hq]
      omega
    · rw [if_neg fun hc => hk (hiff.mp hc), if_neg hk]
      omega
  · rw [fillStepPartial l m f hq]
    have hperm2 := setQtyL_perm m (m.quantity - f) l hpn hm
    rw [askSum_perm _ _ k hperm2, askSum_cons]
    have hperm := perm_cons_eraseById m l hpn hm
    rw [askSum_perm l _ k hperm, askSum_cons]
    have hiff' : askOf k { m with quantity := m.quantity - f } = true
        ↔ k = (⟨b, m.account, i⟩ : ItemKey) := by
      unfold askOf at hiff ⊢
      simpa using hiff
    by_cases hk : k = (⟨b, m.account, i⟩ : ItemKey)
    · rw [if_pos (hiff.mpr hk), if_pos (hiff'.mpr hk), if_pos hk]
      simp only []
      omega
    · rw [if_neg fun hc => hk (hiff.mp hc), if_neg fun hc => hk (hiff'.mp hc),
        if_neg hk]
      omega

theorem fillStep_askSum_bidmaker (l : List OrderRec) (m : OrderRec) (f : Nat)
    (hpn : l.Pairwise fun x y => x.id ≠ y.id) (hm : m ∈ l)
    (hbid : m.isBid = true) (k : ItemKey) :
    askSum (fillStep l (m, f)) k = askSum l k := by
  have ha0 : askOf k m = false := by simp [askOf, hbid]
  by_cases hq : f = m.quantity
  · rw [fillStep_full l m f hq]
    have hperm := perm_cons_eraseById m l hpn hm
    rw [askSum_perm l _ k hperm, askSum_cons]
    simp [ha0]
  · rw [fillStepPartial l m f hq]
    have hperm2 := setQtyL_perm m (m.quantity - f) l hpn hm
    rw [askSum_perm _ _ k hperm2, askSum_cons]
    have hperm := perm_cons_eraseById m l hpn hm
    rw [askSum_perm l _ k hperm, askSum_cons]
    have ha0' : askOf k { m with quantity := m.quantity - f } = false := by
      simp [askOf, hbid]
    simp [ha0, ha0']

theorem fillStep_bidSum_bidmaker (l : List OrderRec) (m : OrderRec) (f : Nat)
    (hpn : l.Pairwise fun x y => x.id ≠ y.id) (hm : m ∈ l)
    (hbid : m.isBid = true) (hf : f ≤ m.quantity) (x : String) :
    bidSum l x = bidSum (fillStep l (m, f)) x
      + (if m.account = x then m.price * f else 0) := by
  have hiff := bidOf_iff_acct x m hbid
  have hsplit : m.price * m.quantity
      = m.price * (m.quantity - f) + m.price * f := by
    have h1 : m.quantity - f + f = m.quantity := Nat.sub_add_cancel hf
    calc m.price * m.quantity = m.price * (m.quantity - f + f) := by rw [h1]
      _ = m.price * (m.quantity - f) + m.price * f := Nat.mul_add _ _ _
  by_cases hq : f = m.quantity
  · rw [fillStep_full l m f hq]
    have hperm := perm_cons_eraseById m l hpn hm
    rw [bidSum_perm l _ x hperm, bidSum_cons]
    by_cases hx : m.account = x
    · rw [if_pos (hiff.mpr hx), if_pos hx, hq]
      unfold coinObl
      omega
    · rw [if_neg fun hc => hx (hiff.mp hc), if_neg hx]
      omega
  · rw [fillStepPartial l m f hq]
    have hperm2 := setQtyL_perm m (m.quantity - f) l hpn hm
    rw [bidSum_perm _ _ x hperm2, bidSum_cons]
    have hperm := perm_cons_eraseById m l hpn hm
    rw [bidSum_perm l _ x hperm, bidSum_cons]
    have hiff' : bidOf x { m with quantity := m.quantity - f } = true
        ↔ m.account = x := by
      unfold bidOf at hiff ⊢
      simpa using hiff
    by_cases hx : m.account = x
    · rw [if_pos (hiff.mpr hx), if_pos (hiff'.mpr hx), if_pos hx]
      unfold coinObl
      simp only []
      omega
    · rw [if_neg fun hc => hx (hiff.mp hc), if_neg fun hc => hx (hiff'.mp hc),
        if_neg hx]
      omega

theorem insertById_perm (o : OrderRec) (l : List OrderRec) :
    (insertById o l).Perm (o :: l) := by
  induction l with
  | nil => exact List.Perm.refl _
  | cons x rest ih =>
      unfold insertById
      split
      · exact List.Perm.refl _
      · exact (ih.cons x).trans (List.Perm.swap o x rest)

theorem bidSum_insertById (o : OrderRec) (l : List OrderRec) (a : String) :
    bidSum (insertById o l) a
      = (if bidOf a o = true then coinObl o else 0) + bidSum l a := by
  rw [bidSum_perm _ _ a (insertById_perm o l), bidSum_cons]

theorem askSum_insertById (o : OrderRec) (l : List OrderRec) (k : ItemKey) :
    askSum (insertById o l) k
      = (if askOf k o = true then o.quantity else 0) + askSum l k := by
  rw [askSum_perm _ _ k (insertById_perm o l), askSum_cons]

theorem sortedById_insert_max (o : OrderRec) (l : List OrderRec)
    (hs : sortedById l) (hmax : ∀ x ∈ l, x.id < o.id) :
    sortedById (insertById o l) := by
  rw [insertById_all_gt o l hmax]
  unfold sortedById at *
  rw [List.pairwise_append]
  exact ⟨hs, List.pairwise_singleton _ _, fun x hx y hy => by
    rw [List.mem_singleton.mp hy]; exact hmax x hx⟩

theorem mem_insertById (x o : OrderRec) (l : List OrderRec)
    (hx : x ∈ insertById o l) : x = o ∨ x ∈ l := by
  have := (insertById_perm o l).mem_iff.mp hx
  simpa using this

/-! ## The resting books -/

theorem mem_bookAsks (st : State) (b : Nat) (i : String) (o : OrderRec)
    (ho : o ∈ bookAsks st b i) :
    o ∈ st.orders ∧ o.isBid = false ∧ o.building = b ∧ o.item = i := by
  unfold bookAsks at ho
  have := (List.perm_insertionSort askRel _).mem_iff.mp ho
  unfold ordersFor at this
  rcases List.mem_filter.mp this with ⟨hmem, hpred⟩
  simp only [Bool.and_eq_true, beq_iff_eq] at hpred
  exact ⟨hmem, hpred.2, hpred.1.1, hpred.1.2⟩

theorem mem_bookBids (st : State) (b : Nat) (i : String) (o : OrderRec)
    (ho : o ∈ bookBids st b i) :
    o ∈ st.orders ∧ o.isBid = true ∧ o.building = b ∧ o.item = i := by
  unfold bookBids at ho
  have := (List.perm_insertionSort bidRel _).mem_iff.mp ho
  unfold ordersFor at this
  rcases List.mem_filter.mp this with ⟨hmem, hpred⟩
  simp only [Bool.and_eq_true, beq_iff_eq] at hpred
  exact ⟨hmem, hpred.2, hpred.1.1, hpred.1.2⟩

theorem pairwise_ne_bookAsks (st : State) (b : Nat) (i : String)
    (h : st.orders.Pairwise fun x y => x.id ≠ y.id) :
    (bookAsks st b i).Pairwise fun x y => x.id ≠ y.id := by
  unfold bookAsks
  have hfil : (ordersFor st b i false).Pairwise fun x y => x.id ≠ y.id :=
    List.Pairwise.sublist (List.filter_sublist _) h
  exact ((List.perm_insertionSort askRel _).pairwise_iff
    fun hxy => Ne.symm hxy).mpr hfil

theorem pairwise_ne_bookBids (st : State) (b : Nat) (i : String)
    (h : st.orders.Pairwise fun x y => x.id ≠ y.id) :
    (bookBids st b i).Pairwise fun x y => x.id ≠ y.id := by
  unfold bookBids
  have hfil : (ordersFor st b i true).Pairwise fun x y => x.id ≠ y.id :=
    List.Pairwise.sublist (List.filter_sublist _) h
  exact ((List.perm_insertionSort bidRel _).pairwise_iff
    fun hxy => Ne.symm hxy).mpr hfil

/-! ## Order-list effect of whole command segments -/

theorem foldOrders_append (xs ys : List Op) (l : List OrderRec) :
    foldOrders (xs ++ ys) l = foldOrders ys (foldOrders xs l) := by
  simp [foldOrders, List.foldl_append]

theorem foldOrders_bidFillOps (st : State) (h tm : Nat) (a : String) (b : Nat)
    (i : String) (p : Nat) (mf : OrderRec × Nat) (l : List OrderRec) :
    foldOrders (bidFillOps st h tm a b i p mf) l = fillStep l mf := by
  cases how : st.owner b <;>
    simp [bidFillOps, ownerFeeOps, how, foldOrders, opOrders, fillStep]

theorem foldOrders_askFillOps (st : State) (h tm : Nat) (a : String) (b : Nat)
    (i : String) (mf : OrderRec × Nat) (l : List OrderRec) :
    foldOrders (askFillOps st h tm a b i mf) l = fillStep l mf := by
  cases how : st.owner b <;>
    simp [askFillOps, ownerFeeOps, how, foldOrders, opOrders, fillStep]

theorem foldOrders_flatten_bid (st : State) (h tm : Nat) (a : String) (b : Nat)
    (i : String) (p : Nat) (fills : List (OrderRec × Nat)) :
    ∀ l, foldOrders ((fills.map (bidFillOps st h tm a b i p)).flatten) l
      = fillsFold fills l := by
  induction fills with
  | nil => intro l; rfl
  | cons mf rest ih =>
      intro l
      rw [List.map_cons, List.flatten_cons, foldOrders_append,
        foldOrders_bidFillOps, ih]
      rfl

theorem foldOrders_flatten_ask (st : State) (h tm : Nat) (a : String) (b : Nat)
    (i : String) (fills : List (OrderRec × Nat)) :
    ∀ l, foldOrders ((fills.map (askFillOps st h tm a b i)).flatten) l
      = fillsFold fills l := by
  induction fills with
  | nil => intro l; rfl
  | cons mf rest ih =>
      intro l
      rw [List.map_cons, List.flatten_cons, foldOrders_append,
        foldOrders_askFillOps, ih]
      rfl

/-! ## Aggregate effect of a fill list on the book sums -/

theorem fillsFold_askmaker_sums (b : Nat) (i : String)
    (fills : List (OrderRec × Nat)) :
    ∀ l, (l.Pairwise fun x y => x.id ≠ y.id) →
    (∀ mf ∈ fills, mf.1 ∈ l) →
    ((fills.map fun mf => mf.1).Pairwise fun x y => x.id ≠ y.id) →
    (∀ mf ∈ fills, mf.2 ≤ mf.1.quantity) →
    (∀ mf ∈ fills, mf.1.isBid = false ∧ mf.1.building = b ∧ mf.1.item = i) →
    (∀ a, bidSum (fillsFold fills l) a = bidSum l a)
    ∧ (∀ k, askSum l k = askSum (fillsFold fills l) k + consumedItemAt b i fills k) := by
  induction fills with
  | nil =>
      intro l _ _ _ _ _
      exact ⟨fun a => rfl, fun k => by simp [consumedItemAt, fillsFold]⟩
  | cons mf rest ih =>
      intro l hpn hmem hnd hq hside
      obtain ⟨m, f⟩ := mf
      have hm : m ∈ l := hmem (m, f) (List.mem_cons_self _ _)
      have hs := hside (m, f) (List.mem_cons_self _ _)
      have hf := hq (m, f) (List.mem_cons_self _ _)
      rw [List.map_cons, List.pairwise_cons] at hnd
      have hfold : fillsFold ((m, f) :: rest) l = fillsFold rest (fillStep l (m, f)) := rfl
      have hpn' := pairwise_ne_fillStep l (m, f) hpn
      have hmem' : ∀ mf' ∈ rest, mf'.1 ∈ fillStep l (m, f) := by
        intro mf' hmf'
        refine mem_fillStep_of_ne l m f mf'.1 (hmem mf' (List.mem_cons_of_mem _ hmf')) ?_
        exact Ne.symm (hnd.1 mf'.1 (List.mem_map.mpr ⟨mf', hmf', rfl⟩))
      have ihres := ih (fillStep l (m, f)) hpn' hmem' hnd.2
        (fun mf' h' => hq mf' (List.mem_cons_of_mem _ h'))
        (fun mf' h' => hside mf' (List.mem_cons_of_mem _ h'))
      constructor
      · intro a
        rw [hfold, ihres.1 a]
        exact fillStep_bidSum_askmaker l m f hpn hm hs.1 a
      · intro k
        rw [hfold, consumedItemAt_cons]
        have hstep := fillStep_askSum_askmaker l m f b i hpn hm hs.1 hs.2.1 hs.2.2 hf k
        have hrest := ihres.2 k
        dsimp only at hf ⊢
        omega

theorem fillsFold_bidmaker_sums (b : Nat) (i : String)
    (fills : List (OrderRec × Nat)) :
    ∀ l, (l.Pairwise fun x y => x.id ≠ y.id) →
    (∀ mf ∈ fills, mf.1 ∈ l) →
    ((fills.map fun mf => mf.1).Pairwise fun x y => x.id ≠ y.id) →
    (∀ mf ∈ fills, mf.2 ≤ mf.1.quantity) →
    (∀ mf ∈ fills, mf.1.isBid = true ∧ mf.1.building = b ∧ mf.1.item = i) →
    (∀ k, askSum (fillsFold fills l) k = askSum l k)
    ∧ (∀ x, bidSum l x = bidSum (fillsFold fills l) x + consumedCoinAt fills x) := by
  induction fills with
  | nil =>
      intro l _ _ _ _ _
      exact ⟨fun k => rfl, fun x => by simp [consumedCoinAt, fillsFold]⟩
  | cons mf rest ih =>
      intro l hpn hmem hnd hq hside
      obtain ⟨m, f⟩ := mf
      have hm : m ∈ l := hmem (m, f) (List.mem_cons_self _ _)
      have hs := hside (m, f) (List.mem_cons_self _ _)
      have hf := hq (m, f) (List.mem_cons_self _ _)
      rw [List.map_cons, List.pairwise_cons] at hnd
      have hfold : fillsFold ((m, f) :: rest) l = fillsFold rest (fillStep l (m, f)) := rfl
      have hpn' := pairwise_ne_fillStep l (m, f) hpn
      have hmem' : ∀ mf' ∈ rest, mf'.1 ∈ fillStep l (m, f) := by
        intro mf' hmf'
        refine mem_fillStep_of_ne l m f mf'.1 (hmem mf' (List.mem_cons_of_mem _ hmf')) ?_
        exact Ne.symm (hnd.1 mf'.1 (List.mem_map.mpr ⟨mf', hmf', rfl⟩))
      have ihres := ih (fillStep l (m, f)) hpn' hmem' hnd.2
        (fun mf' h' => hq mf' (List.mem_cons_of_mem _ h'))
        (fun mf' h' => hside mf' (List.mem_cons_of_mem _ h'))
      constructor
      · intro k
        rw [hfold, ihres.1 k]
        exact fillStep_askSum_bidmaker l m f hpn hm hs.1 k
      · intro x
        rw [hfold, consumedCoinAt_cons]
        have hstep := fillStep_bidSum_bidmaker l m f hpn hm hs.1 hf x
        have hrest := ihres.2 x
        dsimp only at hf ⊢
        omega

/-! ## Preservation of the balance invariant -/

theorem inv_transfer (st : State) (h tm : Nat) (a : String) (b : Nat)
    (i : String) (n : Nat) (dest : String) (hInv : Inv st) :
    Inv (applyCmd st h tm (Cmd.transfer a b i n dest)) := by
  obtain ⟨hsort, hids, hcr, hir, hca, hia⟩ := hInv
  show Inv (applyOps st (transferOps st a b i n dest))
  unfold transferOps
  by_cases hn : n = 0
  · rw [if_pos hn]
    exact ⟨hsort, hids, hcr, hir, hca, hia⟩
  · rw [if_neg hn]
    by_cases hg : (n : Int) ≤ st.itemAvail ⟨b, a, i⟩
    · rw [if_pos hg]
      refine ⟨hsort, hids, hcr, ?_, hca, ?_⟩
      · intro k
        show (applyOps st _).itemResv k = (askSum st.orders k : Int)
        rw [applyOps_itemResv]
        have hd : opsItemResvD [Op.itemDelta ⟨b, a, i⟩ (-(n : Int)) 0,
            Op.itemDelta ⟨b, dest, i⟩ (n : Int) 0] k = 0 := by
          simp [opsItemResvD, opItemResvD]
        rw [hd, add_zero]
        exact hir k
      · intro k
        rw [applyOps_itemAvail]
        have hd : opsItemAvailD [Op.itemDelta ⟨b, a, i⟩ (-(n : Int)) 0,
            Op.itemDelta ⟨b, dest, i⟩ (n : Int) 0] k
            = (if k = (⟨b, a, i⟩ : ItemKey) then -(n : Int) else 0)
              + (if k = (⟨b, dest, i⟩ : ItemKey) then (n : Int) else 0) := by
          simp [opsItemAvailD, opItemAvailD]
        rw [hd]
        have h1 := hia k
        by_cases hk1 : k = (⟨b, a, i⟩ : ItemKey)
        · by_cases hk2 : k = (⟨b, dest, i⟩ : ItemKey)
          · rw [if_pos hk1, if_pos hk2]; subst hk1; omega
          · rw [if_pos hk1, if_neg hk2]; subst hk1; omega
        · by_cases hk2 : k = (⟨b, dest, i⟩ : ItemKey)
          · rw [if_neg hk1, if_pos hk2]; omega
          · rw [if_neg hk1, if_neg hk2]; omega
    · rw [if_neg hg]
      exact ⟨hsort, hids, hcr, hir, hca, hia⟩

theorem inv_cancel (st : State) (h tm : Nat) (a : String) (oid : Nat)
    (hInv : Inv st) : Inv (applyCmd st h tm (Cmd.cancel a oid)) := by
  obtain ⟨hsort, hids, hcr, hir, hca, hia⟩ := hInv
  show Inv (applyOps st (cancelOps st a oid))
  cases hfind : st.orders.find? (fun o => o.id == oid) with
  | none =>
      rw [cancelOps_none st a oid hfind]
      exact ⟨hsort, hids, hcr, hir, hca, hia⟩
  | some o =>
      rw [cancelOps_some st a oid o hfind]
      have hom : o ∈ st.orders := List.mem_of_find?_eq_some hfind
      by_cases hacct : o.account = a
      · rw [if_pos hacct]
        have hpn := pairwise_ne_of_sorted st.orders hsort
        have hperm := perm_cons_eraseById o st.orders hpn hom
        have hsort' : sortedById (eraseById o.id st.orders) :=
          List.Pairwise.sublist (eraseById_sublist _ _) hsort
        have hids' : ∀ o' ∈ eraseById o.id st.orders, o'.id < st.nextId :=
          fun o' ho' => hids o' ((eraseById_sublist _ _).mem ho')
        by_cases hbid : o.isBid = true
        · rw [cancelRelease, if_pos hbid]
          have horders : (applyOps st [Op.removeOrd o,
              Op.coinDelta a ((o.price * o.quantity : Nat) : Int)
                (-((o.price * o.quantity : Nat) : Int))]).orders
              = eraseById o.id st.orders := rfl
          refine ⟨?_, ?_, ?_, ?_, ?_, hia⟩
          · rw [horders]; exact hsort'
          · rw [horders]; exact hids'
          · intro x
            rw [horders, applyOps_coinResv]
            have hd : opsCoinResvD [Op.removeOrd o,
                Op.coinDelta a ((o.price * o.quantity : Nat) : Int)
                  (-((o.price * o.quantity : Nat) : Int))] x
                = if x = a then -((o.price * o.quantity : Nat) : Int) else 0 := by
              by_cases hx : x = a <;> simp [opsCoinResvD, opCoinResvD, hx]
            rw [hd]
            have hdec : bidSum st.orders x
                = (if bidOf x o = true then coinObl o else 0)
                  + bidSum (eraseById o.id st.orders) x := by
              rw [bidSum_perm _ _ x hperm, bidSum_cons]
            have hbo : bidOf x o = true ↔ x = a := by
              unfold bidOf
              rw [hacct]
              simp only [hbid, Bool.and_true, beq_iff_eq]
              exact eq_comm
            have hcrx := hcr x
            by_cases hx : x = a
            · rw [if_pos hx]
              rw [if_pos (hbo.mpr hx)] at hdec
              unfold coinObl at hdec
              omega
            · rw [if_neg hx]
              rw [if_neg fun hc => hx (hbo.mp hc)] at hdec
              omega
          · intro k
            rw [horders, applyOps_itemResv]
            have hd : opsItemResvD [Op.removeOrd o,
                Op.coinDelta a ((o.price * o.quantity : Nat) : Int)
                  (-((o.price * o.quantity : Nat) : Int))] k = 0 := by
              simp [opsItemResvD, opItemResvD]
            rw [hd, add_zero]
            have hdec : askSum st.orders k
                = (if askOf k o = true then o.quantity else 0)
                  + askSum (eraseById o.id st.orders) k := by
              rw [askSum_perm _ _ k hperm, askSum_cons]
            have hao : askOf k o = false := by simp [askOf, hbid]
            rw [hao] at hdec
            simp only [Bool.false_eq_true, if_false, zero_add] at hdec
            rw [← hdec]
            exact hir k
          · intro x
            rw [applyOps_coinAvail]
            have hd : opsCoinAvailD [Op.removeOrd o,
                Op.coinDelta a ((o.price * o.quantity : Nat) : Int)
                  (-((o.price * o.quantity : Nat) : Int))] x
                = if x = a then ((o.price * o.quantity : Nat) : Int) else 0 := by
              by_cases hx : x = a <;> simp [opsCoinAvailD, opCoinAvailD, hx]
            rw [hd]
            have hcax := hca x
            by_cases hx : x = a
            · rw [if_pos hx]
              positivity
            · rw [if_neg hx]
              omega
        · rw [cancelRelease, if_neg hbid]
          have horders : (applyOps st [Op.removeOrd o,
              Op.itemDelta ⟨o.building, a, o.item⟩ ((o.quantity : Nat) : Int)
                (-((o.quantity : Nat) : Int))]).orders
              = eraseById o.id st.orders := rfl
          refine ⟨?_, ?_, ?_, ?_, hca, ?_⟩
          · rw [horders]; exact hsort'
          · rw [horders]; exact hids'
          · intro x
            rw [horders, applyOps_coinResv]
            have hd : opsCoinResvD [Op.removeOrd o,
                Op.itemDelta ⟨o.building, a, o.item⟩ ((o.quantity : Nat) : Int)
                  (-((o.quantity : Nat) : Int))] x = 0 := by
              simp [opsCoinResvD, opCoinResvD]
            rw [hd, add_zero]
            have hdec : bidSum st.orders x
                = (if bidOf x o = true then coinObl o else 0)
                  + bidSum (eraseById o.id st.orders) x := by
              rw [bidSum_perm _ _ x hperm, bidSum_cons]
            have hbo : bidOf x o = false := by
              unfold bidOf
              simp [hbid]
            rw [hbo] at hdec
            simp only [Bool.false_eq_true, if_false, zero_add] at hdec
            rw [← hdec]
            exact hcr x
          · intro k
            rw [horders, applyOps_itemResv]
            have hd : opsItemResvD [Op.removeOrd o,
                Op.itemDelta ⟨o.building, a, o.item⟩ ((o.quantity : Nat) : Int)
                  (-((o.quantity : Nat) : Int))] k
                = if k = (⟨o.building, a, o.item⟩ : ItemKey)
                  then -((o.quantity : Nat) : Int) else 0 := by
              by_cases hk : k = (⟨o.building, a, o.item⟩ : ItemKey) <;>
                simp [opsItemResvD, opItemResvD, hk]
            rw [hd]
            have hdec : askSum st.orders k
                = (if askOf k o = true then o.quantity else 0)
                  + askSum (eraseById o.id st.orders) k := by
              rw [askSum_perm _ _ k hperm, askSum_cons]
            have hbid' : o.isBid = false := Bool.eq_false_iff.mpr hbid
            have hao : askOf k o = true
                ↔ k = (⟨o.building, a, o.item⟩ : ItemKey) :=
              hacct ▸ askOf_iff_key k o o.building o.item rfl rfl hbid'
            have hirk := hir k
            by_cases hk : k = (⟨o.building, a, o.item⟩ : ItemKey)
            · rw [if_pos hk]
              rw [if_pos (hao.mpr hk)] at hdec
              omega
            · rw [if_neg hk]
              rw [if_neg fun hc => hk (hao.mp hc)] at hdec
              omega
          · intro k
            rw [applyOps_itemAvail]
            have hd : opsItemAvailD [Op.removeOrd o,
                Op.itemDelta ⟨o.building, a, o.item⟩ ((o.quantity : Nat) : Int)
                  (-((o.quantity : Nat) : Int))] k
                = if k = (⟨o.building, a, o.item⟩ : ItemKey)
                  then ((o.quantity : Nat) : Int) else 0 := by
              by_cases hk : k = (⟨o.building, a, o.item⟩ : ItemKey) <;>
                simp [opsItemAvailD, opItemAvailD, hk]
            rw [hd]
            have hiak := hia k
            by_cases hk : k = (⟨o.building, a, o.item⟩ : ItemKey)
            · rw [if_pos hk]
              positivity
            · rw [if_neg hk]
              omega
      · rw [if_neg hacct]
        exact ⟨hsort, hids, hcr, hir, hca, hia⟩

theorem opsCoinResvD_insIf (c : Prop) [Decidable c] (o : OrderRec) (x : String) :
    opsCoinResvD (if c then [] else [Op.insertOrd o]) x = 0 := by
  split <;> simp [opsCoinResvD, opCoinResvD]

theorem opsCoinAvailD_insIf (c : Prop) [Decidable c] (o : OrderRec) (x : String) :
    opsCoinAvailD (if c then [] else [Op.insertOrd o]) x = 0 := by
  split <;> simp [opsCoinAvailD, opCoinAvailD]

theorem opsItemResvD_insIf (c : Prop) [Decidable c] (o : OrderRec) (k : ItemKey) :
    opsItemResvD (if c then [] else [Op.insertOrd o]) k = 0 := by
  split <;> simp [opsItemResvD, opItemResvD]

theorem opsItemAvailD_insIf (c : Prop) [Decidable c] (o : OrderRec) (k : ItemKey) :
    opsItemAvailD (if c then [] else [Op.insertOrd o]) k = 0 := by
  split <;> simp [opsItemAvailD, opItemAvailD]

theorem inv_place_bid (st : State) (h tm : Nat) (a : String) (b : Nat)
    (i : String) (n p : Nat) (hInv : Inv st) (hfee : FeeOk st) :
    Inv (applyCmd st h tm (Cmd.place a b i n true p)) := by
  obtain ⟨hsort, hids, hcr, hir, hca, hia⟩ := hInv
  show Inv (applyOps st (placeOps st h tm a b i n true p))
  unfold placeOps
  by_cases hn : n = 0
  · rw [if_pos hn]
    exact ⟨hsort, hids, hcr, hir, hca, hia⟩
  · rw [if_neg hn, if_pos rfl]
    by_cases hg : (p * n : Int) ≤ st.coinAvail a
    · rw [if_pos hg]
      have hpn := pairwise_ne_of_sorted st.orders hsort
      have hquty : fillsQty (bidFills st b i n p).1 + (bidFills st b i n p).2 = n :=
        computeFills_qty _ _ n
      have hsub : List.Sublist ((bidFills st b i n p).1.map fun mf => mf.1)
          (bookAsks st b i) := computeFills_sublist _ _ n
      have hmemf : ∀ mf ∈ (bidFills st b i n p).1, mf.1 ∈ st.orders := by
        intro mf hmf
        exact (mem_bookAsks st b i mf.1
          (hsub.mem (List.mem_map.mpr ⟨mf, hmf, rfl⟩))).1
      have hside : ∀ mf ∈ (bidFills st b i n p).1,
          mf.1.isBid = false ∧ mf.1.building = b ∧ mf.1.item = i := by
        intro mf hmf
        have := mem_bookAsks st b i mf.1 (hsub.mem (List.mem_map.mpr ⟨mf, hmf, rfl⟩))
        exact this.2
      have hqle : ∀ mf ∈ (bidFills st b i n p).1, mf.2 ≤ mf.1.quantity :=
        fun mf hmf => (computeFills_mem _ _ n mf hmf).1
      have hcross : ∀ mf ∈ (bidFills st b i n p).1, mf.1.price ≤ p := by
        intro mf hmf
        exact of_decide_eq_true (computeFills_mem _ _ n mf hmf).2
      have hnd : ((bidFills st b i n p).1.map fun mf => mf.1).Pairwise
          fun x y => x.id ≠ y.id :=
        List.Pairwise.sublist hsub (pairwise_ne_bookAsks st b i hpn)
      have hsums := fillsFold_askmaker_sums b i (bidFills st b i n p).1 st.orders
        hpn hmemf hnd hqle hside
      have horders : (applyOps st (placeBidOps st h tm a b i n p)).orders
          = if (bidFills st b i n p).2 = 0
            then fillsFold (bidFills st b i n p).1 st.orders
            else insertById ⟨st.nextId, b, i, a, true, p, (bidFills st b i n p).2⟩
              (fillsFold (bidFills st b i n p).1 st.orders) := by
        rw [applyOps_orders]
        unfold placeBidOps
        rw [foldOrders_append, foldOrders_append, foldOrders_append]
        have h1 : foldOrders [Op.coinDelta a (-((p * n : Nat) : Int))
            ((p * n : Nat) : Int)] st.orders = st.orders := rfl
        rw [h1, foldOrders_flatten_bid]
        by_cases hrem : (bidFills st b i n p).2 = 0
        · rw [if_pos hrem, if_pos hrem]
          rfl
        · rw [if_neg hrem, if_neg hrem]
          rfl
      have hnid : (applyOps st (placeBidOps st h tm a b i n p)).nextId
          = st.nextId + 1 := by
        unfold placeBidOps
        rw [applyOps_append]
        rfl
      have hidsf : ∀ o ∈ fillsFold (bidFills st b i n p).1 st.orders,
          o.id < st.nextId := by
        intro o ho
        have := id_mem_fillsFold (bidFills st b i n p).1 st.orders o ho
        rcases List.mem_map.mp this with ⟨z, hz, hzid⟩
        rw [← hzid]
        exact hids z hz
      have hsortf : sortedById (fillsFold (bidFills st b i n p).1 st.orders) :=
        sortedById_fillsFold _ st.orders hsort
      have hmul : p * fillsQty (bidFills st b i n p).1
          + p * (bidFills st b i n p).2 = p * n := by
        rw [← Nat.mul_add, hquty]
      refine ⟨?_, ?_, ?_, ?_, ?_, ?_⟩
      · rw [horders]
        by_cases hrem : (bidFills st b i n p).2 = 0
        · rw [if_pos hrem]
          exact hsortf
        · rw [if_neg hrem]
          exact sortedById_insert_max _ _ hsortf hidsf
      · rw [horders, hnid]
        by_cases hrem : (bidFills st b i n p).2 = 0
        · rw [if_pos hrem]
          intro o ho
          exact Nat.lt_succ_of_lt (hidsf o ho)
        · rw [if_neg hrem]
          intro o ho
          rcases mem_insertById o _ _ ho with hq1 | hq1
          · rw [hq1]
            exact Nat.lt_succ_self _
          · exact Nat.lt_succ_of_lt (hidsf o hq1)
      · intro x
        rw [horders, applyOps_coinResv]
        have hD : opsCoinResvD (placeBidOps st h tm a b i n p) x
            = (if x = a then ((p * n : Nat) : Int) else 0)
              + (if x = a
                 then -((p * fillsQty (bidFills st b i n p).1 : Nat) : Int) else 0) := by
          unfold placeBidOps
          rw [opsCoinResvD_append, opsCoinResvD_append, opsCoinResvD_append]
          rw [opsCoinResvD_flatten_bid st h tm a b i p _ hcross x]
          rw [opsCoinResvD_insIf]
          have h1 : opsCoinResvD [Op.coinDelta a (-((p * n : Nat) : Int))
              ((p * n : Nat) : Int)] x
              = if x = a then ((p * n : Nat) : Int) else 0 := by
            by_cases hx : x = a <;> simp [opsCoinResvD, opCoinResvD, hx]
          have h3 : opsCoinResvD [Op.setNextId st.nextId (st.nextId + 1)] x = 0 := by
            simp [opsCoinResvD, opCoinResvD]
          rw [h1, h3]
          ring
        rw [hD]
        have hfold := hsums.1 x
        have hcrx := hcr x
        by_cases hrem : (bidFills st b i n p).2 = 0
        · rw [if_pos hrem]
          rw [hfold]
          have hfq : fillsQty (bidFills st b i n p).1 = n := by omega
          by_cases hx : x = a
          · rw [if_pos hx, if_pos hx, hfq]
            omega
          · rw [if_neg hx, if_neg hx]
            omega
        · rw [if_neg hrem]
          rw [bidSum_insertById, hfold]
          have hbo : bidOf x ⟨st.nextId, b, i, a, true, p, (bidFills st b i n p).2⟩
              = true ↔ x = a := by
            unfold bidOf
            simp only [Bool.and_true, beq_iff_eq]
            exact eq_comm
          have hobl : coinObl ⟨st.nextId, b, i, a, true, p, (bidFills st b i n p).2⟩
              = p * (bidFills st b i n p).2 := rfl
          by_cases hx : x = a
          · rw [if_pos (hbo.mpr hx), if_pos hx, if_pos hx, hobl]
            omega
          · rw [if_neg fun hc => hx (hbo.mp hc), if_neg hx, if_neg hx]
            omega
      · intro k
        rw [horders, applyOps_itemResv]
        have hD : opsItemResvD (placeBidOps st h tm a b i n p) k
            = -((consumedItemAt b i (bidFills st b i n p).1 k : Nat) : Int) := by
          unfold placeBidOps
          rw [opsItemResvD_append, opsItemResvD_append, opsItemResvD_append]
          rw [opsItemResvD_flatten_bid, opsItemResvD_insIf]
          have h1 : opsItemResvD [Op.coinDelta a (-((p * n : Nat) : Int))
              ((p * n : Nat) : Int)] k = 0 := by
            simp [opsItemResvD, opItemResvD]
          have h3 : opsItemResvD [Op.setNextId st.nextId (st.nextId + 1)] k = 0 := by
            simp [opsItemResvD, opItemResvD]
          rw [h1, h3]
          ring
        rw [hD]
        have hfold := hsums.2 k
        have hirk := hir k
        by_cases hrem : (bidFills st b i n p).2 = 0
        · rw [if_pos hrem]
          omega
        · rw [if_neg hrem]
          rw [askSum_insertById]
          have hao : askOf k ⟨st.nextId, b, i, a, true, p, (bidFills st b i n p).2⟩
              = false := by
            simp [askOf]
          rw [hao]
          simp only [Bool.false_eq_true, if_false, zero_add]
          omega
      · intro x
        rw [applyOps_coinAvail]
        have hD : opsCoinAvailD (placeBidOps st h tm a b i n p) x
            = (if x = a then -((p * n : Nat) : Int) else 0)
              + opsCoinAvailD (((bidFills st b i n p).1.map
                  (bidFillOps st h tm a b i p)).flatten) x := by
          unfold placeBidOps
          rw [opsCoinAvailD_append, opsCoinAvailD_append, opsCoinAvailD_append]
          rw [opsCoinAvailD_insIf]
          have h1 : opsCoinAvailD [Op.coinDelta a (-((p * n : Nat) : Int))
              ((p * n : Nat) : Int)] x
              = if x = a then -((p * n : Nat) : Int) else 0 := by
            by_cases hx : x = a <;> simp [opsCoinAvailD, opCoinAvailD, hx]
          have h3 : opsCoinAvailD [Op.setNextId st.nextId (st.nextId + 1)] x = 0 := by
            simp [opsCoinAvailD, opCoinAvailD]
          rw [h1, h3]
          ring
        rw [hD]
        have hflat := opsCoinAvailD_flatten_bid_nonneg st h tm a b i p
          (bidFills st b i n p).1 (hfee b) x
        have hcax := hca x
        by_cases hx : x = a
        · subst hx
          rw [if_pos rfl]
          omega
        · rw [if_neg hx]
          omega
      · intro k
        rw [applyOps_itemAvail]
        have hD : opsItemAvailD (placeBidOps st h tm a b i n p) k
            = if k = ⟨b, a, i⟩
              then ((fillsQty (bidFills st b i n p).1 : Nat) : Int) else 0 := by
          unfold placeBidOps
          rw [opsItemAvailD_append, opsItemAvailD_append, opsItemAvailD_append]
          rw [opsItemAvailD_flatten_bid, opsItemAvailD_insIf]
          have h1 : opsItemAvailD [Op.coinDelta a (-((p * n : Nat) : Int))
              ((p * n : Nat) : Int)] k = 0 := by
            simp [opsItemAvailD, opItemAvailD]
          have h3 : opsItemAvailD [Op.setNextId st.nextId (st.nextId + 1)] k = 0 := by
            simp [opsItemAvailD, opItemAvailD]
          rw [h1, h3]
          ring
        rw [hD]
        have hiak := hia k
        by_cases hk : k = (⟨b, a, i⟩ : ItemKey)
        · subst hk
          rw [if_pos rfl]
          omega
        · rw [if_neg hk]
          omega
    · rw [if_neg hg]
      exact ⟨hsort, hids, hcr, hir, hca, hia⟩

theorem inv_place_ask (st : State) (h tm : Nat) (a : String) (b : Nat)
    (i : String) (n p : Nat) (hInv : Inv st) (hfee : FeeOk st) :
    Inv (applyCmd st h tm (Cmd.place a b i n false p)) := by
  obtain ⟨hsort, hids, hcr, hir, hca, hia⟩ := hInv
  show Inv (applyOps st (placeOps st h tm a b i n false p))
  unfold placeOps
  by_cases hn : n = 0
  · rw [if_pos hn]
    exact ⟨hsort, hids, hcr, hir, hca, hia⟩
  · rw [if_neg hn, if_neg Bool.false_ne_true]
    by_cases hg : (n : Int) ≤ st.itemAvail ⟨b, a, i⟩
    · rw [if_pos hg]
      have hpn := pairwise_ne_of_sorted st.orders hsort
      have hquty : fillsQty (askFills st b i n p).1 + (askFills st b i n p).2 = n :=
        computeFills_qty _ _ n
      have hsub : List.Sublist ((askFills st b i n p).1.map fun mf => mf.1)
          (bookBids st b i) := computeFills_sublist _ _ n
      have hmemf : ∀ mf ∈ (askFills st b i n p).1, mf.1 ∈ st.orders := by
        intro mf hmf
        exact (mem_bookBids st b i mf.1
          (hsub.mem (List.mem_map.mpr ⟨mf, hmf, rfl⟩))).1
      have hside : ∀ mf ∈ (askFills st b i n p).1,
          mf.1.isBid = true ∧ mf.1.building = b ∧ mf.1.item = i := by
        intro mf hmf
        have := mem_bookBids st b i mf.1 (hsub.mem (List.mem_map.mpr ⟨mf, hmf, rfl⟩))
        exact this.2
      have hqle : ∀ mf ∈ (askFills st b i n p).1, mf.2 ≤ mf.1.quantity :=
        fun mf hmf => (computeFills_mem _ _ n mf hmf).1
      have hnd : ((askFills st b i n p).1.map fun mf => mf.1).Pairwise
          fun x y => x.id ≠ y.id :=
        List.Pairwise.sublist hsub (pairwise_ne_bookBids st b i hpn)
      have hsums := fillsFold_bidmaker_sums b i (askFills st b i n p).1 st.orders
        hpn hmemf hnd hqle hside
      have horders : (applyOps st (placeAskOps st h tm a b i n p)).orders
          = if (askFills st b i n p).2 = 0
            then fillsFold (askFills st b i n p).1 st.orders
            else insertById ⟨st.nextId, b, i, a, false, p, (askFills st b i n p).2⟩
              (fillsFold (askFills st b i n p).1 st.orders) := by
        rw [applyOps_orders]
        unfold placeAskOps
        rw [foldOrders_append, foldOrders_append, foldOrders_append]
        have h1 : foldOrders [Op.itemDelta ⟨b, a, i⟩ (-(n : Int)) (n : Int)]
            st.orders = st.orders := rfl
        rw [h1, foldOrders_flatten_ask]
        by_cases hrem : (askFills st b i n p).2 = 0
        · rw [if_pos hrem, if_pos hrem]
          rfl
        · rw [if_neg hrem, if_neg hrem]
          rfl
      have hnid : (applyOps st (placeAskOps st h tm a b i n p)).nextId
          = st.nextId + 1 := by
        unfold placeAskOps
        rw [applyOps_append]
        rfl
      have hidsf : ∀ o ∈ fillsFold (askFills st b i n p).1 st.orders,
          o.id < st.nextId := by
        intro o ho
        have := id_mem_fillsFold (askFills st b i n p).1 st.orders o ho
        rcases List.mem_map.mp this with ⟨z, hz, hzid⟩
        rw [← hzid]
        exact hids z hz
      have hsortf : sortedById (fillsFold (askFills st b i n p).1 st.orders) :=
        sortedById_fillsFold _ st.orders hsort
      refine ⟨?_, ?_, ?_, ?_, ?_, ?_⟩
      · rw [horders]
        by_cases hrem : (askFills st b i n p).2 = 0
        · rw [if_pos hrem]
          exact hsortf
        · rw [if_neg hrem]
          exact sortedById_insert_max _ _ hsortf hidsf
      · rw [horders, hnid]
        by_cases hrem : (askFills st b i n p).2 = 0
        · rw [if_pos hrem]
          intro o ho
          exact Nat.lt_succ_of_lt (hidsf o ho)
        · rw [if_neg hrem]
          intro o ho
          rcases mem_insertById o _ _ ho with hq1 | hq1
          · rw [hq1]
            exact Nat.lt_succ_self _
          · exact Nat.lt_succ_of_lt (hidsf o hq1)
      · intro x
        rw [horders, applyOps_coinResv]
        have hD : opsCoinResvD (placeAskOps st h tm a b i n p) x
            = -((consumedCoinAt (askFills st b i n p).1 x : Nat) : Int) := by
          unfold placeAskOps
          rw [opsCoinResvD_append, opsCoinResvD_append, opsCoinResvD_append]
          rw [opsCoinResvD_flatten_ask, opsCoinResvD_insIf]
          have h1 : opsCoinResvD [Op.itemDelta ⟨b, a, i⟩ (-(n : Int)) (n : Int)] x
              = 0 := by
            simp [opsCoinResvD, opCoinResvD]
          have h3 : opsCoinResvD [Op.setNextId st.nextId (st.nextId + 1)] x = 0 := by
            simp [opsCoinResvD, opCoinResvD]
          rw [h1, h3]
          ring
        rw [hD]
        have hfold := hsums.2 x
        have hcrx := hcr x
        by_cases hrem : (askFills st b i n p).2 = 0
        · rw [if_pos hrem]
          omega
        · rw [if_neg hrem]
          rw [bidSum_insertById]
          have hbo : bidOf x ⟨st.nextId, b, i, a, false, p, (askFills st b i n p).2⟩
              = false := by
            simp [bidOf]
          rw [hbo]
          simp only [Bool.false_eq_true, if_false, zero_add]
          omega
      · intro k
        rw [horders, applyOps_itemResv]
        have hD : opsItemResvD (placeAskOps st h tm a b i n p) k
            = (if k = (⟨b, a, i⟩ : ItemKey) then (n : Int) else 0)
              + (if k = (⟨b, a, i⟩ : ItemKey)
                 then -((fillsQty (askFills st b i n p).1 : Nat) : Int) else 0) := by
          unfold placeAskOps
          rw [opsItemResvD_append, opsItemResvD_append, opsItemResvD_append]
          rw [opsItemResvD_flatten_ask, opsItemResvD_insIf]
          have h1 : opsItemResvD [Op.itemDelta ⟨b, a, i⟩ (-(n : Int)) (n : Int)] k
              = if k = (⟨b, a, i⟩ : ItemKey) then (n : Int) else 0 := by
            by_cases hk : k = (⟨b, a, i⟩ : ItemKey) <;>
              simp [opsItemResvD, opItemResvD, hk]
          have h3 : opsItemResvD [Op.setNextId st.nextId (st.nextId + 1)] k = 0 := by
            simp [opsItemResvD, opItemResvD]
          rw [h1, h3]
          ring
        rw [hD]
        have hfold := hsums.1 k
        have hirk := hir k
        by_cases hrem : (askFills st b i n p).2 = 0
        · rw [if_pos hrem, hfold]
          have hfq : fillsQty (askFills st b i n p).1 = n := by omega
          by_cases hk : k = (⟨b, a, i⟩ : ItemKey)
          · rw [if_pos hk, if_pos hk, hfq]
            omega
          · rw [if_neg hk, if_neg hk]
            omega
        · rw [if_neg hrem]
          rw [askSum_insertById, hfold]
          have hao : askOf k ⟨st.nextId, b, i, a, false, p, (askFills st b i n p).2⟩
              = true ↔ k = (⟨b, a, i⟩ : ItemKey) :=
            askOf_iff_key k _ b i rfl rfl rfl
          by_cases hk : k = (⟨b, a, i⟩ : ItemKey)
          · rw [if_pos (hao.mpr hk), if_pos hk, if_pos hk]
            dsimp only
            omega
          · rw [if_neg fun hc => hk (hao.mp hc), if_neg hk, if_neg hk]
            omega
      · intro x
        rw [applyOps_coinAvail]
        have hD : opsCoinAvailD (placeAskOps st h tm a b i n p) x
            = opsCoinAvailD (((askFills st b i n p).1.map
                (askFillOps st h tm a b i)).flatten) x := by
          unfold placeAskOps
          rw [opsCoinAvailD_append, opsCoinAvailD_append, opsCoinAvailD_append]
          rw [opsCoinAvailD_insIf]
          have h1 : opsCoinAvailD [Op.itemDelta ⟨b, a, i⟩ (-(n : Int)) (n : Int)] x
              = 0 := by
            simp [opsCoinAvailD, opCoinAvailD]
          have h3 : opsCoinAvailD [Op.setNextId st.nextId (st.nextId + 1)] x = 0 := by
            simp [opsCoinAvailD, opCoinAvailD]
          rw [h1, h3]
          ring
        rw [hD]
        have hflat := opsCoinAvailD_flatten_ask_nonneg st h tm a b i
          (askFills st b i n p).1 (hfee b) x
        have hcax := hca x
        omega
      · intro k
        rw [applyOps_itemAvail]
        have hD : opsItemAvailD (placeAskOps st h tm a b i n p) k
            = (if k = (⟨b, a, i⟩ : ItemKey) then -(n : Int) else 0)
              + ((consumedItemAt b i (askFills st b i n p).1 k : Nat) : Int) := by
          unfold placeAskOps
          rw [opsItemAvailD_append, opsItemAvailD_append, opsItemAvailD_append]
          rw [opsItemAvailD_flatten_ask, opsItemAvailD_insIf]
          have h1 : opsItemAvailD [Op.itemDelta ⟨b, a, i⟩ (-(n : Int)) (n : Int)] k
              = if k = (⟨b, a, i⟩ : ItemKey) then -(n : Int) else 0 := by
            by_cases hk : k = (⟨b, a, i⟩ : ItemKey) <;>
              simp [opsItemAvailD, opItemAvailD, hk]
          have h3 : opsItemAvailD [Op.setNextId st.nextId (st.nextId + 1)] k = 0 := by
            simp [opsItemAvailD, opItemAvailD]
          rw [h1, h3]
          ring
        rw [hD]
        have hiak := hia k
        by_cases hk : k = (⟨b, a, i⟩ : ItemKey)
        · subst hk
          rw [if_pos rfl]
          omega
        · rw [if_neg hk]
          omega
    · rw [if_neg hg]
      exact ⟨hsort, hids, hcr, hir, hca, hia⟩

theorem feeOk_applyOps (st : State) (ops : List Op) (hfee : FeeOk st) :
    FeeOk (applyOps st ops) := by
  intro b
  rw [applyOps_dexfee]
  exact hfee b

theorem inv_applyCmd (st : State) (h tm : Nat) (c : Cmd) (hInv : Inv st)
    (hfee : FeeOk st) : Inv (applyCmd st h tm c) := by
  cases c with
  | place a b i n isBid p =>
      cases isBid
      · exact inv_place_ask st h tm a b i n p hInv hfee
      · exact inv_place_bid st h tm a b i n p hInv hfee
  | cancel a oid => exact inv_cancel st h tm a oid hInv
  | transfer a b i n dest => exact inv_transfer st h tm a b i n dest hInv

theorem applyOps_cmdsOps (h tm : Nat) (cs : List Cmd) :
    ∀ st, applyOps st (cmdsOps h tm st cs)
      = cs.foldl (fun s c => applyCmd s h tm c) st := by
  induction cs with
  | nil => intro st; rfl
  | cons c rest ih =>
      intro st
      rw [cmdsOps, applyOps_append]
      exact ih (applyOps st (cmdOps st h tm c))

theorem applyBlock_foldCmds (st : State) (b : Block) :
    applyBlock st b = b.cmds.foldl (fun s c => applyCmd s b.height b.time c) st :=
  applyOps_cmdsOps b.height b.time b.cmds st

theorem inv_foldCmds (h tm : Nat) (cs : List Cmd) :
    ∀ st, Inv st → FeeOk st →
      Inv (cs.foldl (fun s c => applyCmd s h tm c) st)
      ∧ FeeOk (cs.foldl (fun s c => applyCmd s h tm c) st) := by
  induction cs with
  | nil => intro st hInv hfee; exact ⟨hInv, hfee⟩
  | cons c rest ih =>
      intro st hInv hfee
      rw [List.foldl_cons]
      exact ih (applyCmd st h tm c) (inv_applyCmd st h tm c hInv hfee)
        (feeOk_applyOps st _ hfee)

theorem inv_applyBlock (st : State) (b : Block) (hInv : Inv st)
    (hfee : FeeOk st) : Inv (applyBlock st b) ∧ FeeOk (applyBlock st b) := by
  rw [applyBlock_foldCmds]
  exact inv_foldCmds b.height b.time b.cmds st hInv hfee

theorem inv_applyBlocks (bs : List Block) :
    ∀ st, Inv st → FeeOk st →
      Inv (applyBlocks st bs) ∧ FeeOk (applyBlocks st bs) := by
  induction bs with
  | nil => intro st hInv hfee; exact ⟨hInv, hfee⟩
  | cons b rest ih =>
      intro st hInv hfee
      have hstep := inv_applyBlock st b hInv hfee
      exact ih (applyBlock st b) hstep.1 hstep.2

/-! ## The building configuration scheduler -/

theorem processCfgMove_config (owner : Option String) (dur h : Nat)
    (st : CfgState) (m : CfgMove) :
    (processCfgMove owner dur h st m).config = st.config := by
  unfold processCfgMove
  split <;> rfl

theorem foldl_processCfgMove_config (owner : Option String) (dur h : Nat)
    (ms : List CfgMove) :
    ∀ st : CfgState, (ms.foldl (processCfgMove owner dur h) st).config
      = st.config := by
  induction ms with
  | nil => intro st; rfl
  | cons m rest ih =>
      intro st
      rw [List.foldl_cons, ih, processCfgMove_config]

theorem cfgStep_config_of_no_pending (owner : Option String) (dur : Nat)
    (c : BuildingConfig) (h : Nat) (ms : List CfgMove) :
    (cfgStep owner dur ⟨c, []⟩ h ms).config = c := by
  unfold cfgStep
  rw [foldl_processCfgMove_config]
  rfl

theorem processCfgMove_invalid (owner : Option String) (dur h : Nat)
    (st : CfgState) (m : CfgMove)
    (hbad : ¬(owner = some m.sender ∧ validCfgMove m = true)) :
    processCfgMove owner dur h st m = st := by
  unfold processCfgMove
  rw [if_neg]
  intro hc
  rw [Bool.and_eq_true, decide_eq_true_eq] at hc
  exact hbad ⟨hc.1, hc.2⟩

theorem processCfgMove_valid (owner : Option String) (dur h : Nat)
    (st : CfgState) (m : CfgMove)
    (hok : owner = some m.sender ∧ validCfgMove m = true) :
    processCfgMove owner dur h st m
      = { st with pending := st.pending ++ [(h + dur, toUpd m)] } := by
  unfold processCfgMove
  rw [if_pos]
  rw [Bool.and_eq_true, decide_eq_true_eq]
  exact hok

theorem cfgRun_empty_nil (owner : Option String) (dur : Nat)
    (c : BuildingConfig) :
    ∀ (k h' : Nat), cfgRun owner dur ⟨c, []⟩ h' (List.replicate k []) = ⟨c, []⟩ := by
  intro k
  induction k with
  | zero => intro h'; rfl
  | succ k ih =>
      intro h'
      rw [List.replicate_succ]
      show cfgRun owner dur (cfgStep owner dur ⟨c, []⟩ h' []) (h' + 1)
        (List.replicate k []) = ⟨c, []⟩
      have hstep : cfgStep owner dur ⟨c, []⟩ h' [] = ⟨c, []⟩ := rfl
      rw [hstep]
      exact ih (h' + 1)

theorem cfgRun_pending_all_e (owner : Option String) (dur : Nat)
    (c : BuildingConfig) (e : Nat) (ps : List (Nat × CfgUpd))
    (he : ∀ x ∈ ps, x.1 = e) :
    ∀ (k h' : Nat), cfgRun owner dur ⟨c, ps⟩ h' (List.replicate k [])
      = if h' ≤ e ∧ e < h' + k
        then ⟨ps.foldl (fun cc x => applyUpd cc x.2) c, []⟩
        else ⟨c, ps⟩ := by
  intro k
  induction k with
  | zero =>
      intro h'
      rw [if_neg]
      · rfl
      · intro hc
        omega
  | succ k ih =>
      intro h'
      rw [List.replicate_succ]
      show cfgRun owner dur (cfgStep owner dur ⟨c, ps⟩ h' []) (h' + 1)
        (List.replicate k []) = _
      by_cases hh : h' = e
      · have hfil1 : ps.filter (fun x => x.1 == h') = ps := by
          rw [List.filter_eq_self]
          intro x hx
          rw [beq_iff_eq, he x hx, hh]
        have hfil2 : ps.filter (fun x => x.1 != h') = [] := by
          rw [List.filter_eq_nil_iff]
          intro x hx
          simp [bne_iff_ne, he x hx, hh]
        have hstep : cfgStep owner dur ⟨c, ps⟩ h' []
            = ⟨ps.foldl (fun cc x => applyUpd cc x.2) c, []⟩ := by
          unfold cfgStep applyDue
          rw [List.foldl_nil]
          rw [hfil1, hfil2]
        rw [hstep, cfgRun_empty_nil]
        rw [if_pos]
        omega
      · have hfil1 : ps.filter (fun x => x.1 == h') = [] := by
          rw [List.filter_eq_nil_iff]
          intro x hx
          simp only [beq_iff_eq, he x hx]
          exact fun hc => hh hc.symm
        have hfil2 : ps.filter (fun x => x.1 != h') = ps := by
          rw [List.filter_eq_self]
          intro x hx
          rw [bne_iff_ne, he x hx]
          exact fun hc => hh hc.symm
        have hstep : cfgStep owner dur ⟨c, ps⟩ h' [] = ⟨c, ps⟩ := by
          unfold cfgStep applyDue
          rw [List.foldl_nil]
          rw [hfil1, hfil2]
          rfl
        rw [hstep, ih (h' + 1)]
        by_cases hcond : h' + 1 ≤ e ∧ e < h' + 1 + k
        · rw [if_pos hcond, if_pos]
          omega
        · rw [if_neg hcond, if_neg]
          omega

theorem applyDue_all_e (c : BuildingConfig) (e : Nat)
    (ps : List (Nat × CfgUpd)) (he : ∀ x ∈ ps, x.1 = e) :
    applyDue ⟨c, ps⟩ e = ⟨ps.foldl (fun cc x => applyUpd cc x.2) c, []⟩ := by
  unfold applyDue
  have hfil1 : ps.filter (fun x => x.1 == e) = ps := by
    rw [List.filter_eq_self]
    intro x hx
    rw [beq_iff_eq, he x hx]
  have hfil2 : ps.filter (fun x => x.1 != e) = [] := by
    rw [List.filter_eq_nil_iff]
    intro x hx
    simp [bne_iff_ne, he x hx]
  rw [hfil1, hfil2]

/-! ## Remaining helper facts for the claims -/

theorem placeOps_zero (st : State) (h tm : Nat) (a : String) (b : Nat)
    (i : String) (isBid : Bool) (p : Nat) :
    placeOps st h tm a b i 0 isBid p = [] := by
  unfold placeOps
  rw [if_pos rfl]

theorem placeOps_bid_poor (st : State) (h tm : Nat) (a : String) (b : Nat)
    (i : String) (n p : Nat) (hn : n ≠ 0)
    (hg : ¬(p * n : Int) ≤ st.coinAvail a) :
    placeOps st h tm a b i n true p = [] := by
  unfold placeOps
  rw [if_neg hn, if_pos rfl, if_neg hg]

theorem placeOps_ask_poor (st : State) (h tm : Nat) (a : String) (b : Nat)
    (i : String) (n p : Nat) (hn : n ≠ 0)
    (hg : ¬(n : Int) ≤ st.itemAvail ⟨b, a, i⟩) :
    placeOps st h tm a b i n false p = [] := by
  unfold placeOps
  rw [if_neg hn, if_neg Bool.false_ne_true, if_neg hg]

theorem cmdTrades_fields (st : State) (h tm : Nat) (c : Cmd) (t : Trade)
    (ht : t ∈ cmdTrades st h tm c) :
    t.height = h ∧ t.timestamp = tm ∧ t.cost = t.price * t.quantity := by
  cases c with
  | place a b i n isBid p =>
      by_cases hn : n = 0
      · subst hn
        rw [show cmdTrades st h tm (Cmd.place a b i 0 isBid p)
            = opsTrades (placeOps st h tm a b i 0 isBid p) from rfl,
          placeOps_zero] at ht
        cases ht
      · cases isBid
        · by_cases hg : (n : Int) ≤ st.itemAvail ⟨b, a, i⟩
          · rw [cmdTrades_place_ask st h tm a b i n p hn hg] at ht
            rcases List.mem_map.mp ht with ⟨mf, _, rfl⟩
            exact ⟨rfl, rfl, rfl⟩
          · rw [show cmdTrades st h tm (Cmd.place a b i n false p)
                = opsTrades (placeOps st h tm a b i n false p) from rfl,
              placeOps_ask_poor st h tm a b i n p hn hg] at ht
            cases ht
        · by_cases hg : (p * n : Int) ≤ st.coinAvail a
          · rw [cmdTrades_place_bid st h tm a b i n p hn hg] at ht
            rcases List.mem_map.mp ht with ⟨mf, _, rfl⟩
            exact ⟨rfl, rfl, rfl⟩
          · rw [show cmdTrades st h tm (Cmd.place a b i n true p)
                = opsTrades (placeOps st h tm a b i n true p) from rfl,
              placeOps_bid_poor st h tm a b i n p hn hg] at ht
            cases ht
  | cancel a oid =>
      rw [cmdTrades_cancel] at ht
      cases ht
  | transfer a b i n dest =>
      rw [cmdTrades_transfer] at ht
      cases ht

theorem cmdsOps_trades_fields (h tm : Nat) (cs : List Cmd) :
    ∀ (st : State) (t : Trade), t ∈ opsTrades (cmdsOps h tm st cs) →
      t.height = h ∧ t.timestamp = tm ∧ t.cost = t.price * t.quantity := by
  induction cs with
  | nil => intro st t ht; cases ht
  | cons c rest ih =>
      intro st t ht
      rw [cmdsOps, opsTrades_append] at ht
      rcases List.mem_append.mp ht with h1 | h1
      · exact cmdTrades_fields st h tm c t h1
      · exact ih _ t h1

theorem blockNewTrades_fields (st : State) (b : Block) (t : Trade)
    (ht : t ∈ blockNewTrades st b) :
    t.height = b.height ∧ t.timestamp = b.time ∧ t.cost = t.price * t.quantity :=
  cmdsOps_trades_fields b.height b.time b.cmds st t ht

theorem inv_dexScenarioStart : Inv dexScenarioStart := by
  refine ⟨List.Pairwise.nil, ?_, ?_, ?_, ?_, ?_⟩
  · intro o ho
    cases ho
  · intro a
    rfl
  · intro k
    rfl
  · intro a
    show (0 : Int) ≤ if a = "buyer" then 1000 else 0
    split <;> norm_num
  · intro k
    show (0 : Int) ≤ if k = ⟨1, "seller", "foo"⟩ then 10
      else if k = ⟨1, "seller", "bar"⟩ then 20 else 0
    split
    · norm_num
    · split <;> norm_num

theorem feeOk_dexScenarioStart : FeeOk dexScenarioStart := by
  intro b
  show 2 * (if b = 1 then 1000 else 0) ≤ 10000
  split <;> norm_num

theorem opsCoinTotalD_append (l1 l2 : List Op) :
    opsCoinTotalD (l1 ++ l2) = opsCoinTotalD l1 + opsCoinTotalD l2 := by
  simp [opsCoinTotalD]

theorem opsCoinTotalD_bidFillOps_owned (st : State) (h tm : Nat) (a : String)
    (b : Nat) (i : String) (p : Nat) (m : OrderRec) (f : Nat) (w : String)
    (hw : st.owner b = some w) :
    opsCoinTotalD (bidFillOps st h tm a b i p (m, f))
      = -((feeOf st b (m.price * f) : Nat) : Int) := by
  unfold bidFillOps ownerFeeOps
  rw [hw]
  by_cases hq : f = m.quantity <;>
    simp [opsCoinTotalD, opCoinTotalD, orderFillOp, hq] <;> ring

theorem opsCoinTotalD_askFillOps_owned (st : State) (h tm : Nat) (a : String)
    (b : Nat) (i : String) (m : OrderRec) (f : Nat) (w : String)
    (hw : st.owner b = some w) :
    opsCoinTotalD (askFillOps st h tm a b i (m, f))
      = -((feeOf st b (m.price * f) : Nat) : Int) := by
  unfold askFillOps ownerFeeOps
  rw [hw]
  by_cases hq : f = m.quantity <;>
    simp [opsCoinTotalD, opCoinTotalD, orderFillOp, hq] <;> ring

/-! ## The claims -/

/-- C1: every fill produced by the matching engine records and settles at
the resting (maker) order's price, never the incoming order's limit; in
the dex.py scenario the ask placed at price 0 executes at 10 against the
resting bid, and the bid placed at 200 executes at 0 and 100 against the
resting asks. -/
theorem dex_C1_maker_price :
    (∀ (st : State) (h tm : Nat) (a : String) (b : Nat) (i : String)
        (n p : Nat) (t : Trade),
        t ∈ cmdTrades st h tm (Cmd.place a b i n true p) →
        ∃ m ∈ bookAsks st b i, t.price = m.price ∧ m.price ≤ p
          ∧ t.cost = m.price * t.quantity)
    ∧ (∀ (st : State) (h tm : Nat) (a : String) (b : Nat) (i : String)
        (n p : Nat) (t : Trade),
        t ∈ cmdTrades st h tm (Cmd.place a b i n false p) →
        ∃ m ∈ bookBids st b i, t.price = m.price ∧ p ≤ m.price
          ∧ t.cost = m.price * t.quantity)
    ∧ (gettradehistory (applyBlocks dexScenarioStart (dexScenarioBlocks.take 5))
        "foo" 1).map (fun t => (t.price, t.quantity)) = [(10, 1)]
    ∧ (gettradehistory dexScenarioEnd "foo" 1).map (fun t => (t.price, t.quantity))
        = [(10, 1), (0, 1), (100, 2)] := by
  refine ⟨?_, ?_, by decide, by decide⟩
  · intro st h tm a b i n p t ht
    by_cases hn : n = 0
    · subst hn
      rw [show cmdTrades st h tm (Cmd.place a b i 0 true p)
          = opsTrades (placeOps st h tm a b i 0 true p) from rfl,
        placeOps_zero] at ht
      cases ht
    · by_cases hg : (p * n : Int) ≤ st.coinAvail a
      · rw [cmdTrades_place_bid st h tm a b i n p hn hg] at ht
        rcases List.mem_map.mp ht with ⟨mf, hmf, rfl⟩
        have hsub := computeFills_sublist (fun mp => decide (mp ≤ p)) (bookAsks st b i) n
        refine ⟨mf.1, hsub.mem (List.mem_map.mpr ⟨mf, hmf, rfl⟩), rfl, ?_, rfl⟩
        exact of_decide_eq_true (computeFills_mem _ _ n mf hmf).2
      · rw [show cmdTrades st h tm (Cmd.place a b i n true p)
            = opsTrades (placeOps st h tm a b i n true p) from rfl,
          placeOps_bid_poor st h tm a b i n p hn hg] at ht
        cases ht
  · intro st h tm a b i n p t ht
    by_cases hn : n = 0
    · subst hn
      rw [show cmdTrades st h tm (Cmd.place a b i 0 false p)
          = opsTrades (placeOps st h tm a b i 0 false p) from rfl,
        placeOps_zero] at ht
      cases ht
    · by_cases hg : (n : Int) ≤ st.itemAvail ⟨b, a, i⟩
      · rw [cmdTrades_place_ask st h tm a b i n p hn hg] at ht
        rcases List.mem_map.mp ht with ⟨mf, hmf, rfl⟩
        have hsub := computeFills_sublist (fun mp => decide (p ≤ mp)) (bookBids st b i) n
        refine ⟨mf.1, hsub.mem (List.mem_map.mpr ⟨mf, hmf, rfl⟩), rfl, ?_, rfl⟩
        exact of_decide_eq_true (computeFills_mem _ _ n mf hmf).2
      · rw [show cmdTrades st h tm (Cmd.place a b i n false p)
            = opsTrades (placeOps st h tm a b i n false p) from rfl,
          placeOps_ask_poor st h tm a b i n p hn hg] at ht
        cases ht

theorem dex_C1_maker_price_witness :
    ((⟨5, 50, 1, "foo", 10, 1, 10, "s1", "b1"⟩ : Trade)
        ∈ cmdTrades microBook 5 50 (Cmd.place "s1" 1 "foo" 1 false 0))
    ∧ ∃ m ∈ bookBids microBook 1 "foo",
        (⟨5, 50, 1, "foo", 10, 1, 10, "s1", "b1"⟩ : Trade).price = m.price
        ∧ 0 ≤ m.price
        ∧ (⟨5, 50, 1, "foo", 10, 1, 10, "s1", "b1"⟩ : Trade).cost
            = m.price * (⟨5, 50, 1, "foo", 10, 1, 10, "s1", "b1"⟩ : Trade).quantity := by
  have hmem : (⟨5, 50, 1, "foo", 10, 1, 10, "s1", "b1"⟩ : Trade)
      ∈ cmdTrades microBook 5 50 (Cmd.place "s1" 1 "foo" 1 false 0) := by decide
  exact ⟨hmem, dex_C1_maker_price.2.1 microBook 5 50 "s1" 1 "foo" 1 0 _ hmem⟩

/-- C2 counterexample: the claim predicts that the seller of a fill with
proceeds 10 and fee 1 is credited 10 - 1 = 9, the fee being the only
amount withheld; the engine credits 8 (an amount equal to the fee is
additionally burned). -/
theorem dex_C2_counterexample :
    (applyCmd microBook 5 50 (Cmd.place "s1" 1 "foo" 1 false 0)).coinAvail "s1" = 8
    ∧ microBook.coinAvail "s1" = 0
    ∧ feeOf microBook 1 (10 * 1) = 1
    ∧ (8 : Int) ≠ 0 + (10 * 1 - 1) := by
  exact ⟨by decide, by decide, by decide, by decide⟩

/-- C2 (amended): for every fill at maker price with quantity f in a
building owned by w, settlement computes fee = floor(proceeds times the
fee fraction), credits the owner's available coin by exactly the fee,
debits the resting buyer's reserved coin by exactly the proceeds, moves
the items, and credits the seller's available coin by exactly
proceeds - 2 * fee: an amount equal to the fee is withheld beyond the
owner's fee and burned, as asserted by gametest/dex.py (seller ends with
210 - 2 * 21 while the owner receives 21). -/
theorem dex_C2_settlement :
    (∀ (st : State) (h tm : Nat) (a w : String) (b : Nat) (i : String)
        (m : OrderRec) (f : Nat),
        st.owner b = some w → w ≠ a → w ≠ m.account → a ≠ m.account →
        feeOf st b (m.price * f) = m.price * f * st.dexfee b / 10000
        ∧ (applyOps st (askFillOps st h tm a b i (m, f))).coinAvail w
            = st.coinAvail w + ((feeOf st b (m.price * f) : Nat) : Int)
        ∧ (applyOps st (askFillOps st h tm a b i (m, f))).coinResv m.account
            = st.coinResv m.account - ((m.price * f : Nat) : Int)
        ∧ (applyOps st (askFillOps st h tm a b i (m, f))).coinAvail a
            = st.coinAvail a
              + (((m.price * f : Nat) : Int)
                  - 2 * ((feeOf st b (m.price * f) : Nat) : Int))
        ∧ (applyOps st (askFillOps st h tm a b i (m, f))).itemAvail ⟨b, m.account, i⟩
            = st.itemAvail ⟨b, m.account, i⟩ + (f : Int)
        ∧ (applyOps st (askFillOps st h tm a b i (m, f))).itemResv ⟨b, a, i⟩
            = st.itemResv ⟨b, a, i⟩ - (f : Int))
    ∧ dexScenarioEnd.coinAvail "building" = 21
    ∧ dexScenarioEnd.coinAvail "seller" = 210 - 2 * 21 := by
  refine ⟨?_, by decide, by decide⟩
  intro st h tm a w b i m f hw hwa hwm ham
  refine ⟨rfl, ?_, ?_, ?_, ?_, ?_⟩
  · rw [applyOps_coinAvail, opsCoinAvailD_askFillOps,
      opsCoinAvailD_ownerFeeOps_some st b _ w w hw]
    rw [if_neg hwa, if_pos rfl]
    ring
  · rw [applyOps_coinResv, opsCoinResvD_askFillOps, if_pos rfl]
    ring
  · rw [applyOps_coinAvail, opsCoinAvailD_askFillOps,
      opsCoinAvailD_ownerFeeOps_some st b _ a w hw]
    rw [if_pos rfl, if_neg fun hc => hwa hc.symm]
    ring
  · rw [applyOps_itemAvail, opsItemAvailD_askFillOps, if_pos rfl]
  · rw [applyOps_itemResv, opsItemResvD_askFillOps, if_pos rfl]
    ring

theorem dex_C2_settlement_witness :
    microBook.owner 1 = some "own"
    ∧ ("own" : String) ≠ "s1" ∧ ("own" : String) ≠ "b1" ∧ ("s1" : String) ≠ "b1"
    ∧ (feeOf microBook 1 ((⟨2, 1, "foo", "b1", true, 10, 1⟩ : OrderRec).price * 1)
        = (⟨2, 1, "foo", "b1", true, 10, 1⟩ : OrderRec).price * 1
            * microBook.dexfee 1 / 10000
      ∧ (applyOps microBook (askFillOps microBook 5 50 "s1" 1 "foo"
          (⟨2, 1, "foo", "b1", true, 10, 1⟩, 1))).coinAvail "own"
          = microBook.coinAvail "own"
            + ((feeOf microBook 1
                ((⟨2, 1, "foo", "b1", true, 10, 1⟩ : OrderRec).price * 1) : Nat) : Int)
      ∧ (applyOps microBook (askFillOps microBook 5 50 "s1" 1 "foo"
          (⟨2, 1, "foo", "b1", true, 10, 1⟩, 1))).coinResv
            (⟨2, 1, "foo", "b1", true, 10, 1⟩ : OrderRec).account
          = microBook.coinResv (⟨2, 1, "foo", "b1", true, 10, 1⟩ : OrderRec).account
            - (((⟨2, 1, "foo", "b1", true, 10, 1⟩ : OrderRec).price * 1 : Nat) : Int)
      ∧ (applyOps microBook (askFillOps microBook 5 50 "s1" 1 "foo"
          (⟨2, 1, "foo", "b1", true, 10, 1⟩, 1))).coinAvail "s1"
          = microBook.coinAvail "s1"
            + ((((⟨2, 1, "foo", "b1", true, 10, 1⟩ : OrderRec).price * 1 : Nat) : Int)
                - 2 * ((feeOf microBook 1
                    ((⟨2, 1, "foo", "b1", true, 10, 1⟩ : OrderRec).price * 1) : Nat) : Int))
      ∧ (applyOps microBook (askFillOps microBook 5 50 "s1" 1 "foo"
          (⟨2, 1, "foo", "b1", true, 10, 1⟩, 1))).itemAvail
            ⟨1, (⟨2, 1, "foo", "b1", true, 10, 1⟩ : OrderRec).account, "foo"⟩
          = microBook.itemAvail
              ⟨1, (⟨2, 1, "foo", "b1", true, 10, 1⟩ : OrderRec).account, "foo"⟩ + (1 : Int)
      ∧ (applyOps microBook (askFillOps microBook 5 50 "s1" 1 "foo"
          (⟨2, 1, "foo", "b1", true, 10, 1⟩, 1))).itemResv ⟨1, "s1", "foo"⟩
          = microBook.itemResv ⟨1, "s1", "foo"⟩ - (1 : Int)) := by
  refine ⟨by decide, by decide, by decide, by decide, ?_⟩
  exact dex_C2_settlement.1 microBook 5 50 "s1" "own" 1 "foo"
    ⟨2, 1, "foo", "b1", true, 10, 1⟩ 1 (by decide) (by decide) (by decide) (by decide)

/-- C3: applying blocks of DEX commands and then rolling them back via the
retained undo frames restores the exact pre-block state (balances,
inventories, order book, history), and re-applying the same blocks yields
a state and trade history identical to the original application, order ids
included; the hypothesis is the decidable invertibility check satisfied by
the dex.py scenario. -/
theorem dex_C3_rollback_replay :
    ∀ (st : State) (bs : List Block), okBlocks st bs = true →
      rollbackFrames (applyBlocks st bs) (blockFrames st bs) = st
      ∧ applyBlocks (rollbackFrames (applyBlocks st bs) (blockFrames st bs)) bs
          = applyBlocks st bs
      ∧ (applyBlocks (rollbackFrames (applyBlocks st bs) (blockFrames st bs)) bs).trades
          = (applyBlocks st bs).trades := by
  intro st bs hok
  have hr := rollback_restores bs st hok
  refine ⟨hr, by rw [hr], by rw [hr]⟩

theorem dex_C3_rollback_replay_witness :
    okBlocks dexScenarioStart dexScenarioBlocks = true
    ∧ rollbackFrames (applyBlocks dexScenarioStart dexScenarioBlocks)
        (blockFrames dexScenarioStart dexScenarioBlocks) = dexScenarioStart := by
  have hok : okBlocks dexScenarioStart dexScenarioBlocks = true := by decide
  exact ⟨hok, (dex_C3_rollback_replay dexScenarioStart dexScenarioBlocks hok).1⟩

/-- C4: at every state, the order book query reports asks sorted ascending
by price and bids descending by price, ties broken by ascending order id
(the relations askRel and bidRel); in the dex.py scenario the asks placed
at prices 100 then 50 are listed as 50 then 100, and the bids placed at 10
then 20 as 20 then 10, with the claimed order ids. -/
theorem dex_C4_book_sorted :
    (∀ (st : State) (b : Nat) (i : String),
      List.Pairwise askRel (getorderbook st b i).asks
      ∧ List.Pairwise bidRel (getorderbook st b i).bids)
    ∧ getorderbook (applyBlocks dexScenarioStart (dexScenarioBlocks.take 3)) 1 "foo"
      = ⟨[⟨5, 1, "foo", "buyer", true, 20, 1⟩, ⟨4, 1, "foo", "buyer", true, 10, 1⟩],
         [⟨3, 1, "foo", "seller", false, 50, 2⟩,
          ⟨2, 1, "foo", "seller", false, 100, 2⟩]⟩ := by
  refine ⟨?_, by decide⟩
  intro st b i
  exact ⟨List.sorted_insertionSort askRel _, List.sorted_insertionSort bidRel _⟩

/-- C5: reservations are exact: at every state reached from an invariant
state, each account's reserved coin equals the summed price times remaining
quantity of its open bids and each slot's reserved items equal the summed
remaining quantity of its open asks; a cancel by the order's owner returns
exactly the order's remaining obligation (price times quantity of coin for
a bid, the quantity of items for an ask) from reserved to available, no
more and no less; in dex.py, cancelling the bid of quantity 1 at price 20
returns exactly 20 coins (970, 30 becomes 990, 10) and cancelling the ask
of quantity 2 returns exactly 2 items (6, 4 becomes 8, 2). -/
theorem dex_C5_reservation_exact :
    (∀ (st : State) (bs : List Block), Inv st → FeeOk st →
      (∀ a, (applyBlocks st bs).coinResv a
          = ((bidSum (applyBlocks st bs).orders a : Nat) : Int))
      ∧ (∀ k, (applyBlocks st bs).itemResv k
          = ((askSum (applyBlocks st bs).orders k : Nat) : Int)))
    ∧ (∀ (st : State) (h tm : Nat) (a : String) (oid : Nat) (o : OrderRec),
        st.orders.find? (fun z => z.id == oid) = some o →
        o.account = a →
        (o.isBid = true →
          (applyCmd st h tm (Cmd.cancel a oid)).coinAvail a
              = st.coinAvail a + ((o.price * o.quantity : Nat) : Int)
          ∧ (applyCmd st h tm (Cmd.cancel a oid)).coinResv a
              = st.coinResv a - ((o.price * o.quantity : Nat) : Int))
        ∧ (o.isBid = false →
          (applyCmd st h tm (Cmd.cancel a oid)).itemAvail ⟨o.building, a, o.item⟩
              = st.itemAvail ⟨o.building, a, o.item⟩ + ((o.quantity : Nat) : Int)
          ∧ (applyCmd st h tm (Cmd.cancel a oid)).itemResv ⟨o.building, a, o.item⟩
              = st.itemResv ⟨o.building, a, o.item⟩ - ((o.quantity : Nat) : Int)))
    ∧ ((applyBlocks dexScenarioStart (dexScenarioBlocks.take 3)).coinAvail "buyer" = 970
      ∧ (applyBlocks dexScenarioStart (dexScenarioBlocks.take 3)).coinResv "buyer" = 30
      ∧ (applyBlocks dexScenarioStart (dexScenarioBlocks.take 4)).coinAvail "buyer" = 990
      ∧ (applyBlocks dexScenarioStart (dexScenarioBlocks.take 4)).coinResv "buyer" = 10
      ∧ (applyBlocks dexScenarioStart
          (dexScenarioBlocks.take 3)).itemAvail ⟨1, "seller", "foo"⟩ = 6
      ∧ (applyBlocks dexScenarioStart
          (dexScenarioBlocks.take 3)).itemResv ⟨1, "seller", "foo"⟩ = 4
      ∧ (applyBlocks dexScenarioStart
          (dexScenarioBlocks.take 4)).itemAvail ⟨1, "seller", "foo"⟩ = 8
      ∧ (applyBlocks dexScenarioStart
          (dexScenarioBlocks.take 4)).itemResv ⟨1, "seller", "foo"⟩ = 2) := by
  refine ⟨?_, ?_, by decide⟩
  · intro st bs hInv hfee
    obtain ⟨-, -, hcr, hir, -, -⟩ := (inv_applyBlocks bs st hInv hfee).1
    exact ⟨hcr, hir⟩
  · intro st h tm a oid o hfind hacct
    have hred : applyCmd st h tm (Cmd.cancel a oid)
        = applyOps st (Op.removeOrd o :: cancelRelease a o) := by
      have h1 : applyCmd st h tm (Cmd.cancel a oid)
          = applyOps st (cancelOps st a oid) := rfl
      rw [h1, cancelOps_some st a oid o hfind, if_pos hacct]
    constructor
    · intro hbid
      have hrel : cancelRelease a o
          = [Op.coinDelta a ((o.price * o.quantity : Nat) : Int)
              (-((o.price * o.quantity : Nat) : Int))] := by
        unfold cancelRelease
        rw [if_pos hbid]
      constructor
      · rw [hred, hrel, applyOps_coinAvail]
        simp [opsCoinAvailD, opCoinAvailD]
      · rw [hred, hrel, applyOps_coinResv]
        simp [opsCoinResvD, opCoinResvD]
        ring
    · intro hask
      have hrel : cancelRelease a o
          = [Op.itemDelta ⟨o.building, a, o.item⟩ ((o.quantity : Nat) : Int)
              (-((o.quantity : Nat) : Int))] := by
        unfold cancelRelease
        rw [if_neg]
        rw [hask]
        exact Bool.false_ne_true
      constructor
      · rw [hred, hrel, applyOps_itemAvail]
        simp [opsItemAvailD, opItemAvailD]
      · rw [hred, hrel, applyOps_itemResv]
        simp [opsItemResvD, opItemResvD]
        ring

theorem dex_C5_reservation_exact_witness :
    (Inv dexScenarioStart ∧ FeeOk dexScenarioStart
      ∧ ∀ a, (applyBlocks dexScenarioStart dexScenarioBlocks).coinResv a
          = ((bidSum (applyBlocks dexScenarioStart dexScenarioBlocks).orders a
              : Nat) : Int))
    ∧ ((applyBlocks dexScenarioStart (dexScenarioBlocks.take 3)).orders.find?
          (fun z => z.id == 5) = some ⟨5, 1, "foo", "buyer", true, 20, 1⟩
      ∧ (applyCmd (applyBlocks dexScenarioStart (dexScenarioBlocks.take 3)) 104 1004
            (Cmd.cancel "buyer" 5)).coinAvail "buyer"
          = (applyBlocks dexScenarioStart (dexScenarioBlocks.take 3)).coinAvail "buyer"
            + (((⟨5, 1, "foo", "buyer", true, 20, 1⟩ : OrderRec).price
                * (⟨5, 1, "foo", "buyer", true, 20, 1⟩ : OrderRec).quantity : Nat) : Int)
      ∧ (applyCmd (applyBlocks dexScenarioStart (dexScenarioBlocks.take 3)) 104 1004
            (Cmd.cancel "buyer" 5)).coinResv "buyer"
          = (applyBlocks dexScenarioStart (dexScenarioBlocks.take 3)).coinResv "buyer"
            - (((⟨5, 1, "foo", "buyer", true, 20, 1⟩ : OrderRec).price
                * (⟨5, 1, "foo", "buyer", true, 20, 1⟩ : OrderRec).quantity
                : Nat) : Int)) := by
  have hfind : (applyBlocks dexScenarioStart (dexScenarioBlocks.take 3)).orders.find?
      (fun z => z.id == 5) = some ⟨5, 1, "foo", "buyer", true, 20, 1⟩ := by decide
  have hgen := (dex_C5_reservation_exact.1 dexScenarioStart dexScenarioBlocks
    inv_dexScenarioStart feeOk_dexScenarioStart).1
  have hcan := (dex_C5_reservation_exact.2.1
    (applyBlocks dexScenarioStart (dexScenarioBlocks.take 3)) 104 1004 "buyer" 5
    ⟨5, 1, "foo", "buyer", true, 20, 1⟩ hfind (by decide)).1 (by decide)
  exact ⟨⟨inv_dexScenarioStart, feeOk_dexScenarioStart, hgen⟩,
    hfind, hcan.1, hcan.2⟩

/-- C6: at every state reached from an invariant state, for every account's
coin balance and every inventory slot the reported total equals
available + reserved and both parts are non-negative; the same holds after
any rollback, which restores the pre-block state; in dex.py the buyer ends
with (590, 200, total 790) coin and the seller's foo slot after the cancels
is (8, 2, total 10). -/
theorem dex_C6_balance_invariant :
    (∀ (st : State) (bs : List Block) (a : String) (k : ItemKey),
      Inv st → FeeOk st →
      (getbalance (applyBlocks st bs) a).total
          = (getbalance (applyBlocks st bs) a).available
            + (getbalance (applyBlocks st bs) a).reserved
      ∧ 0 ≤ (getbalance (applyBlocks st bs) a).available
      ∧ 0 ≤ (getbalance (applyBlocks st bs) a).reserved
      ∧ (getinventory (applyBlocks st bs) k).total
          = (getinventory (applyBlocks st bs) k).available
            + (getinventory (applyBlocks st bs) k).reserved
      ∧ 0 ≤ (getinventory (applyBlocks st bs) k).available
      ∧ 0 ≤ (getinventory (applyBlocks st bs) k).reserved)
    ∧ (∀ (st : State) (bs : List Block) (a : String) (k : ItemKey),
        Inv st → okBlocks st bs = true →
        (getbalance (rollbackFrames (applyBlocks st bs) (blockFrames st bs)) a).total
            = (getbalance (rollbackFrames (applyBlocks st bs)
                (blockFrames st bs)) a).available
              + (getbalance (rollbackFrames (applyBlocks st bs)
                  (blockFrames st bs)) a).reserved
        ∧ 0 ≤ (getbalance (rollbackFrames (applyBlocks st bs)
            (blockFrames st bs)) a).available
        ∧ 0 ≤ (getbalance (rollbackFrames (applyBlocks st bs)
            (blockFrames st bs)) a).reserved
        ∧ 0 ≤ (getinventory (rollbackFrames (applyBlocks st bs)
            (blockFrames st bs)) k).available
        ∧ 0 ≤ (getinventory (rollbackFrames (applyBlocks st bs)
            (blockFrames st bs)) k).reserved)
    ∧ getbalance dexScenarioEnd "buyer" = ⟨590, 200, 790⟩
    ∧ getinventory (applyBlocks dexScenarioStart (dexScenarioBlocks.take 4))
        ⟨1, "seller", "foo"⟩ = ⟨8, 2, 10⟩ := by
  refine ⟨?_, ?_, by decide, by decide⟩
  · intro st bs a k hInv hfee
    obtain ⟨-, -, hcr, hir, hca, hia⟩ := (inv_applyBlocks bs st hInv hfee).1
    refine ⟨rfl, hca a, ?_, rfl, hia k, ?_⟩
    · show 0 ≤ (applyBlocks st bs).coinResv a
      rw [hcr a]
      exact Int.natCast_nonneg _
    · show 0 ≤ (applyBlocks st bs).itemResv k
      rw [hir k]
      exact Int.natCast_nonneg _
  · intro st bs a k hInv hok
    rw [rollback_restores bs st hok]
    obtain ⟨-, -, hcr, hir, hca, hia⟩ := hInv
    refine ⟨rfl, hca a, ?_, hia k, ?_⟩
    · show 0 ≤ st.coinResv a
      rw [hcr a]
      exact Int.natCast_nonneg _
    · show 0 ≤ st.itemResv k
      rw [hir k]
      exact Int.natCast_nonneg _

theorem dex_C6_balance_invariant_witness :
    ((getbalance (applyBlocks dexScenarioStart dexScenarioBlocks) "seller").total
        = (getbalance (applyBlocks dexScenarioStart dexScenarioBlocks)
            "seller").available
          + (getbalance (applyBlocks dexScenarioStart dexScenarioBlocks)
              "seller").reserved
      ∧ 0 ≤ (getbalance (applyBlocks dexScenarioStart dexScenarioBlocks)
          "seller").available
      ∧ 0 ≤ (getbalance (applyBlocks dexScenarioStart dexScenarioBlocks)
          "seller").reserved)
    ∧ 0 ≤ (getbalance (rollbackFrames (applyBlocks dexScenarioStart dexScenarioBlocks)
        (blockFrames dexScenarioStart dexScenarioBlocks)) "buyer").available := by
  have h1 := dex_C6_balance_invariant.1 dexScenarioStart dexScenarioBlocks "seller"
    ⟨1, "seller", "foo"⟩ inv_dexScenarioStart feeOk_dexScenarioStart
  have h2 := dex_C6_balance_invariant.2.1 dexScenarioStart dexScenarioBlocks "buyer"
    ⟨1, "buyer", "foo"⟩ inv_dexScenarioStart (by decide)
  exact ⟨⟨h1.1, h1.2.1, h1.2.2.1⟩, h2.2.1⟩

/-- C7: every block only appends its fills to the trade record, each fill
carrying the block's height and timestamp and cost = price * quantity
(including cost 0 for a fill at price 0); the per-(item, building) history
query therefore also only grows by the block's matching fills in execution
order; the dex.py scenario's history for foo in building 1 is exactly the
three records (10, 1, cost 10), (0, 1, cost 0) and (100, 2, cost 200) with
the heights and timestamps of their blocks, oldest first. -/
theorem dex_C7_trade_history :
    (∀ (st : State) (b : Block),
      (applyBlock st b).trades = st.trades ++ blockNewTrades st b
      ∧ ∀ t ∈ blockNewTrades st b,
          t.height = b.height ∧ t.timestamp = b.time
          ∧ t.cost = t.price * t.quantity)
    ∧ (∀ (st : State) (i : String) (bld : Nat) (b : Block),
        gettradehistory (applyBlock st b) i bld
          = gettradehistory st i bld
            ++ (blockNewTrades st b).filter fun t => t.item == i && t.buildingId == bld)
    ∧ gettradehistory dexScenarioEnd "foo" 1
        = [⟨105, 1005, 1, "foo", 10, 1, 10, "seller", "buyer"⟩,
           ⟨106, 1006, 1, "foo", 0, 1, 0, "seller", "buyer"⟩,
           ⟨106, 1006, 1, "foo", 100, 2, 200, "seller", "buyer"⟩] := by
  refine ⟨?_, ?_, by decide⟩
  · intro st b
    exact ⟨applyBlock_trades st b, fun t ht => blockNewTrades_fields st b t ht⟩
  · intro st i bld b
    show ((applyBlock st b).trades.filter _) = _
    rw [applyBlock_trades, List.filter_append]
    rfl

theorem dex_C7_trade_history_witness :
    ((⟨105, 1005, 1, "foo", 10, 1, 10, "seller", "buyer"⟩ : Trade)
        ∈ blockNewTrades (applyBlocks dexScenarioStart (dexScenarioBlocks.take 4))
            ⟨105, 1005, [Cmd.place "seller" 1 "foo" 2 false 0]⟩)
    ∧ (⟨105, 1005, 1, "foo", 10, 1, 10, "seller", "buyer"⟩ : Trade).height = 105
    ∧ (⟨105, 1005, 1, "foo", 10, 1, 10, "seller", "buyer"⟩ : Trade).timestamp = 1005
    ∧ (⟨105, 1005, 1, "foo", 10, 1, 10, "seller", "buyer"⟩ : Trade).cost
        = (⟨105, 1005, 1, "foo", 10, 1, 10, "seller", "buyer"⟩ : Trade).price
          * (⟨105, 1005, 1, "foo", 10, 1, 10, "seller", "buyer"⟩ : Trade).quantity := by
  have hmem : (⟨105, 1005, 1, "foo", 10, 1, 10, "seller", "buyer"⟩ : Trade)
      ∈ blockNewTrades (applyBlocks dexScenarioStart (dexScenarioBlocks.take 4))
          ⟨105, 1005, [Cmd.place "seller" 1 "foo" 2 false 0]⟩ := by decide
  have hf := (dex_C7_trade_history.1
    (applyBlocks dexScenarioStart (dexScenarioBlocks.take 4))
    ⟨105, 1005, [Cmd.place "seller" 1 "foo" 2 false 0]⟩).2 _ hmem
  exact ⟨hmem, hf.1, hf.2.1, hf.2.2⟩

/-- C8: a fee configuration change never takes effect immediately: a block's
config moves only append pending updates, so the effective config after any
block with no pending completions is unchanged; a move from a non-owner or
with invalid values changes nothing at all; a single valid owner move at
height h schedules its update for height h + dur, the config is unchanged
for the next k < dur blocks and equals the updated value from the
completion height on; two valid moves in one block complete at the same
height in schedule order. -/
theorem dex_C8_config_scheduling :
    (∀ (owner : Option String) (dur : Nat) (c : BuildingConfig) (h : Nat)
        (ms : List CfgMove), (cfgStep owner dur ⟨c, []⟩ h ms).config = c)
    ∧ (∀ (owner : Option String) (dur h : Nat) (c : BuildingConfig) (m : CfgMove),
        ¬(owner = some m.sender ∧ validCfgMove m = true) →
        cfgStep owner dur ⟨c, []⟩ h [m] = ⟨c, []⟩)
    ∧ (∀ (owner : Option String) (dur h : Nat) (c : BuildingConfig) (m : CfgMove),
        owner = some m.sender → validCfgMove m = true →
        cfgStep owner dur ⟨c, []⟩ h [m] = ⟨c, [(h + dur, toUpd m)]⟩
        ∧ (∀ k, k < dur →
            (cfgRun owner dur ⟨c, [(h + dur, toUpd m)]⟩ (h + 1)
              (List.replicate k [])).config = c)
        ∧ (∀ k, dur ≤ k → 0 < dur →
            (cfgRun owner dur ⟨c, [(h + dur, toUpd m)]⟩ (h + 1)
              (List.replicate k [])).config = applyUpd c (toUpd m)))
    ∧ (∀ (owner : Option String) (dur h : Nat) (c : BuildingConfig)
        (m1 m2 : CfgMove),
        owner = some m1.sender → validCfgMove m1 = true →
        owner = some m2.sender → validCfgMove m2 = true →
        cfgStep owner dur ⟨c, []⟩ h [m1, m2]
          = ⟨c, [(h + dur, toUpd m1), (h + dur, toUpd m2)]⟩
        ∧ (applyDue ⟨c, [(h + dur, toUpd m1), (h + dur, toUpd m2)]⟩ (h + dur)).config
            = applyUpd (applyUpd c (toUpd m1)) (toUpd m2)) := by
  refine ⟨cfgStep_config_of_no_pending, ?_, ?_, ?_⟩
  · intro owner dur h c m hbad
    unfold cfgStep
    rw [List.foldl_cons, List.foldl_nil]
    have hdue : applyDue ⟨c, []⟩ h = ⟨c, []⟩ := rfl
    rw [hdue, processCfgMove_invalid owner dur h ⟨c, []⟩ m hbad]
  · intro owner dur h c m hown hval
    have he : ∀ x ∈ [(h + dur, toUpd m)], x.1 = h + dur := by
      intro x hx
      rw [List.mem_singleton] at hx
      subst hx
      rfl
    have hstep : cfgStep owner dur ⟨c, []⟩ h [m] = ⟨c, [(h + dur, toUpd m)]⟩ := by
      unfold cfgStep
      rw [List.foldl_cons, List.foldl_nil]
      have hdue : applyDue ⟨c, []⟩ h = ⟨c, []⟩ := rfl
      rw [hdue, processCfgMove_valid owner dur h ⟨c, []⟩ m ⟨hown, hval⟩]
      rfl
    refine ⟨hstep, ?_, ?_⟩
    · intro k hk
      rw [cfgRun_pending_all_e owner dur c (h + dur) [(h + dur, toUpd m)] he
        k (h + 1)]
      rw [if_neg (by omega : ¬(h + 1 ≤ h + dur ∧ h + dur < h + 1 + k))]
    · intro k hk hdur
      rw [cfgRun_pending_all_e owner dur c (h + dur) [(h + dur, toUpd m)] he
        k (h + 1)]
      rw [if_pos (by omega)]
      rfl
  · intro owner dur h c m1 m2 ho1 hv1 ho2 hv2
    have he : ∀ x ∈ [(h + dur, toUpd m1), (h + dur, toUpd m2)], x.1 = h + dur := by
      intro x hx
      rcases List.mem_cons.mp hx with h1 | h1
      · subst h1
        rfl
      · rw [List.mem_singleton] at h1
        subst h1
        rfl
    constructor
    · unfold cfgStep
      rw [List.foldl_cons, List.foldl_cons, List.foldl_nil]
      have hdue : applyDue ⟨c, []⟩ h = ⟨c, []⟩ := rfl
      rw [hdue, processCfgMove_valid owner dur h ⟨c, []⟩ m1 ⟨ho1, hv1⟩,
        processCfgMove_valid owner dur h _ m2 ⟨ho2, hv2⟩]
      rfl
    · rw [applyDue_all_e c (h + dur) [(h + dur, toUpd m1), (h + dur, toUpd m2)] he]
      rfl

theorem dex_C8_config_scheduling_witness :
    cfgStep (some "domob") 10 ⟨⟨none, none⟩, []⟩ 100
        [⟨"andy", some 1, none⟩] = ⟨⟨none, none⟩, []⟩
    ∧ cfgStep (some "domob") 10 ⟨⟨none, none⟩, []⟩ 100
        [⟨"domob", none, some (-10)⟩] = ⟨⟨none, none⟩, []⟩
    ∧ cfgStep (some "domob") 10 ⟨⟨none, none⟩, []⟩ 100
        [⟨"domob", some 25, some 1⟩]
        = ⟨⟨none, none⟩, [(110, ⟨some 25, some 1⟩)]⟩
    ∧ (cfgRun (some "domob") 10 ⟨⟨none, none⟩, [(110, ⟨some 25, some 1⟩)]⟩ 101
        (List.replicate 9 [])).config = ⟨none, none⟩
    ∧ (cfgRun (some "domob") 10 ⟨⟨none, none⟩, [(110, ⟨some 25, some 1⟩)]⟩ 101
        (List.replicate 10 [])).config = applyUpd ⟨none, none⟩ ⟨some 25, some 1⟩ := by
  have h3 := dex_C8_config_scheduling.2.2.1 (some "domob") 10 100 ⟨none, none⟩
    ⟨"domob", some 25, some 1⟩ rfl (by decide)
  refine ⟨?_, ?_, h3.1, h3.2.1 9 (by decide), h3.2.2 10 (by decide) (by decide)⟩
  · exact dex_C8_config_scheduling.2.1 (some "domob") 10 100 ⟨none, none⟩
      ⟨"andy", some 1, none⟩ (by decide)
  · exact dex_C8_config_scheduling.2.1 (some "domob") 10 100 ⟨none, none⟩
      ⟨"domob", none, some (-10)⟩ (by decide)

/-- C9: a bid filling below its limit releases the over-reservation
(limit - execution) * fillQuantity back to available at fill time, each
fill's mutation list containing exactly that release, so an accepted bid
placement leaves the buyer's reserved coin increased by exactly
limit * remainder; in dex.py the bid of quantity 4 at limit 200 fills 1 at
price 0 and 2 at price 100, leaving exactly 200 reserved for the single
remaining unit and 590 = 990 - 800 + 400 available. -/
theorem dex_C9_bid_refund :
    (∀ (st : State) (h tm : Nat) (a : String) (b : Nat) (i : String) (n p : Nat),
      n ≠ 0 → (p * n : Int) ≤ st.coinAvail a →
      (applyCmd st h tm (Cmd.place a b i n true p)).coinResv a
        = st.coinResv a + ((p * (bidFills st b i n p).2 : Nat) : Int))
    ∧ (∀ (st : State) (h tm : Nat) (a : String) (b : Nat) (i : String) (p : Nat)
        (m : OrderRec) (f : Nat),
        Op.coinDelta a (((p - m.price) * f : Nat) : Int)
            (-(((p - m.price) * f : Nat) : Int))
          ∈ bidFillOps st h tm a b i p (m, f))
    ∧ dexScenarioEnd.coinResv "buyer" = 200
    ∧ (getorderbook dexScenarioEnd 1 "foo").bids
        = [⟨7, 1, "foo", "buyer", true, 200, 1⟩]
    ∧ ((200 : Int) = 200 * 1)
    ∧ dexScenarioEnd.coinAvail "buyer" = 590
    ∧ ((590 : Int) = 990 - 200 * 4 + ((200 - 0) * 1 + (200 - 100) * 2)) := by
  refine ⟨?_, ?_, by decide, by decide, by decide, by decide, by decide⟩
  · intro st h tm a b i n p hn hg
    have hcross : ∀ mf ∈ (bidFills st b i n p).1, mf.1.price ≤ p := by
      intro mf hmf
      exact of_decide_eq_true (computeFills_mem _ _ n mf hmf).2
    have hquty : fillsQty (bidFills st b i n p).1 + (bidFills st b i n p).2 = n :=
      computeFills_qty _ _ n
    have hred : applyCmd st h tm (Cmd.place a b i n true p)
        = applyOps st (placeBidOps st h tm a b i n p) := by
      show applyOps st (placeOps st h tm a b i n true p) = _
      unfold placeOps
      rw [if_neg hn, if_pos rfl, if_pos hg]
    rw [hred, applyOps_coinResv]
    have hD : opsCoinResvD (placeBidOps st h tm a b i n p) a
        = ((p * n : Nat) : Int)
          - ((p * fillsQty (bidFills st b i n p).1 : Nat) : Int) := by
      unfold placeBidOps
      rw [opsCoinResvD_append, opsCoinResvD_append, opsCoinResvD_append]
      rw [opsCoinResvD_flatten_bid st h tm a b i p _ hcross a]
      rw [opsCoinResvD_insIf]
      have h1 : opsCoinResvD [Op.coinDelta a (-((p * n : Nat) : Int))
          ((p * n : Nat) : Int)] a = ((p * n : Nat) : Int) := by
        simp [opsCoinResvD, opCoinResvD]
      have h3 : opsCoinResvD [Op.setNextId st.nextId (st.nextId + 1)] a = 0 := by
        simp [opsCoinResvD, opCoinResvD]
      rw [h1, h3, if_pos rfl]
      ring
    rw [hD]
    have hmul : p * fillsQty (bidFills st b i n p).1 + p * (bidFills st b i n p).2
        = p * n := by
      rw [← Nat.mul_add, hquty]
    omega
  · intro st h tm a b i p m f
    simp [bidFillOps]

theorem dex_C9_bid_refund_witness :
    (4 : Nat) ≠ 0
    ∧ ((200 : Nat) * (4 : Nat) : Int)
        ≤ (applyBlocks dexScenarioStart (dexScenarioBlocks.take 5)).coinAvail "buyer"
    ∧ (applyCmd (applyBlocks dexScenarioStart (dexScenarioBlocks.take 5)) 106 1006
          (Cmd.place "buyer" 1 "foo" 4 true 200)).coinResv "buyer"
        = (applyBlocks dexScenarioStart (dexScenarioBlocks.take 5)).coinResv "buyer"
          + ((200 * (bidFills (applyBlocks dexScenarioStart (dexScenarioBlocks.take 5))
              1 "foo" 4 200).2 : Nat) : Int) := by
  refine ⟨by decide, by decide, ?_⟩
  exact dex_C9_bid_refund.1 (applyBlocks dexScenarioStart (dexScenarioBlocks.take 5))
    106 1006 "buyer" 1 "foo" 4 200 (by decide) (by decide)

/-- C10: with a nonzero fee, settlement destroys coin even when the
building has an owner: every fill's mutations change the total coin supply
by exactly minus the fee (the owner's credit being offset by only half of
the 2 * fee withheld from the seller); in dex.py the fills with total
proceeds 210 credit the owner 21 and the seller 168 = 210 - 2 * 21, so of
the initial 1000 coins only 979 remain across all accounts: 21 are
burned. -/
theorem dex_C10_fee_burn :
    (∀ (st : State) (h tm : Nat) (a : String) (b : Nat) (i : String) (p : Nat)
        (m : OrderRec) (f : Nat) (w : String), st.owner b = some w →
        opsCoinTotalD (bidFillOps st h tm a b i p (m, f))
          = -((feeOf st b (m.price * f) : Nat) : Int)
        ∧ opsCoinTotalD (askFillOps st h tm a b i (m, f))
          = -((feeOf st b (m.price * f) : Nat) : Int))
    ∧ dexScenarioEnd.coinAvail "building" = 21
    ∧ dexScenarioEnd.coinAvail "seller" = 168
    ∧ ((168 : Int) = 210 - 2 * 21)
    ∧ dexScenarioEnd.coinAvail "buyer" = 590
    ∧ dexScenarioEnd.coinResv "buyer" = 200
    ∧ dexScenarioEnd.coinAvail "gifted" = 0
    ∧ ((1000 : Int) - (590 + 200 + 168 + 21 + 0) = 21) := by
  refine ⟨?_, by decide, by decide, by decide, by decide, by decide, by decide,
    by decide⟩
  intro st h tm a b i p m f w hw
  exact ⟨opsCoinTotalD_bidFillOps_owned st h tm a b i p m f w hw,
    opsCoinTotalD_askFillOps_owned st h tm a b i m f w hw⟩

theorem dex_C10_fee_burn_witness :
    microBook.owner 1 = some "own"
    ∧ opsCoinTotalD (askFillOps microBook 5 50 "s1" 1 "foo"
          (⟨2, 1, "foo", "b1", true, 10, 1⟩, 1))
        = -((feeOf microBook 1
            ((⟨2, 1, "foo", "b1", true, 10, 1⟩ : OrderRec).price * 1) : Nat) : Int) := by
  have hw : microBook.owner 1 = some "own" := by decide
  exact ⟨hw, (dex_C10_fee_burn.1 microBook 5 50 "s1" 1 "foo" 0
    ⟨2, 1, "foo", "b1", true, 10, 1⟩ 1 "own" hw).2⟩

end TaurionDex
